import Mathlib

/-!
# Verification of the pqueue priority-queue / adaptive-sorting library

This file is a shallow embedding, in Lean 4, of the core of the pqueue
library (files pqueue.go and algorithms.go): the priority-queue container,
the seven sorting algorithms, and the strategy-selection heuristic.

Modelling conventions:
* The Go slice pq.data is a Lean List; the logical size is a separate field,
  exactly as in the source.  Indexing data[i] is modelled with dget (getD
  with the Inhabited default, standing for the Go zero value); in-place
  assignment data[i] = x is List.set.
* Go loops become recursive helper functions.  So that every definition is
  computable by the kernel, each loop recurses structurally on an explicit
  iteration-count argument (fuel) while keeping the source's loop guard
  unchanged; every call site passes fuel that covers the loop's iteration
  count (for counted loops, exactly the remaining iteration count), so the
  guard, not the fuel, decides termination.
* Reflection (reflect.ValueOf(...).Int()) is meaningful in the source only
  on integer-kind element types, so the reflection-using helpers
  (getMaxInt, getMinMaxInt, countingSortByDigit, countingSort,
  hasSmallRange) and the dispatching methods that call them
  (chooseOptimalStrategy, SortWithStrategy) are instantiated at T = Int,
  where val.Int() is the identity.  All comparator-only algorithms are
  embedded generically.
* Go functions that can fail return Option: Pop returns (Option T, queue).
  The none case corresponds to the "queue is empty" error.
* In countingSortByDigit, the Go digit expression (v/exp)%10 is negative
  for negative v (Go division truncates, modelled by Int.tdiv/Int.tmod),
  and Go would panic indexing the count array; the embedding takes
  Int.toNat of the digit, which coincides with Go exactly when the digit
  is non-negative.  Every theorem that exercises this code path restricts
  attention to that region.
-/

/-- DataType mirrors the Go enumeration of coarse element-type categories. -/
inductive DataType where
  | IntegerType
  | FloatType
  | StringType
  | SliceType
  | ArrayType
  | StructType
  | MapType
  | PointerType
  | InterfaceType
  | ChannelType
  | FuncType
  | GenericType
deriving DecidableEq, Repr, Inhabited

/-- SortStrategy mirrors the Go enumeration of sorting strategies. -/
inductive SortStrategy where
  | AutoStrategy
  | RadixStrategy
  | CountingStrategy
  | InsertionStrategy
  | TimsortStrategy
  | IntrosortStrategy
  | MergeStrategy
  | QuickStrategy
deriving DecidableEq, Repr, Inhabited

/-- The PQueue state: buffer, comparator, cached type tag, logical size. -/
structure PQueue (T : Type) where
  data : List T
  less : T → T → Bool
  dataType : DataType
  size : Nat

/-- Read data[i]; the default element stands for the Go zero value. -/
def dget {T : Type} [Inhabited T] (d : List T) (i : Nat) : T :=
  d.getD i default

/-- The Go parallel assignment d[i], d[j] = d[j], d[i]. -/
def lswap {T : Type} [Inhabited T] (d : List T) (i j : Nat) : List T :=
  (d.set i (dget d j)).set j (dget d i)

/-- The live prefix data[0..size): the data every operation works on. -/
def live {T : Type} (d : List T) (n : Nat) : List T :=
  d.take n

/-- Well-formedness: the logical size never exceeds the buffer length. -/
def PQueue.WF {T : Type} (pq : PQueue T) : Prop :=
  pq.size ≤ pq.data.length

instance {T : Type} (pq : PQueue T) : Decidable pq.WF := by
  unfold PQueue.WF; infer_instance

/-- Size() returns the number of elements in the queue. -/
def PQueue.Size {T : Type} (pq : PQueue T) : Nat :=
  pq.size

/-- IsEmpty() returns true if the queue is empty. -/
def PQueue.IsEmpty {T : Type} (pq : PQueue T) : Bool :=
  pq.size == 0

/-- Push: grow the buffer (doubling, starting from 1) when full, then
    write the item at index size and increment size. -/
def PQueue.Push {T : Type} [Inhabited T] (pq : PQueue T) (item : T) : PQueue T :=
  let d :=
    if pq.data.length ≤ pq.size then
      let newSize := if pq.data.length * 2 = 0 then 1 else pq.data.length * 2
      pq.data.take pq.size ++ List.replicate (newSize - pq.size) default
    else pq.data
  { pq with data := d.set pq.size item, size := pq.size + 1 }

/-- The minimum-index scan shared by Pop and Peek: for i in [1, size),
    move minIdx to i whenever data[i] is strictly below data[minIdx].
    Entered with fuel = size - 1, the remaining iteration count. -/
def minIdxLoop {T : Type} [Inhabited T] (less : T → T → Bool) (d : List T)
    (size : Nat) : Nat → Nat → Nat → Nat
  | 0, minIdx, _ => minIdx
  | fuel + 1, minIdx, i =>
    if i < size then
      minIdxLoop less d size fuel (if less (dget d i) (dget d minIdx) then i else minIdx) (i + 1)
    else minIdx

/-- Pop: on an empty queue fail (none) leaving the state unchanged;
    otherwise return the scanned minimum, overwrite its slot with the last
    live element and decrement size. -/
def PQueue.Pop {T : Type} [Inhabited T] (pq : PQueue T) : Option T × PQueue T :=
  if pq.size = 0 then (none, pq)
  else
    let m := minIdxLoop pq.less pq.data pq.size (pq.size - 1) 0 1
    (some (dget pq.data m),
      { pq with data := pq.data.set m (dget pq.data (pq.size - 1)), size := pq.size - 1 })

/-- Peek: the same scan as Pop, with no mutation; fails on an empty queue. -/
def PQueue.Peek {T : Type} [Inhabited T] (pq : PQueue T) : Option T :=
  if pq.size = 0 then none
  else some (dget pq.data (minIdxLoop pq.less pq.data pq.size (pq.size - 1) 0 1))

/-- ToSlice() returns a copy of the live prefix data[0..size). -/
def PQueue.ToSlice {T : Type} (pq : PQueue T) : List T :=
  pq.data.take pq.size

/-- The scanning loop of isNearlySorted: count adjacent inversions,
    returning false as soon as the count exceeds the threshold.
    Entered with fuel = size - 1. -/
def nearlyLoop {T : Type} [Inhabited T] (less : T → T → Bool) (d : List T)
    (size threshold : Nat) : Nat → Nat → Nat → Bool
  | 0, _, _ => true
  | fuel + 1, i, inversions =>
    if i < size - 1 then
      if less (dget d (i + 1)) (dget d i) then
        if threshold < inversions + 1 then false
        else nearlyLoop less d size threshold fuel (i + 1) (inversions + 1)
      else nearlyLoop less d size threshold fuel (i + 1) inversions
    else true

/-- isNearlySorted: at most max(1, size/10) adjacent inversions. -/
def PQueue.isNearlySorted {T : Type} [Inhabited T] (pq : PQueue T) : Bool :=
  if pq.size ≤ 1 then true
  else
    let threshold := if pq.size / 10 < 1 then 1 else pq.size / 10
    nearlyLoop pq.less pq.data pq.size threshold (pq.size - 1) 0 0

/-! ## Sort engine: comparator-based algorithms (generic in the element type) -/

/-- The inner shifting loop of insertionSort.  The Nat argument is the Go
    loop variable j plus one, so that the exit value j = -1 is 0. -/
def insInner {T : Type} [Inhabited T] (less : T → T → Bool) (key : T) :
    List T → Nat → List T
  | d, 0 => d.set 0 key
  | d, jp + 1 =>
    if less key (dget d jp) then insInner less key (d.set (jp + 1) (dget d jp)) jp
    else d.set (jp + 1) key

/-- The outer loop of insertionSort: i running up from 1 to size-1.
    Entered with fuel = size - 1. -/
def insLoop {T : Type} [Inhabited T] (less : T → T → Bool) (size : Nat) :
    Nat → List T → Nat → List T
  | 0, d, _ => d
  | fuel + 1, d, i =>
    if i < size then insLoop less size fuel (insInner less (dget d i) d i) (i + 1) else d

/-- insertionSort: classic shift insertion over the live prefix. -/
def PQueue.insertionSort {T : Type} [Inhabited T] (pq : PQueue T) : PQueue T :=
  { pq with data := insLoop pq.less pq.size (pq.size - 1) pq.data 1 }

/-- The inner shifting loop of insertionSortRange, stopping at the range
    base low; the structural Nat argument is again j + 1. -/
def insInnerR {T : Type} [Inhabited T] (less : T → T → Bool) (key : T) (low : Nat) :
    List T → Nat → List T
  | d, 0 => d.set 0 key
  | d, jp + 1 =>
    if low < jp + 1 then
      if less key (dget d jp) then insInnerR less key low (d.set (jp + 1) (dget d jp)) jp
      else d.set (jp + 1) key
    else d.set (jp + 1) key

/-- The outer loop of insertionSortRange: i from low+1 up to high.
    Entered with fuel = high - low. -/
def insLoopR {T : Type} [Inhabited T] (less : T → T → Bool) (low high : Nat) :
    Nat → List T → Nat → List T
  | 0, d, _ => d
  | fuel + 1, d, i =>
    if i ≤ high then insLoopR less low high fuel (insInnerR less (dget d i) low d i) (i + 1)
    else d

/-- insertionSortRange(low, high): insertion sort on the subrange. -/
def insertionSortRangeL {T : Type} [Inhabited T] (less : T → T → Bool)
    (d : List T) (low high : Nat) : List T :=
  insLoopR less low high (high - low) d (low + 1)

/-- The partition loop: j scans [low, high); ip is the Go variable i plus
    one, so it starts at low.  The element is swapped into the left region
    when less(d[j], pivot) or d[j] and pivot are incomparable.
    Entered with fuel = high - low. -/
def partLoop {T : Type} [Inhabited T] (less : T → T → Bool) (pivot : T)
    (high : Nat) : Nat → List T → Nat → Nat → List T × Nat
  | 0, d, ip, _ => (d, ip)
  | fuel + 1, d, ip, j =>
    if j < high then
      if less (dget d j) pivot || (!less pivot (dget d j) && !less (dget d j) pivot) then
        partLoop less pivot high fuel (lswap d ip j) (ip + 1) (j + 1)
      else partLoop less pivot high fuel d ip (j + 1)
    else (d, ip)

/-- partition(low, high): Lomuto partition with d[high] as pivot; returns
    the new buffer and the pivot's final index i+1. -/
def partitionL {T : Type} [Inhabited T] (less : T → T → Bool) (d : List T)
    (low high : Nat) : List T × Nat :=
  let pivot := dget d high
  let r := partLoop less pivot high (high - low) d low low
  (lswap r.1 r.2 high, r.2)

/-- quickSortRange with fuel; the entry point quickSort passes fuel = size,
    which suffices because every recursive call strictly shrinks the
    range. -/
def quickSortRange {T : Type} [Inhabited T] (less : T → T → Bool) :
    Nat → List T → Nat → Nat → List T
  | 0, d, _, _ => d
  | fuel + 1, d, low, high =>
    if low < high then
      let p := partitionL less d low high
      let dL := quickSortRange less fuel p.1 low (p.2 - 1)
      quickSortRange less fuel dL (p.2 + 1) high
    else d

/-- quickSort over the live prefix. -/
def PQueue.quickSort {T : Type} [Inhabited T] (pq : PQueue T) : PQueue T :=
  { pq with data := quickSortRange pq.less pq.size pq.data 0 (pq.size - 1) }

/-- The copy-remainder loops of merge: copy temp[i..bound] to d at k,
    returning the buffer and the final k.  Entered with
    fuel = bound + 1 - i. -/
def copyFrom {T : Type} [Inhabited T] (temp : List T) (bound : Nat) :
    Nat → List T → Nat → Nat → List T × Nat
  | 0, d, _, k => (d, k)
  | fuel + 1, d, i, k =>
    if i ≤ bound then copyFrom temp bound fuel (d.set k (dget temp i)) (i + 1) (k + 1)
    else (d, k)

/-- The main loop of merge: while both halves are nonempty take the smaller
    head, ties favoring the left half; then copy the remainders.
    Entered with fuel = (mid + 1 - i) + (right + 1 - j). -/
def mergeLoop {T : Type} [Inhabited T] (less : T → T → Bool) (temp : List T)
    (mid right : Nat) : Nat → List T → Nat → Nat → Nat → List T
  | 0, d, i, j, k =>
    let r1 := copyFrom temp mid (mid + 1 - i) d i k
    let r2 := copyFrom temp right (right + 1 - j) r1.1 j r1.2
    r2.1
  | fuel + 1, d, i, j, k =>
    if i ≤ mid ∧ j ≤ right then
      if less (dget temp i) (dget temp j) then
        mergeLoop less temp mid right fuel (d.set k (dget temp i)) (i + 1) j (k + 1)
      else if less (dget temp j) (dget temp i) then
        mergeLoop less temp mid right fuel (d.set k (dget temp j)) i (j + 1) (k + 1)
      else
        mergeLoop less temp mid right fuel (d.set k (dget temp i)) (i + 1) j (k + 1)
    else
      let r1 := copyFrom temp mid (mid + 1 - i) d i k
      let r2 := copyFrom temp right (right + 1 - j) r1.1 j r1.2
      r2.1

/-- merge(left, mid, right): the source first copies d[left..right] into the
    scratch buffer temp and reads only that range of temp, so taking the
    whole buffer as the snapshot is an exact model. -/
def mergeL {T : Type} [Inhabited T] (less : T → T → Bool) (d : List T)
    (left mid right : Nat) : List T :=
  mergeLoop less d mid right ((mid + 1 - left) + (right + 1 - (mid + 1))) d left (mid + 1) left

/-- mergeSortRange: top-down recursive merge sort on [left, right], with
    fuel; the entry point passes fuel = right - left, which suffices
    because both halves strictly shrink that measure. -/
def mergeSortRange {T : Type} [Inhabited T] (less : T → T → Bool) :
    Nat → List T → Nat → Nat → List T
  | 0, d, _, _ => d
  | fuel + 1, d, left, right =>
    if left < right then
      let mid := left + (right - left) / 2
      let d1 := mergeSortRange less fuel d left mid
      let d2 := mergeSortRange less fuel d1 (mid + 1) right
      mergeL less d2 left mid right
    else d

/-- mergeSort over the live prefix (no-op when size ≤ 1). -/
def PQueue.mergeSort {T : Type} [Inhabited T] (pq : PQueue T) : PQueue T :=
  if pq.size ≤ 1 then pq
  else { pq with data := mergeSortRange pq.less (pq.size - 1) pq.data 0 (pq.size - 1) }

/-- The largest-selection of heapify: compare the root with its left and
    right children (when inside the heap), reading d[largest] again for the
    second test, exactly as the source does. -/
def heapLargest {T : Type} [Inhabited T] (less : T → T → Bool) (d : List T)
    (base heapSize root : Nat) : Nat :=
  let l := 2 * (root - base) + 1 + base
  let r := 2 * (root - base) + 2 + base
  let largest1 := if l < base + heapSize && less (dget d root) (dget d l) then l else root
  if r < base + heapSize && less (dget d largest1) (dget d r) then r else largest1

theorem heapLargest_eq_or {T : Type} [Inhabited T] (less : T → T → Bool)
    (d : List T) (base heapSize root : Nat) :
    heapLargest less d base heapSize root = root ∨
      (root < heapLargest less d base heapSize root ∧
        heapLargest less d base heapSize root < base + heapSize) := by
  unfold heapLargest
  dsimp only
  split
  · next h1 =>
    split
    · next h2 =>
      rw [Bool.and_eq_true, decide_eq_true_eq] at h2
      exact Or.inr ⟨by omega, h2.1⟩
    · rw [Bool.and_eq_true, decide_eq_true_eq] at h1
      exact Or.inr ⟨by omega, h1.1⟩
  · next h1 =>
    split
    · next h2 =>
      rw [Bool.and_eq_true, decide_eq_true_eq] at h2
      exact Or.inr ⟨by omega, h2.1⟩
    · exact Or.inl rfl

/-- heapify: sift the root of a max-heap (heap order given by less) that
    lives at offset base with the given heap size.  The sift path visits
    strictly increasing positions below base + heapSize, so every call
    site passes fuel = heapSize, which suffices. -/
def heapify {T : Type} [Inhabited T] (less : T → T → Bool) :
    Nat → List T → Nat → Nat → Nat → List T
  | 0, d, _, _, _ => d
  | fuel + 1, d, base, heapSize, root =>
    let largest := heapLargest less d base heapSize root
    if largest ≠ root then heapify less fuel (lswap d root largest) base heapSize largest
    else d

/-- The heap-building loop of heapSortRange: the structural Nat argument
    counts the remaining iterations, so Go's i runs size/2-1, ..., 0. -/
def buildHeapLoop {T : Type} [Inhabited T] (less : T → T → Bool) (low heapSize : Nat) :
    List T → Nat → List T
  | d, 0 => d
  | d, n + 1 => buildHeapLoop less low heapSize (heapify less heapSize d low heapSize (low + n)) n

/-- The extraction loop of heapSortRange: for i = size-1 down to 1, swap
    d[low] with d[low+i] and re-heapify the first i slots. -/
def extractLoop {T : Type} [Inhabited T] (less : T → T → Bool) (low : Nat) :
    List T → Nat → List T
  | d, 0 => d
  | d, i + 1 =>
    extractLoop less low (heapify less (i + 1) (lswap d low (low + (i + 1))) low (i + 1) low) i

/-- heapSortRange(low, high): in-place heapsort of the subrange. -/
def heapSortRange {T : Type} [Inhabited T] (less : T → T → Bool) (d : List T)
    (low high : Nat) : List T :=
  let size := high - low + 1
  extractLoop less low (buildHeapLoop less low size d (size / 2)) (size - 1)

/-- introsortRange with fuel (the entry point passes fuel = size, which
    suffices because partition strictly shrinks the range). -/
def introsortRange {T : Type} [Inhabited T] (less : T → T → Bool) :
    Nat → List T → Nat → Nat → Nat → List T
  | 0, d, _, _, _ => d
  | fuel + 1, d, low, high, depth =>
    if high - low + 1 ≤ 16 then insertionSortRangeL less d low high
    else if depth = 0 then heapSortRange less d low high
    else
      let p := partitionL less d low high
      let dL := introsortRange less fuel p.1 low (p.2 - 1) (depth - 1)
      introsortRange less fuel dL (p.2 + 1) high (depth - 1)

/-- Floor of log2, as the kernel-computable counterpart of Go's
    int(math.Log2(float64(n))) (exact for every feasible size). -/
def log2Aux : Nat → Nat → Nat
  | 0, _ => 0
  | fuel + 1, n => if n ≤ 1 then 0 else 1 + log2Aux fuel (n / 2)

/-- Floor of log2 (0 for inputs 0 and 1). -/
def log2floor (n : Nat) : Nat :=
  log2Aux n n

/-- introsort: depth budget 2*floor(log2 size). -/
def PQueue.introsort {T : Type} [Inhabited T] (pq : PQueue T) : PQueue T :=
  let maxDepth := 2 * log2floor pq.size
  { pq with data := introsortRange pq.less pq.size pq.data 0 (pq.size - 1) maxDepth }

/-- reverse(start, end): two-pointer in-place segment reversal.
    Entered with fuel = e - s (the pointers close in by two per step, so
    the guard exits first). -/
def revRange {T : Type} [Inhabited T] : Nat → List T → Nat → Nat → List T
  | 0, d, _, _ => d
  | fuel + 1, d, s, e => if s < e then revRange fuel (lswap d s e) (s + 1) (e - 1) else d

/-- The ascending-run scan of findRuns: starting at i, advance while the
    strictly-ascending condition holds; returns the final i.
    Entered with fuel = size - 1 - i. -/
def ascEnd {T : Type} [Inhabited T] (less : T → T → Bool) (d : List T)
    (size : Nat) : Nat → Nat → Nat
  | 0, i => i
  | fuel + 1, i =>
    if i < size - 1 then
      if less (dget d i) (dget d (i + 1)) then ascEnd less d size fuel (i + 1) else i
    else i

/-- The non-ascending-run scan of findRuns: advance while the next pair is
    descending or incomparable.  Entered with fuel = size - 1 - i. -/
def descEnd {T : Type} [Inhabited T] (less : T → T → Bool) (d : List T)
    (size : Nat) : Nat → Nat → Nat
  | 0, i => i
  | fuel + 1, i =>
    if i < size - 1 then
      if less (dget d (i + 1)) (dget d i) ||
          (!less (dget d i) (dget d (i + 1)) && !less (dget d (i + 1)) (dget d i)) then
        descEnd less d size fuel (i + 1)
      else i
    else i

/-- The main loop of findRuns: returns the buffer (descending runs get
    reversed in place) together with the appended run boundaries.
    Entered with fuel = size - 1; each iteration advances i by at least
    one, so the guard exits before the fuel does. -/
def findRunsGo {T : Type} [Inhabited T] (less : T → T → Bool) :
    Nat → List T → Nat → Nat → List T × List Nat
  | 0, d, _, _ => (d, [])
  | fuel + 1, d, size, i =>
    if i < size - 1 then
      if less (dget d i) (dget d (i + 1)) then
        let e := ascEnd less d size (size - 1 - i) i
        let r := findRunsGo less fuel d size (e + 1)
        (r.1, (e + 1) :: r.2)
      else
        let e := descEnd less d size (size - 1 - i) i
        let d' := revRange (e - i) d i e
        let r := findRunsGo less fuel d' size (e + 1)
        (r.1, (e + 1) :: r.2)
    else (d, [])

/-- findRuns: boundary list starting at 0; a final boundary size is added
    when the last recorded boundary is not already size. -/
def findRuns {T : Type} [Inhabited T] (less : T → T → Bool) (d : List T)
    (size : Nat) : List T × List Nat :=
  let r := findRunsGo less (size - 1) d size 0
  let runs := 0 :: r.2
  (r.1, if runs.getLastD 0 ≠ size then runs ++ [size] else runs)

/-- One pairwise-merging pass of mergeRuns: given the previous boundary and
    the remaining ones, merge adjacent run pairs and collect the surviving
    boundaries (an odd trailing run is carried over unmerged). -/
def mergePassGo {T : Type} [Inhabited T] (less : T → T → Bool) :
    List T → Nat → List Nat → List T × List Nat
  | d, prev, b1 :: b2 :: rest =>
    let d' := mergeL less d prev (b1 - 1) (b2 - 1)
    let r := mergePassGo less d' b2 rest
    (r.1, b2 :: r.2)
  | d, _, [b1] => (d, [b1])
  | d, _, [] => (d, [])

/-- The outer loop of mergeRuns, with fuel (the entry point passes the
    boundary-list length, which suffices since every pass shrinks it). -/
def mergeRunsLoop {T : Type} [Inhabited T] (less : T → T → Bool) :
    Nat → List T → List Nat → List T
  | 0, d, _ => d
  | fuel + 1, d, runs =>
    if 2 < runs.length then
      match runs with
      | r0 :: rest =>
        let r := mergePassGo less d r0 rest
        mergeRunsLoop less fuel r.1 (r0 :: r.2)
      | [] => d
    else d

/-- timsort: insertion sort for size ≤ 32 (minMerge), otherwise find runs
    and merge them pairwise until one run remains. -/
def PQueue.timsort {T : Type} [Inhabited T] (pq : PQueue T) : PQueue T :=
  if pq.size ≤ 32 then pq.insertionSort
  else
    let fr := findRuns pq.less pq.data pq.size
    { pq with data := mergeRunsLoop pq.less fr.2.length fr.1 fr.2 }

/-! ## Integer-specific algorithms (reflection modelled at T = Int) -/

/-- The scan of getMaxInt: max over the live elements starting from 0
    (the element kind test is always true at T = Int).
    Entered with fuel = size. -/
def getMaxLoop (d : List Int) (size : Nat) : Nat → Nat → Int → Int
  | 0, _, mx => mx
  | fuel + 1, i, mx =>
    if i < size then getMaxLoop d size fuel (i + 1) (if mx < dget d i then dget d i else mx)
    else mx

/-- getMaxInt: maximum of the live elements and 0 (0 for an empty queue). -/
def PQueue.getMaxInt (pq : PQueue Int) : Int :=
  if pq.size = 0 then 0
  else getMaxLoop pq.data pq.size pq.size 0 0

/-- The scan of getMinMaxInt, starting from the first live element.
    Entered with fuel = size - 1. -/
def getMinMaxLoop (d : List Int) (size : Nat) : Nat → Nat → Int → Int → Int × Int
  | 0, _, mn, mx => (mn, mx)
  | fuel + 1, i, mn, mx =>
    if i < size then
      getMinMaxLoop d size fuel (i + 1)
        (if dget d i < mn then dget d i else mn)
        (if mx < dget d i then dget d i else mx)
    else (mn, mx)

/-- getMinMaxInt: minimum and maximum of the live elements ((0,0) when
    empty). -/
def PQueue.getMinMaxInt (pq : PQueue Int) : Int × Int :=
  if pq.size = 0 then (0, 0)
  else getMinMaxLoop pq.data pq.size (pq.size - 1) 1 (dget pq.data 0) (dget pq.data 0)

/-- hasSmallRange: integer tag, nonempty, and max - min at most 1000. -/
def PQueue.hasSmallRange (pq : PQueue Int) : Bool :=
  if pq.dataType ≠ DataType.IntegerType ∨ pq.size = 0 then false
  else decide (pq.getMinMaxInt.2 - pq.getMinMaxInt.1 ≤ 1000)

/-- The Go digit expression (v / exp) %% 10 with truncating division. -/
def goDigit (v exp : Int) : Int :=
  (v.tdiv exp).tmod 10

/-- The digit-counting loop of countingSortByDigit.
    Entered with fuel = size. -/
def cntLoopDigit (d : List Int) (size : Nat) (exp : Int) :
    Nat → List Nat → Nat → List Nat
  | 0, count, _ => count
  | fuel + 1, count, i =>
    if i < size then
      let digit := (goDigit (dget d i) exp).toNat
      cntLoopDigit d size exp fuel (count.set digit (count.getD digit 0 + 1)) (i + 1)
    else count

/-- The prefix-sum loop: count[i] += count[i-1] for i in [1, 10). -/
def prefixSumLoop : Nat → List Nat → Nat → List Nat
  | 0, count, _ => count
  | fuel + 1, count, i =>
    if i < 10 then
      prefixSumLoop fuel (count.set i (count.getD i 0 + count.getD (i - 1) 0)) (i + 1)
    else count

/-- The placement loop of countingSortByDigit: i from size-1 down to 0,
    write d[i] at output[count[digit]-1] and decrement the count.  The
    structural Nat argument is i + 1. -/
def placeLoop (d : List Int) (exp : Int) : List Int → List Nat → Nat → List Int × List Nat
  | output, count, 0 => (output, count)
  | output, count, ip + 1 =>
    let digit := (goDigit (dget d ip) exp).toNat
    let c := count.getD digit 0
    placeLoop d exp (output.set (c - 1) (dget d ip)) (count.set digit (c - 1)) ip

/-- countingSortByDigit(exp): one stable counting pass keyed on the decimal
    digit at exp; the output buffer (zero-initialised by make) replaces the
    live prefix. -/
def countingSortByDigitL (d : List Int) (size : Nat) (exp : Int) : List Int :=
  let count := cntLoopDigit d size exp size (List.replicate 10 0) 0
  let count2 := prefixSumLoop 9 count 1
  let output := List.replicate size 0
  let r := placeLoop d exp output count2 size
  r.1 ++ d.drop size

/-- The digit loop of radixSort: exp = 1, 10, 100, ... while
    maxVal / exp > 0.  The pass count is the digit count of maxVal, so the
    entry fuel maxVal.toNat + 1 suffices. -/
def radixLoop (size : Nat) (maxVal : Int) : Nat → List Int → Int → List Int
  | 0, d, _ => d
  | fuel + 1, d, exp =>
    if 0 < maxVal.tdiv exp then
      radixLoop size maxVal fuel (countingSortByDigitL d size exp) (exp * 10)
    else d

/-- radixSort: quickSort fallback for non-integer tags; return unchanged
    when the computed maximum is not positive; otherwise run one counting
    pass per decimal digit of the maximum. -/
def PQueue.radixSort (pq : PQueue Int) : PQueue Int :=
  if pq.dataType ≠ DataType.IntegerType then pq.quickSort
  else
    let maxVal := pq.getMaxInt
    if maxVal ≤ 0 then pq
    else { pq with data := radixLoop pq.size maxVal (maxVal.toNat + 1) pq.data 1 }

/-- The counting loop of countingSort: count[value - min]++ for each live
    element.  Entered with fuel = size. -/
def cntLoopVal (d : List Int) (size : Nat) (minVal : Int) :
    Nat → List Nat → Nat → List Nat
  | 0, count, _ => count
  | fuel + 1, count, i =>
    if i < size then
      let index := (dget d i - minVal).toNat
      cntLoopVal d size minVal fuel (count.set index (count.getD index 0 + 1)) (i + 1)
    else count

/-- The inner reconstruction loop: write the value v count-many times
    starting at pos. -/
def fillRun (v : Int) : List Int → Nat → Nat → List Int × Nat
  | d, pos, 0 => (d, pos)
  | d, pos, c + 1 => fillRun v (d.set pos v) (pos + 1) c

/-- The outer reconstruction loop of countingSort over the count table.
    Entered with fuel = count.length. -/
def reconLoop (minVal : Int) (count : List Nat) : Nat → List Int → Nat → Nat → List Int
  | 0, d, _, _ => d
  | fuel + 1, d, pos, i =>
    if i < count.length then
      let r := fillRun (minVal + i) d pos (count.getD i 0)
      reconLoop minVal count fuel r.1 r.2 (i + 1)
    else d

/-- countingSort: quickSort fallback for non-integer tags and for ranges
    above 10000; otherwise count values and rewrite the live prefix in
    ascending value order. -/
def PQueue.countingSort (pq : PQueue Int) : PQueue Int :=
  if pq.dataType ≠ DataType.IntegerType then pq.quickSort
  else
    let mm := pq.getMinMaxInt
    if 10000 < mm.2 - mm.1 then pq.quickSort
    else
      let count := cntLoopVal pq.data pq.size mm.1 pq.size
        (List.replicate (mm.2 - mm.1 + 1).toNat 0) 0
      { pq with data := reconLoop mm.1 count count.length pq.data 0 0 }

/-! ## Strategy selection and dispatch -/

/-- chooseOptimalStrategy: the priority-ordered selection heuristic. -/
def PQueue.chooseOptimalStrategy (pq : PQueue Int) : SortStrategy :=
  let n := pq.size
  if n ≤ 16 then SortStrategy.InsertionStrategy
  else if pq.isNearlySorted then SortStrategy.InsertionStrategy
  else if pq.dataType = DataType.IntegerType ∧ 100 < n then
    if pq.hasSmallRange then SortStrategy.CountingStrategy else SortStrategy.RadixStrategy
  else if pq.dataType = DataType.StringType then
    if 1000 < n then SortStrategy.IntrosortStrategy else SortStrategy.TimsortStrategy
  else if pq.dataType = DataType.SliceType ∨ pq.dataType = DataType.ArrayType then
    SortStrategy.MergeStrategy
  else if pq.dataType = DataType.StructType ∨ pq.dataType = DataType.InterfaceType then
    if 1000 < n then SortStrategy.IntrosortStrategy else SortStrategy.TimsortStrategy
  else if pq.dataType = DataType.PointerType ∨ pq.dataType = DataType.MapType ∨
      pq.dataType = DataType.ChannelType ∨ pq.dataType = DataType.FuncType then
    SortStrategy.QuickStrategy
  else if 1000 < n then SortStrategy.IntrosortStrategy
  else SortStrategy.TimsortStrategy

/-- SortWithStrategy: early return for size ≤ 1; Auto resolves through
    chooseOptimalStrategy; Radix and Counting fall back to quickSort on a
    non-integer tag. -/
def PQueue.SortWithStrategy (pq : PQueue Int) (strategy : SortStrategy) : PQueue Int :=
  if pq.size ≤ 1 then pq
  else
    let actual := if strategy = SortStrategy.AutoStrategy then pq.chooseOptimalStrategy
      else strategy
    match actual with
    | SortStrategy.InsertionStrategy => pq.insertionSort
    | SortStrategy.TimsortStrategy => pq.timsort
    | SortStrategy.IntrosortStrategy => pq.introsort
    | SortStrategy.MergeStrategy => pq.mergeSort
    | SortStrategy.QuickStrategy => pq.quickSort
    | SortStrategy.RadixStrategy =>
      if pq.dataType = DataType.IntegerType then pq.radixSort else pq.quickSort
    | SortStrategy.CountingStrategy =>
      if pq.dataType = DataType.IntegerType then pq.countingSort else pq.quickSort
    | _ => pq.quickSort

/-- Sort() is SortWithStrategy(AutoStrategy). -/
def PQueue.sortAuto (pq : PQueue Int) : PQueue Int :=
  pq.SortWithStrategy SortStrategy.AutoStrategy

/-- The natural integer comparator installed by NewInts. -/
def intLess (a b : Int) : Bool :=
  decide (a < b)

/-- NewInts: construct from an initial list (copied) with the natural
    comparator; the reflective type inference yields IntegerType for a
    nonempty initial list and GenericType for an empty one. -/
def NewInts (data : List Int) : PQueue Int :=
  { data := data
    less := intLess
    dataType := if data.isEmpty then DataType.GenericType else DataType.IntegerType
    size := data.length }

/-! ## Infrastructure: index-level lemmas about the buffer model -/

theorem dget_set_self {T : Type} [Inhabited T] {d : List T} {i : Nat} (x : T)
    (h : i < d.length) : dget (d.set i x) i = x := by
  simp [dget, List.getD_eq_getElem?_getD, List.getElem?_set_self h]

theorem dget_set_ne {T : Type} [Inhabited T] {d : List T} {i j : Nat} (x : T)
    (h : i ≠ j) : dget (d.set i x) j = dget d j := by
  simp [dget, List.getD_eq_getElem?_getD, List.getElem?_set_ne h]

theorem dget_set {T : Type} [Inhabited T] {d : List T} {i j : Nat} (x : T)
    (h : i < d.length) :
    dget (d.set i x) j = if i = j then x else dget d j := by
  by_cases hij : i = j
  · subst hij; simp [dget_set_self x h]
  · simp [hij, dget_set_ne x hij]

theorem dget_of_getElem {T : Type} [Inhabited T] {d : List T} {i : Nat}
    (h : i < d.length) : dget d i = d[i] := by
  simp [dget, List.getD_eq_getElem?_getD, List.getElem?_eq_getElem h]

theorem dget_oob {T : Type} [Inhabited T] {d : List T} {i : Nat}
    (h : d.length ≤ i) : dget d i = default := by
  simp [dget, List.getD_eq_getElem?_getD, List.getElem?_eq_none h]

@[simp] theorem length_lswap {T : Type} [Inhabited T] (d : List T) (i j : Nat) :
    (lswap d i j).length = d.length := by
  simp [lswap]

theorem dget_lswap_fst {T : Type} [Inhabited T] {d : List T} {i j : Nat}
    (hi : i < d.length) (hj : j < d.length) : dget (lswap d i j) i = dget d j := by
  unfold lswap
  by_cases hij : j = i
  · subst hij; rw [dget_set_self _ (by simpa using hi)]
  · rw [dget_set_ne _ hij, dget_set_self _ hi]

theorem dget_lswap_snd {T : Type} [Inhabited T] {d : List T} {i j : Nat}
    (hj : j < d.length) : dget (lswap d i j) j = dget d i := by
  unfold lswap
  rw [dget_set_self _ (by simpa using hj)]

theorem dget_lswap_other {T : Type} [Inhabited T] {d : List T} {i j k : Nat}
    (hik : i ≠ k) (hjk : j ≠ k) : dget (lswap d i j) k = dget d k := by
  unfold lswap
  rw [dget_set_ne _ hjk, dget_set_ne _ hik]

/-- The inclusive segment d[lo..hi], read through dget. -/
def seg {T : Type} [Inhabited T] (d : List T) (lo hi : Nat) : List T :=
  (List.range' lo (hi + 1 - lo)).map (dget d)

@[simp] theorem seg_length {T : Type} [Inhabited T] (d : List T) (lo hi : Nat) :
    (seg d lo hi).length = hi + 1 - lo := by
  simp [seg]

theorem seg_getElem {T : Type} [Inhabited T] (d : List T) (lo hi m : Nat)
    (h : m < (seg d lo hi).length) :
    (seg d lo hi)[m] = dget d (lo + m) := by
  simp [seg]

theorem mem_seg {T : Type} [Inhabited T] {d : List T} {lo hi : Nat} {x : T} :
    x ∈ seg d lo hi ↔ ∃ k, lo ≤ k ∧ k ≤ hi ∧ dget d k = x := by
  simp only [seg, List.mem_map, List.mem_range']
  constructor
  · rintro ⟨k, ⟨i, hlt, rfl⟩, hk3⟩
    exact ⟨lo + 1 * i, by omega, by omega, hk3⟩
  · rintro ⟨k, hk1, hk2, hk3⟩
    exact ⟨k, ⟨k - lo, by omega, by omega⟩, hk3⟩

theorem dget_mem_seg {T : Type} [Inhabited T] {d : List T} {lo hi k : Nat}
    (h1 : lo ≤ k) (h2 : k ≤ hi) : dget d k ∈ seg d lo hi :=
  mem_seg.mpr ⟨k, h1, h2, rfl⟩

theorem seg_congr {T : Type} [Inhabited T] {d d' : List T} {lo hi : Nat}
    (h : ∀ k, lo ≤ k → k ≤ hi → dget d' k = dget d k) :
    seg d' lo hi = seg d lo hi := by
  unfold seg
  apply List.map_congr_left
  intro k hk
  rw [List.mem_range'] at hk
  obtain ⟨i, hlt, rfl⟩ := hk
  exact h _ (by omega) (by omega)

theorem seg_split {T : Type} [Inhabited T] (d : List T) {lo m hi : Nat}
    (h1 : lo ≤ m + 1) (h2 : m ≤ hi) :
    seg d lo hi = seg d lo m ++ seg d (m + 1) hi := by
  unfold seg
  rw [← List.map_append]
  congr 1
  have h3 := List.range'_append_1 lo (m + 1 - lo) (hi + 1 - (m + 1))
  rw [show lo + (m + 1 - lo) = m + 1 by omega] at h3
  rw [h3, show hi + 1 - (m + 1) + (m + 1 - lo) = hi + 1 - lo by omega]

theorem seg_set_inside {T : Type} [Inhabited T] {d : List T} {lo hi k : Nat} (x : T)
    (h1 : lo ≤ k) (h2 : k ≤ hi) (hk : k < d.length) :
    seg (d.set k x) lo hi = (seg d lo hi).set (k - lo) x := by
  apply List.ext_getElem
  · simp
  · intro m hm1 hm2
    have hm : m < hi + 1 - lo := by simpa using hm1
    rw [seg_getElem _ _ _ _ (by simp; omega), List.getElem_set]
    by_cases hmk : k - lo = m
    · rw [if_pos hmk]
      have hx : lo + m = k := by omega
      rw [hx, dget_set_self x hk]
    · rw [if_neg hmk, dget_set_ne x (by omega), seg_getElem _ _ _ _ (by simp; omega)]

theorem set_getElem_self_eq {T : Type} (l : List T) (i : Nat) (hi : i < l.length) :
    l.set i l[i] = l := by
  apply List.ext_getElem
  · simp
  · intro m hm1 hm2
    rw [List.getElem_set]
    split
    · next h => subst h; rfl
    · rfl

/-- Replacing the j-th element by x and moving the old value to the head is
    a permutation of putting x at the head. -/
theorem cons_set_swap_perm {T : Type} (t : List T) (j : Nat) (hj : j < t.length)
    (x : T) : (t[j] :: t.set j x).Perm (x :: t) := by
  have hdecomp : t.take j ++ t[j] :: t.drop (j + 1) = t := by
    rw [List.getElem_cons_drop]
    exact List.take_append_drop j t
  have hset : t.set j x = t.take j ++ x :: t.drop (j + 1) := by
    rw [List.set_eq_take_append_cons_drop, if_pos hj]
  rw [hset]
  refine List.Perm.trans (List.Perm.cons _ List.perm_middle) ?_
  refine List.Perm.trans (List.Perm.swap _ _ _) ?_
  refine List.Perm.cons _ ?_
  refine List.Perm.trans List.perm_middle.symm ?_
  rw [hdecomp]

/-- Swapping two in-range positions of a list is a permutation
    (getElem form). -/
theorem swap_perm_getElem {T : Type} :
    ∀ (l : List T) (i j : Nat) (hi : i < l.length) (hj : j < l.length),
      ((l.set i l[j]).set j l[i]).Perm l
  | [], i, j, hi, _ => absurd hi (by simp)
  | a :: t, 0, 0, _, _ => by
    simp only [List.getElem_cons_zero, List.set_cons_zero]
    exact List.Perm.refl _
  | a :: t, 0, m + 1, _, hj => by
    simp only [List.getElem_cons_zero, List.getElem_cons_succ, List.set_cons_zero,
      List.set_cons_succ]
    exact cons_set_swap_perm t m (by simpa using hj) a
  | a :: t, n + 1, 0, hi, _ => by
    simp only [List.getElem_cons_zero, List.getElem_cons_succ, List.set_cons_succ,
      List.set_cons_zero]
    exact cons_set_swap_perm t n (by simpa using hi) a
  | a :: t, n + 1, m + 1, hi, hj => by
    simp only [List.getElem_cons_succ, List.set_cons_succ]
    exact List.Perm.cons a (swap_perm_getElem t n m (by simpa using hi) (by simpa using hj))

/-- Swapping two in-range positions of a list is a permutation
    (dget form). -/
theorem set_set_swap_perm {T : Type} [Inhabited T] (l : List T) (i j : Nat)
    (hi : i < l.length) (hj : j < l.length) :
    ((l.set i (dget l j)).set j (dget l i)).Perm l := by
  rw [dget_of_getElem hi, dget_of_getElem hj]
  exact swap_perm_getElem l i j hi hj

/-! ## Strict weak orders and sortedness -/

/-- Strict weak order on a Bool comparator, through two laws equivalent to
    the usual irreflexive/transitive/incomparability-transitive form:
    asymmetry and transitivity of the complement. -/
structure SWO {T : Type} (less : T → T → Bool) : Prop where
  asymm : ∀ a b, less a b = true → less b a = false
  le_trans : ∀ a b c, less a b = false → less b c = false → less a c = false

theorem SWO.irrefl {T : Type} {less : T → T → Bool} (h : SWO less) (a : T) :
    less a a = false := by
  cases hab : less a a
  · rfl
  · have h2 := h.asymm a a hab
    rw [hab] at h2
    exact h2

theorem SWO.lt_trans {T : Type} {less : T → T → Bool} (h : SWO less) {a b c : T}
    (h1 : less a b = true) (h2 : less b c = true) : less a c = true := by
  cases hac : less a c
  · have h3 := h.asymm b c h2
    have h4 := h.le_trans a c b hac h3
    rw [h4] at h1
    exact h1.symm ▸ (by simp at h1)
  · rfl

theorem SWO.lt_of_lt_of_nlt {T : Type} {less : T → T → Bool} (h : SWO less) {a b c : T}
    (h1 : less a b = true) (h2 : less c b = false) : less a c = true := by
  cases hac : less a c
  · have := h.le_trans a c b hac h2
    rw [this] at h1
    cases h1
  · rfl

theorem SWO.lt_of_nlt_of_lt {T : Type} {less : T → T → Bool} (h : SWO less) {a b c : T}
    (h1 : less b a = false) (h2 : less b c = true) : less a c = true := by
  cases hac : less a c
  · have := h.le_trans b a c h1 hac
    rw [this] at h2
    cases h2
  · rfl

/-- The partition predicate less(x,p) or incomparable(x,p) collapses, under
    asymmetry, to not less(p,x). -/
theorem partition_cond_eq {T : Type} {less : T → T → Bool} (h : SWO less) (x p : T) :
    (less x p || (!less p x && !less x p)) = !less p x := by
  cases hxp : less x p
  · simp [hxp]
  · simp [hxp, h.asymm x p hxp]

/-- The natural integer order is a strict weak order. -/
theorem intLess_SWO : SWO intLess := by
  constructor
  · intro a b hab
    simp only [intLess, decide_eq_true_eq] at hab
    simpa [intLess] using by omega
  · intro a b c hab hbc
    simp only [intLess, decide_eq_false_iff_not] at hab hbc ⊢
    omega

/-- Adjacent non-decreasingness of the live prefix d[0..n): for every
    adjacent pair, less(data[i+1], data[i]) is false.  This is the form the
    specification states. -/
def SortedLive {T : Type} [Inhabited T] (less : T → T → Bool) (d : List T) (n : Nat) : Prop :=
  ∀ i < n - 1, less (dget d (i + 1)) (dget d i) = false

instance {T : Type} [Inhabited T] (less : T → T → Bool) (d : List T) (n : Nat) :
    Decidable (SortedLive less d n) := by
  unfold SortedLive; infer_instance

/-- Full pairwise sortedness of the inclusive segment [lo, hi]. -/
def SortedSeg {T : Type} [Inhabited T] (less : T → T → Bool) (d : List T) (lo hi : Nat) : Prop :=
  ∀ i j, lo ≤ i → i < j → j ≤ hi → less (dget d j) (dget d i) = false

theorem SortedSeg.weaken {T : Type} [Inhabited T] {less : T → T → Bool} {d : List T}
    {lo hi lo' hi' : Nat} (h : SortedSeg less d lo hi) (h1 : lo ≤ lo') (h2 : hi' ≤ hi) :
    SortedSeg less d lo' hi' := fun i j hi1 hij hj1 =>
  h i j (by omega) hij (by omega)

theorem sortedSeg_of_adjacent {T : Type} [Inhabited T] {less : T → T → Bool}
    (hswo : SWO less) {d : List T} {lo hi : Nat}
    (h : ∀ i, lo ≤ i → i < hi → less (dget d (i + 1)) (dget d i) = false) :
    SortedSeg less d lo hi := by
  intro i j hi1 hij hj1
  induction j with
  | zero => omega
  | succ m ih =>
    by_cases him : i = m
    · subst him
      exact h i hi1 (by omega)
    · exact hswo.le_trans _ _ _ (h m (by omega) (by omega)) (ih (by omega) (by omega))

theorem sortedLive_iff_sortedSeg {T : Type} [Inhabited T] {less : T → T → Bool}
    (hswo : SWO less) {d : List T} {n : Nat} (hn : 0 < n) :
    SortedLive less d n ↔ SortedSeg less d 0 (n - 1) := by
  constructor
  · intro h
    exact sortedSeg_of_adjacent hswo (fun i _ h2 => h i (by omega))
  · intro h i hi
    exact h i (i + 1) (by omega) (by omega) (by omega)

/-! ## Localized buffer operations -/

/-- A buffer-to-buffer operation that only touches the inclusive index
    range [lo, hi]: the length is preserved, every cell outside the range
    is preserved, and the segment is permuted. -/
structure SegOp {T : Type} [Inhabited T] (d d' : List T) (lo hi : Nat) : Prop where
  len : d'.length = d.length
  frame : ∀ k, k < lo ∨ hi < k → dget d' k = dget d k
  perm : (seg d' lo hi).Perm (seg d lo hi)

theorem SegOp.refl {T : Type} [Inhabited T] (d : List T) (lo hi : Nat) :
    SegOp d d lo hi :=
  ⟨rfl, fun _ _ => rfl, List.Perm.refl _⟩

theorem SegOp.trans {T : Type} [Inhabited T] {d1 d2 d3 : List T} {lo hi : Nat}
    (h1 : SegOp d1 d2 lo hi) (h2 : SegOp d2 d3 lo hi) : SegOp d1 d3 lo hi :=
  ⟨h2.len.trans h1.len, fun k hk => (h2.frame k hk).trans (h1.frame k hk),
    h2.perm.trans h1.perm⟩

/-- Widening the touched range of a localized operation. -/
theorem SegOp.mono {T : Type} [Inhabited T] {d d' : List T} {lo hi lo' hi' : Nat}
    (h : SegOp d d' lo hi) (h1 : lo' ≤ lo) (h2 : hi ≤ hi') (h3 : lo ≤ hi + 1) :
    SegOp d d' lo' hi' := by
  refine ⟨h.len, fun k hk => h.frame k (by omega), ?_⟩
  by_cases hlo : lo = 0
  · subst hlo
    have hlo' : lo' = 0 := by omega
    subst hlo'
    rw [seg_split d' (by omega) h2, seg_split d (by omega) h2]
    refine List.Perm.append h.perm ?_
    exact List.Perm.of_eq (seg_congr (fun k hk1 hk2 => h.frame k (by omega)))
  · rw [seg_split d' (show lo' ≤ (lo - 1) + 1 by omega) (show lo - 1 ≤ hi' by omega),
      seg_split d (show lo' ≤ (lo - 1) + 1 by omega) (show lo - 1 ≤ hi' by omega)]
    rw [show lo - 1 + 1 = lo by omega]
    rw [seg_split d' (show lo ≤ hi + 1 by omega) h2, seg_split d (show lo ≤ hi + 1 by omega) h2]
    refine List.Perm.append ?_ (List.Perm.append h.perm ?_)
    · exact List.Perm.of_eq (seg_congr (fun k hk1 hk2 => h.frame k (by omega)))
    · exact List.Perm.of_eq (seg_congr (fun k hk1 hk2 => h.frame k (by omega)))

/-- A swap of two positions inside [lo, hi] (in range of the buffer) is a
    localized operation. -/
theorem SegOp.of_lswap {T : Type} [Inhabited T] {d : List T} {lo hi i j : Nat}
    (hi1 : lo ≤ i) (hi2 : i ≤ hi) (hj1 : lo ≤ j) (hj2 : j ≤ hi)
    (hil : i < d.length) (hjl : j < d.length) :
    SegOp d (lswap d i j) lo hi := by
  refine ⟨by simp, fun k hk => dget_lswap_other (by omega) (by omega), ?_⟩
  unfold lswap
  rw [seg_set_inside _ (show lo ≤ j by omega) (show j ≤ hi by omega) (by simpa using hjl)]
  rw [seg_set_inside _ (show lo ≤ i by omega) (show i ≤ hi by omega) hil]
  have hb1 : j - lo < (seg d lo hi).length := by simp; omega
  have hb2 : i - lo < (seg d lo hi).length := by simp; omega
  have hg1 : dget d j = (seg d lo hi)[j - lo] := by
    rw [seg_getElem d lo hi (j - lo) hb1, show lo + (j - lo) = j by omega]
  have hg2 : dget d i = (seg d lo hi)[i - lo] := by
    rw [seg_getElem d lo hi (i - lo) hb2, show lo + (i - lo) = i by omega]
  rw [hg1, hg2]
  exact swap_perm_getElem (seg d lo hi) (i - lo) (j - lo) (by simp; omega) (by simp; omega)

/-- Membership transfer: after a localized operation every segment cell
    holds a value that was in the original segment. -/
theorem SegOp.dget_mem {T : Type} [Inhabited T] {d d' : List T} {lo hi : Nat}
    (h : SegOp d d' lo hi) {k : Nat} (h1 : lo ≤ k) (h2 : k ≤ hi) :
    dget d' k ∈ seg d lo hi :=
  h.perm.subset (dget_mem_seg h1 h2)

/-! ## Specifications of the scanning loops -/

theorem seg_empty {T : Type} [Inhabited T] (d : List T) {lo hi : Nat}
    (h : hi + 1 ≤ lo) : seg d lo hi = [] := by
  unfold seg
  rw [show hi + 1 - lo = 0 by omega]
  rfl

theorem seg_cons {T : Type} [Inhabited T] (d : List T) {lo hi : Nat}
    (h : lo ≤ hi) : seg d lo hi = dget d lo :: seg d (lo + 1) hi := by
  unfold seg
  rw [show hi + 1 - lo = (hi - lo) + 1 by omega, List.range'_succ,
    show hi + 1 - (lo + 1) = hi - lo by omega]
  rfl

theorem int_if_min (v mn : Int) : (if v < mn then v else mn) = min mn v := by
  rw [min_def]
  split <;> split <;> omega

theorem int_if_max (v mx : Int) : (if mx < v then v else mx) = max mx v := by
  rw [max_def]
  split <;> split <;> omega

theorem foldl_min_le_init (l : List Int) (init : Int) : l.foldl min init ≤ init := by
  induction l generalizing init with
  | nil => simp
  | cons x xs ih =>
    simp only [List.foldl_cons]
    exact le_trans (ih (min init x)) (min_le_left _ _)

theorem foldl_min_le_mem {l : List Int} {x : Int} (h : x ∈ l) (init : Int) :
    l.foldl min init ≤ x := by
  induction l generalizing init with
  | nil => cases h
  | cons y ys ih =>
    simp only [List.foldl_cons]
    rcases List.mem_cons.mp h with rfl | h2
    · exact le_trans (foldl_min_le_init _ _) (min_le_right _ _)
    · exact ih h2 _

theorem foldl_min_mem (l : List Int) (init : Int) :
    l.foldl min init = init ∨ l.foldl min init ∈ l := by
  induction l generalizing init with
  | nil => exact Or.inl rfl
  | cons x xs ih =>
    simp only [List.foldl_cons]
    rcases ih (min init x) with h | h
    · rw [h, min_def]
      split
      · exact Or.inl rfl
      · exact Or.inr (List.mem_cons_self _ _)
    · exact Or.inr (List.mem_cons_of_mem _ h)

theorem foldl_max_init_le (l : List Int) (init : Int) : init ≤ l.foldl max init := by
  induction l generalizing init with
  | nil => simp
  | cons x xs ih =>
    simp only [List.foldl_cons]
    exact le_trans (le_max_left _ _) (ih (max init x))

theorem foldl_max_mem_le {l : List Int} {x : Int} (h : x ∈ l) (init : Int) :
    x ≤ l.foldl max init := by
  induction l generalizing init with
  | nil => cases h
  | cons y ys ih =>
    simp only [List.foldl_cons]
    rcases List.mem_cons.mp h with rfl | h2
    · exact le_trans (le_max_right _ _) (foldl_max_init_le _ _)
    · exact ih h2 _

theorem foldl_max_mem (l : List Int) (init : Int) :
    l.foldl max init = init ∨ l.foldl max init ∈ l := by
  induction l generalizing init with
  | nil => exact Or.inl rfl
  | cons x xs ih =>
    simp only [List.foldl_cons]
    rcases ih (max init x) with h | h
    · rw [h, max_def]
      split
      · exact Or.inr (List.mem_cons_self _ _)
      · exact Or.inl rfl
    · exact Or.inr (List.mem_cons_of_mem _ h)

theorem getMinMaxLoop_spec (d : List Int) (size : Nat) (hs : 1 ≤ size) :
    ∀ fuel i mn mx, size ≤ i + fuel →
      getMinMaxLoop d size fuel i mn mx =
        ((seg d i (size - 1)).foldl min mn, (seg d i (size - 1)).foldl max mx) := by
  intro fuel
  induction fuel with
  | zero =>
    intro i mn mx hf
    rw [seg_empty d (by omega)]
    rfl
  | succ fuel ih =>
    intro i mn mx hf
    unfold getMinMaxLoop
    by_cases hi : i < size
    · rw [if_pos hi, ih (i + 1) _ _ (by omega), @seg_cons _ _ d i (size - 1) (by omega)]
      simp only [List.foldl_cons]
      rw [int_if_min, int_if_max]
    · rw [if_neg hi, seg_empty d (by omega)]
      rfl

theorem getMaxLoop_spec (d : List Int) (size : Nat) (hs : 1 ≤ size) :
    ∀ fuel i mx, size ≤ i + fuel →
      getMaxLoop d size fuel i mx = (seg d i (size - 1)).foldl max mx := by
  intro fuel
  induction fuel with
  | zero =>
    intro i mx hf
    rw [seg_empty d (by omega)]
    rfl
  | succ fuel ih =>
    intro i mx hf
    unfold getMaxLoop
    by_cases hi : i < size
    · rw [if_pos hi, ih (i + 1) _ (by omega), @seg_cons _ _ d i (size - 1) (by omega)]
      simp only [List.foldl_cons]
      rw [int_if_max]
    · rw [if_neg hi, seg_empty d (by omega)]
      rfl

theorem minIdxLoop_spec {T : Type} [Inhabited T] {less : T → T → Bool}
    (hswo : SWO less) (d : List T) (size : Nat) :
    ∀ fuel b i, size ≤ i + fuel → b < i → b < size →
      (∀ j, j < i → less (dget d j) (dget d b) = false) →
      (∀ j, j < b → less (dget d b) (dget d j) = true) →
      (minIdxLoop less d size fuel b i < size ∧
        (∀ j, j < size →
          less (dget d j) (dget d (minIdxLoop less d size fuel b i)) = false) ∧
        (∀ j, j < minIdxLoop less d size fuel b i →
          less (dget d (minIdxLoop less d size fuel b i)) (dget d j) = true)) := by
  intro fuel
  induction fuel with
  | zero =>
    intro b i hf hbi hbs hmin hfirst
    exact ⟨hbs, fun j hj => hmin j (by omega), hfirst⟩
  | succ fuel ih =>
    intro b i hf hbi hbs hmin hfirst
    unfold minIdxLoop
    by_cases hi : i < size
    · rw [if_pos hi]
      by_cases hlt : less (dget d i) (dget d b) = true
      · rw [if_pos hlt]
        refine ih i (i + 1) (by omega) (by omega) hi ?_ ?_
        · intro j hj
          by_cases hji : j = i
          · subst hji; exact hswo.irrefl _
          · cases hc : less (dget d j) (dget d i)
            · rfl
            · have := hswo.lt_trans hc hlt
              rw [hmin j (by omega)] at this
              cases this
        · intro j hj
          exact hswo.lt_of_lt_of_nlt hlt (hmin j (by omega))
      · rw [if_neg hlt]
        refine ih b (i + 1) (by omega) (by omega) hbs ?_ hfirst
        intro j hj
        by_cases hji : j = i
        · subst hji
          exact Bool.eq_false_iff.mpr hlt
        · exact hmin j (by omega)
    · rw [if_neg hi]
      exact ⟨hbs, fun j hj => hmin j (by omega), hfirst⟩

/-- The number of adjacent inversions at positions k in [i, j). -/
def countInv {T : Type} [Inhabited T] (less : T → T → Bool) (d : List T) (i j : Nat) : Nat :=
  (List.range' i (j - i)).countP (fun k => less (dget d (k + 1)) (dget d k))

theorem nearlyLoop_spec {T : Type} [Inhabited T] (less : T → T → Bool) (d : List T)
    (size threshold : Nat) :
    ∀ fuel i inv, size - 1 ≤ i + fuel → inv ≤ threshold →
      (nearlyLoop less d size threshold fuel i inv = true ↔
        inv + countInv less d i (size - 1) ≤ threshold) := by
  intro fuel
  induction fuel with
  | zero =>
    intro i inv hf hinv
    unfold nearlyLoop countInv
    rw [show size - 1 - i = 0 by omega]
    simp [hinv]
  | succ fuel ih =>
    intro i inv hf hinv
    unfold nearlyLoop
    by_cases hi : i < size - 1
    · rw [if_pos hi]
      have hcnt : countInv less d i (size - 1) =
          (if less (dget d (i + 1)) (dget d i) = true then 1 else 0) +
            countInv less d (i + 1) (size - 1) := by
        unfold countInv
        rw [show size - 1 - i = (size - 1 - (i + 1)) + 1 by omega, List.range'_succ,
          List.countP_cons]
        cases hp : less (dget d (i + 1)) (dget d i) <;> simp [hp] <;> omega
      by_cases hless : less (dget d (i + 1)) (dget d i) = true
      · rw [hless]
        simp only [if_true]
        by_cases hth : threshold < inv + 1
        · rw [if_pos hth]
          rw [hcnt, if_pos hless]
          constructor
          · intro h; cases h
          · intro h; omega
        · rw [if_neg hth]
          rw [ih (i + 1) (inv + 1) (by omega) (by omega), hcnt, if_pos hless]
          omega
      · rw [Bool.eq_false_iff.mpr hless]
        simp only [Bool.false_eq_true, if_false]
        rw [ih (i + 1) inv (by omega) hinv, hcnt, if_neg hless]
        omega
    · rw [if_neg hi]
      unfold countInv
      rw [show size - 1 - i = 0 by omega]
      simp [hinv]

theorem take_eq_seg {T : Type} [Inhabited T] (d : List T) (n : Nat)
    (h0 : 0 < n) (hn : n ≤ d.length) : d.take n = seg d 0 (n - 1) := by
  apply List.ext_getElem
  · simp only [List.length_take, seg_length]
    omega
  · intro m hm1 hm2
    have hm : m < n := by simp only [List.length_take] at hm1; omega
    rw [seg_getElem d 0 (n - 1) m (by simp; omega), show (0 : Nat) + m = m by omega,
      dget_of_getElem (show m < d.length by omega)]
    exact List.getElem_take d

theorem getMinMaxInt_bounds (pq : PQueue Int) (h0 : 0 < pq.size) :
    (∀ k, k < pq.size →
      pq.getMinMaxInt.1 ≤ dget pq.data k ∧ dget pq.data k ≤ pq.getMinMaxInt.2) ∧
    (∃ k, k < pq.size ∧ dget pq.data k = pq.getMinMaxInt.1) ∧
    (∃ k, k < pq.size ∧ dget pq.data k = pq.getMinMaxInt.2) := by
  unfold PQueue.getMinMaxInt
  rw [if_neg (by omega)]
  rw [getMinMaxLoop_spec pq.data pq.size (by omega) (pq.size - 1) 1 _ _ (by omega)]
  refine ⟨?_, ?_, ?_⟩
  · intro k hk
    by_cases hk0 : k = 0
    · subst hk0
      exact ⟨foldl_min_le_init _ _, foldl_max_init_le _ _⟩
    · have hmem : dget pq.data k ∈ seg pq.data 1 (pq.size - 1) :=
        dget_mem_seg (by omega) (by omega)
      exact ⟨foldl_min_le_mem hmem _, foldl_max_mem_le hmem _⟩
  · rcases foldl_min_mem (seg pq.data 1 (pq.size - 1)) (dget pq.data 0) with h | h
    · exact ⟨0, h0, h.symm⟩
    · obtain ⟨k, hk1, hk2, hk3⟩ := mem_seg.mp h
      exact ⟨k, by omega, hk3⟩
  · rcases foldl_max_mem (seg pq.data 1 (pq.size - 1)) (dget pq.data 0) with h | h
    · exact ⟨0, h0, h.symm⟩
    · obtain ⟨k, hk1, hk2, hk3⟩ := mem_seg.mp h
      exact ⟨k, by omega, hk3⟩

theorem getMinMaxInt_eq_minmax (pq : PQueue Int) (hwf : pq.WF) (h0 : 0 < pq.size) :
    pq.getMinMaxInt = ((pq.ToSlice).min?.getD 0, (pq.ToSlice).max?.getD 0) := by
  have hts : pq.ToSlice = dget pq.data 0 :: seg pq.data 1 (pq.size - 1) := by
    unfold PQueue.ToSlice
    rw [take_eq_seg pq.data pq.size h0 hwf, seg_cons pq.data (by omega)]
  rw [hts]
  unfold PQueue.getMinMaxInt
  rw [if_neg (by omega)]
  rw [getMinMaxLoop_spec pq.data pq.size (by omega) (pq.size - 1) 1 _ _ (by omega)]
  rw [List.min?_cons', List.max?_cons']
  rfl

/-- C9: the nearly-sorted test counts adjacent inversions in one forward
    scan and classifies the live prefix as near-sorted exactly when that
    count is at most max(1, size/10); prefixes of size at most 1 are always
    near-sorted. -/
theorem spec_nearlySorted_threshold {T : Type} [Inhabited T] (pq : PQueue T) :
    (pq.isNearlySorted = true ↔
      countInv pq.less pq.data 0 (pq.size - 1) ≤ max 1 (pq.size / 10)) ∧
    (pq.size ≤ 1 → pq.isNearlySorted = true) := by
  have hmain : pq.isNearlySorted = true ↔
      countInv pq.less pq.data 0 (pq.size - 1) ≤ max 1 (pq.size / 10) := by
    simp only [PQueue.isNearlySorted]
    by_cases hs : pq.size ≤ 1
    · rw [if_pos hs]
      unfold countInv
      rw [show pq.size - 1 - 0 = 0 by omega]
      simp
    · rw [if_neg hs]
      rw [nearlyLoop_spec pq.less pq.data pq.size
        (if pq.size / 10 < 1 then 1 else pq.size / 10) (pq.size - 1) 0 0 (by omega)
        (Nat.zero_le _)]
      have hth : (if pq.size / 10 < 1 then 1 else pq.size / 10) = max 1 (pq.size / 10) := by
        rw [Nat.max_def]
        split <;> split <;> omega
      rw [hth]
      omega
  refine ⟨hmain, fun hs => ?_⟩
  rw [hmain]
  unfold countInv
  rw [show pq.size - 1 - 0 = 0 by omega]
  simp

/-- C2: on a non-empty queue Pop returns the comparator-minimum (ties
    broken by first occurrence: the returned index is strictly below every
    earlier element), overwrites its slot with the last live element and
    decrements size by one; on an empty queue it fails and leaves the
    state unchanged. -/
theorem spec_pop_min_remove {T : Type} [Inhabited T] (pq : PQueue T)
    (hswo : SWO pq.less) :
    (pq.size = 0 → pq.Pop = (none, pq)) ∧
    (0 < pq.size →
      ∃ m, m < pq.size ∧
        (pq.Pop).1 = some (dget pq.data m) ∧
        (∀ j, j < pq.size → pq.less (dget pq.data j) (dget pq.data m) = false) ∧
        (∀ j, j < m → pq.less (dget pq.data m) (dget pq.data j) = true) ∧
        (pq.Pop).2.data = pq.data.set m (dget pq.data (pq.size - 1)) ∧
        (pq.Pop).2.size = pq.size - 1 ∧
        (pq.Pop).2.less = pq.less ∧ (pq.Pop).2.dataType = pq.dataType) := by
  constructor
  · intro h
    unfold PQueue.Pop
    rw [if_pos h]
  · intro h
    have hm := minIdxLoop_spec hswo pq.data pq.size (pq.size - 1) 0 1 (by omega) (by omega) h
      (fun j hj => by rw [show j = 0 by omega]; exact hswo.irrefl _)
      (fun j hj => absurd hj (Nat.not_lt_zero j))
    obtain ⟨h1, h2, h3⟩ := hm
    refine ⟨_, h1, ?_, h2, h3, ?_, ?_, ?_, ?_⟩ <;>
      (unfold PQueue.Pop; rw [if_neg (by omega)])

/-- C8: Peek returns exactly the element Pop would return (with the same
    minimality and first-occurrence tie-break), while the model's Peek has
    no state effect at all; and on an empty queue Peek fails and Pop fails
    leaving the state unchanged. -/
theorem spec_peek_pop_agree {T : Type} [Inhabited T] (pq : PQueue T) :
    pq.Peek = (pq.Pop).1 ∧
    (pq.size = 0 → pq.Peek = none ∧ pq.Pop = (none, pq)) ∧
    (0 < pq.size → SWO pq.less →
      ∃ m, m < pq.size ∧ pq.Peek = some (dget pq.data m) ∧
        (∀ j, j < pq.size → pq.less (dget pq.data j) (dget pq.data m) = false) ∧
        (∀ j, j < m → pq.less (dget pq.data m) (dget pq.data j) = true)) := by
  refine ⟨?_, ?_, ?_⟩
  · unfold PQueue.Peek PQueue.Pop
    by_cases h : pq.size = 0
    · rw [if_pos h, if_pos h]
    · rw [if_neg h, if_neg h]
  · intro h
    unfold PQueue.Peek PQueue.Pop
    rw [if_pos h, if_pos h]
    exact ⟨rfl, rfl⟩
  · intro h hswo
    have hm := minIdxLoop_spec hswo pq.data pq.size (pq.size - 1) 0 1 (by omega) (by omega) h
      (fun j hj => by rw [show j = 0 by omega]; exact hswo.irrefl _)
      (fun j hj => absurd hj (Nat.not_lt_zero j))
    obtain ⟨h1, h2, h3⟩ := hm
    refine ⟨_, h1, ?_, h2, h3⟩
    unfold PQueue.Peek
    rw [if_neg (by omega)]

/-- C10: on an integer-tagged queue whose live elements are all at most 0,
    SortWithStrategy(Radix) returns the state completely unchanged, because
    radixSort computes its maximum starting from 0 and returns early when
    that maximum is not positive. -/
theorem spec_radix_nonpositive_noop (pq : PQueue Int)
    (hint : pq.dataType = DataType.IntegerType)
    (hneg : ∀ k, k < pq.size → dget pq.data k ≤ 0) :
    pq.SortWithStrategy SortStrategy.RadixStrategy = pq := by
  unfold PQueue.SortWithStrategy
  by_cases hs : pq.size ≤ 1
  · rw [if_pos hs]
  · rw [if_neg hs]
    have hactual : (if SortStrategy.RadixStrategy = SortStrategy.AutoStrategy then
        pq.chooseOptimalStrategy else SortStrategy.RadixStrategy) =
        SortStrategy.RadixStrategy := by
      rw [if_neg (by simp)]
    rw [hactual]
    show (if pq.dataType = DataType.IntegerType then pq.radixSort else pq.quickSort) = pq
    rw [if_pos hint]
    unfold PQueue.radixSort
    rw [if_neg (show ¬(pq.dataType ≠ DataType.IntegerType) from by simp [hint])]
    have hmax : pq.getMaxInt ≤ 0 := by
      unfold PQueue.getMaxInt
      by_cases h0 : pq.size = 0
      · rw [if_pos h0]
      · rw [if_neg h0]
        rw [getMaxLoop_spec pq.data pq.size (by omega) pq.size 0 0 (by omega)]
        rcases foldl_max_mem (seg pq.data 0 (pq.size - 1)) 0 with h | h
        · rw [h]
        · obtain ⟨k, hk1, hk2, hk3⟩ := mem_seg.mp h
          rw [← hk3]
          exact hneg k (by omega)
    simp only [if_pos hmax]

/-- C5: explicitly selecting Radix or Counting on a non-integer-tagged
    queue runs Quicksort (the same state as selecting Quick); and Counting
    on an integer-tagged queue whose value range exceeds 10000 also runs
    Quicksort. -/
theorem spec_radix_counting_fallback (pq : PQueue Int) (hwf : pq.WF) :
    (pq.dataType ≠ DataType.IntegerType →
      pq.SortWithStrategy SortStrategy.RadixStrategy =
        pq.SortWithStrategy SortStrategy.QuickStrategy ∧
      pq.SortWithStrategy SortStrategy.CountingStrategy =
        pq.SortWithStrategy SortStrategy.QuickStrategy) ∧
    (pq.dataType = DataType.IntegerType →
      10000 < (pq.ToSlice).max?.getD 0 - (pq.ToSlice).min?.getD 0 →
      pq.SortWithStrategy SortStrategy.CountingStrategy =
        pq.SortWithStrategy SortStrategy.QuickStrategy) := by
  have hq : pq.SortWithStrategy SortStrategy.QuickStrategy =
      if pq.size ≤ 1 then pq else pq.quickSort := by
    unfold PQueue.SortWithStrategy
    by_cases hs : pq.size ≤ 1
    · rw [if_pos hs, if_pos hs]
    · rw [if_neg hs, if_neg hs]
      rfl
  have hr : pq.SortWithStrategy SortStrategy.RadixStrategy =
      if pq.size ≤ 1 then pq
      else if pq.dataType = DataType.IntegerType then pq.radixSort else pq.quickSort := by
    unfold PQueue.SortWithStrategy
    by_cases hs : pq.size ≤ 1
    · rw [if_pos hs, if_pos hs]
    · rw [if_neg hs, if_neg hs]
      rfl
  have hc : pq.SortWithStrategy SortStrategy.CountingStrategy =
      if pq.size ≤ 1 then pq
      else if pq.dataType = DataType.IntegerType then pq.countingSort else pq.quickSort := by
    unfold PQueue.SortWithStrategy
    by_cases hs : pq.size ≤ 1
    · rw [if_pos hs, if_pos hs]
    · rw [if_neg hs, if_neg hs]
      rfl
  constructor
  · intro htag
    constructor
    · rw [hr, hq]
      by_cases hs : pq.size ≤ 1
      · rw [if_pos hs, if_pos hs]
      · rw [if_neg hs, if_neg hs, if_neg htag]
    · rw [hc, hq]
      by_cases hs : pq.size ≤ 1
      · rw [if_pos hs, if_pos hs]
      · rw [if_neg hs, if_neg hs, if_neg htag]
  · intro htag hrange
    rw [hc, hq]
    by_cases hs : pq.size ≤ 1
    · rw [if_pos hs, if_pos hs]
    · rw [if_neg hs, if_neg hs, if_pos htag]
      unfold PQueue.countingSort
      rw [if_neg (show ¬(pq.dataType ≠ DataType.IntegerType) from by simp [htag])]
      rw [getMinMaxInt_eq_minmax pq hwf (by omega)]
      rw [if_pos hrange]

/-- The strategy-selection decision procedure as the specification words it:
    a priority list over size, near-sortedness, and the type tag, with the
    integer range test phrased via the true minimum and maximum of the live
    prefix. -/
def specChoose (pq : PQueue Int) : SortStrategy :=
  if pq.size ≤ 16 then SortStrategy.InsertionStrategy
  else if pq.isNearlySorted then SortStrategy.InsertionStrategy
  else
    match pq.dataType with
    | DataType.IntegerType =>
      if 100 < pq.size then
        if (pq.ToSlice).max?.getD 0 - (pq.ToSlice).min?.getD 0 ≤ 1000 then
          SortStrategy.CountingStrategy
        else SortStrategy.RadixStrategy
      else if 1000 < pq.size then SortStrategy.IntrosortStrategy
      else SortStrategy.TimsortStrategy
    | DataType.StringType =>
      if 1000 < pq.size then SortStrategy.IntrosortStrategy else SortStrategy.TimsortStrategy
    | DataType.SliceType => SortStrategy.MergeStrategy
    | DataType.ArrayType => SortStrategy.MergeStrategy
    | DataType.StructType =>
      if 1000 < pq.size then SortStrategy.IntrosortStrategy else SortStrategy.TimsortStrategy
    | DataType.InterfaceType =>
      if 1000 < pq.size then SortStrategy.IntrosortStrategy else SortStrategy.TimsortStrategy
    | DataType.PointerType => SortStrategy.QuickStrategy
    | DataType.MapType => SortStrategy.QuickStrategy
    | DataType.ChannelType => SortStrategy.QuickStrategy
    | DataType.FuncType => SortStrategy.QuickStrategy
    | DataType.FloatType =>
      if 1000 < pq.size then SortStrategy.IntrosortStrategy else SortStrategy.TimsortStrategy
    | DataType.GenericType =>
      if 1000 < pq.size then SortStrategy.IntrosortStrategy else SortStrategy.TimsortStrategy

/-- C3: chooseOptimalStrategy implements exactly the priority-ordered
    decision list of the specification. -/
theorem spec_chooseOptimalStrategy (pq : PQueue Int) (hwf : pq.WF) :
    pq.chooseOptimalStrategy = specChoose pq := by
  unfold PQueue.chooseOptimalStrategy specChoose
  dsimp only
  by_cases h16 : pq.size ≤ 16
  · rw [if_pos h16, if_pos h16]
  rw [if_neg h16, if_neg h16]
  by_cases hns : pq.isNearlySorted
  · rw [if_pos hns, if_pos hns]
  rw [if_neg hns, if_neg hns]
  have hsmall : pq.hasSmallRange =
      decide ((pq.ToSlice).max?.getD 0 - (pq.ToSlice).min?.getD 0 ≤ 1000) ∨
      pq.dataType ≠ DataType.IntegerType := by
    unfold PQueue.hasSmallRange
    by_cases htag : pq.dataType = DataType.IntegerType
    · left
      rw [if_neg (by simp [htag]; omega)]
      rw [getMinMaxInt_eq_minmax pq hwf (by omega)]
    · right
      exact htag
  cases htag : pq.dataType
  · by_cases hn100 : 100 < pq.size
    · rw [if_pos ⟨rfl, hn100⟩]
      dsimp only
      rw [if_pos hn100]
      rcases hsmall with hs | hs
      · rw [hs]
        by_cases hr : (pq.ToSlice).max?.getD 0 - (pq.ToSlice).min?.getD 0 ≤ 1000
        · simp [hr]
        · simp [hr]
      · exact absurd htag hs
    · rw [if_neg (fun h => hn100 h.2)]
      dsimp only
      rw [if_neg hn100]
      simp
  all_goals (dsimp only; simp)

theorem spec_nearlySorted_threshold_witness : (NewInts [5]).isNearlySorted = true :=
  (spec_nearlySorted_threshold (NewInts [5])).2 (by decide)

theorem spec_pop_min_remove_witness :
    0 < (NewInts [3, 1, 2]).size ∧ ((NewInts [3, 1, 2]).Pop).2.size = 3 - 1 := by
  refine ⟨by decide, ?_⟩
  obtain ⟨m, h1, h2, h3, h4, h5, h6, h7, h8⟩ :=
    (spec_pop_min_remove (NewInts [3, 1, 2]) intLess_SWO).2 (by decide)
  exact h6

theorem spec_peek_pop_agree_witness :
    0 < (NewInts [2, 1]).size ∧ ((NewInts [2, 1]).Peek).isSome = true := by
  refine ⟨by decide, ?_⟩
  obtain ⟨m, h1, h2, h3, h4⟩ :=
    (spec_peek_pop_agree (NewInts [2, 1])).2.2 (by decide) intLess_SWO
  rw [h2]
  rfl

theorem spec_radix_nonpositive_noop_witness :
    (NewInts [-3, -1, -2]).SortWithStrategy SortStrategy.RadixStrategy =
      NewInts [-3, -1, -2] :=
  spec_radix_nonpositive_noop (NewInts [-3, -1, -2]) (by decide) (by decide)

theorem spec_radix_counting_fallback_witness :
    ({ data := [2, 1], less := intLess, dataType := DataType.GenericType, size := 2 } :
        PQueue Int).SortWithStrategy SortStrategy.RadixStrategy =
      ({ data := [2, 1], less := intLess, dataType := DataType.GenericType, size := 2 } :
        PQueue Int).SortWithStrategy SortStrategy.QuickStrategy :=
  ((spec_radix_counting_fallback
    { data := [2, 1], less := intLess, dataType := DataType.GenericType, size := 2 }
    (by decide)).1 (by decide)).1

theorem spec_chooseOptimalStrategy_witness :
    (NewInts [3, 1, 2]).chooseOptimalStrategy = specChoose (NewInts [3, 1, 2]) :=
  spec_chooseOptimalStrategy (NewInts [3, 1, 2]) (by decide)

/-! ## Segments by start and count -/

/-- The segment d[lo..lo+n), read through dget. -/
def segN {T : Type} [Inhabited T] (d : List T) (lo n : Nat) : List T :=
  (List.range' lo n).map (dget d)

theorem seg_eq_segN {T : Type} [Inhabited T] (d : List T) (lo hi : Nat) :
    seg d lo hi = segN d lo (hi + 1 - lo) := rfl

@[simp] theorem segN_length {T : Type} [Inhabited T] (d : List T) (lo n : Nat) :
    (segN d lo n).length = n := by
  simp [segN]

@[simp] theorem segN_zero {T : Type} [Inhabited T] (d : List T) (lo : Nat) :
    segN d lo 0 = [] := rfl

theorem segN_cons {T : Type} [Inhabited T] (d : List T) (lo n : Nat) :
    segN d lo (n + 1) = dget d lo :: segN d (lo + 1) n := by
  unfold segN
  rw [List.range'_succ]
  rfl

theorem segN_snoc {T : Type} [Inhabited T] (d : List T) (lo n : Nat) :
    segN d lo (n + 1) = segN d lo n ++ [dget d (lo + n)] := by
  unfold segN
  rw [List.range'_1_concat]
  simp

theorem segN_append {T : Type} [Inhabited T] (d : List T) (lo m n : Nat) :
    segN d lo (m + n) = segN d lo m ++ segN d (lo + m) n := by
  unfold segN
  rw [← List.map_append]
  congr 1
  rw [Nat.add_comm m n, ← List.range'_append_1]

theorem segN_getElem {T : Type} [Inhabited T] (d : List T) (lo n m : Nat)
    (h : m < (segN d lo n).length) : (segN d lo n)[m] = dget d (lo + m) := by
  simp [segN]

theorem mem_segN {T : Type} [Inhabited T] {d : List T} {lo n : Nat} {x : T} :
    x ∈ segN d lo n ↔ ∃ k, lo ≤ k ∧ k < lo + n ∧ dget d k = x := by
  simp only [segN, List.mem_map, List.mem_range']
  constructor
  · rintro ⟨k, ⟨i, hlt, rfl⟩, hk3⟩
    exact ⟨lo + 1 * i, by omega, by omega, hk3⟩
  · rintro ⟨k, hk1, hk2, hk3⟩
    exact ⟨k, ⟨k - lo, by omega, by omega⟩, hk3⟩

theorem dget_mem_segN {T : Type} [Inhabited T] {d : List T} {lo n k : Nat}
    (h1 : lo ≤ k) (h2 : k < lo + n) : dget d k ∈ segN d lo n :=
  mem_segN.mpr ⟨k, h1, h2, rfl⟩

theorem segN_congr {T : Type} [Inhabited T] {d d' : List T} {lo n : Nat}
    (h : ∀ k, lo ≤ k → k < lo + n → dget d' k = dget d k) :
    segN d' lo n = segN d lo n := by
  unfold segN
  apply List.map_congr_left
  intro k hk
  rw [List.mem_range'] at hk
  obtain ⟨i, hlt, rfl⟩ := hk
  exact h _ (by omega) (by omega)

theorem segN_set_inside {T : Type} [Inhabited T] {d : List T} {lo n k : Nat} (x : T)
    (h1 : lo ≤ k) (h2 : k < lo + n) (hk : k < d.length) :
    segN (d.set k x) lo n = (segN d lo n).set (k - lo) x := by
  apply List.ext_getElem
  · simp
  · intro m hm1 hm2
    have hm : m < n := by simpa using hm1
    rw [segN_getElem _ _ _ _ (by simp; omega), List.getElem_set]
    by_cases hmk : k - lo = m
    · rw [if_pos hmk]
      have hx : lo + m = k := by omega
      rw [hx, dget_set_self x hk]
    · rw [if_neg hmk, dget_set_ne x (by omega), segN_getElem _ _ _ _ (by simp; omega)]

theorem segN_set_outside {T : Type} [Inhabited T] {d : List T} {lo n k : Nat} (x : T)
    (h : k < lo ∨ lo + n ≤ k) :
    segN (d.set k x) lo n = segN d lo n :=
  segN_congr (fun m hm1 hm2 => dget_set_ne x (by omega))

/-- SortedSeg is Pairwise non-inversion of the segment list. -/
theorem sortedSeg_iff_pairwise {T : Type} [Inhabited T] (less : T → T → Bool)
    (d : List T) (lo hi : Nat) :
    SortedSeg less d lo hi ↔
      (segN d lo (hi + 1 - lo)).Pairwise (fun a b => less b a = false) := by
  rw [List.pairwise_iff_getElem]
  constructor
  · intro h i j hi hj hij
    simp only [segN_length] at hi hj
    rw [segN_getElem _ _ _ _ (by simp; omega), segN_getElem _ _ _ _ (by simp; omega)]
    exact h (lo + i) (lo + j) (by omega) (by omega) (by omega)
  · intro h i j hi1 hij hj1
    have hj : j - lo < hi + 1 - lo := by omega
    have hi2 : i - lo < hi + 1 - lo := by omega
    have := h (i - lo) (j - lo) (by simpa using hi2) (by simpa using hj) (by omega)
    rw [segN_getElem _ _ _ _ (by simp; omega), segN_getElem _ _ _ _ (by simp; omega)] at this
    rw [show lo + (i - lo) = i by omega, show lo + (j - lo) = j by omega] at this
    exact this

theorem sortedSeg_congr {T : Type} [Inhabited T] {less : T → T → Bool}
    {d d' : List T} {lo hi : Nat}
    (h : ∀ k, lo ≤ k → k ≤ hi → dget d' k = dget d k)
    (hs : SortedSeg less d lo hi) : SortedSeg less d' lo hi := by
  intro i j hi1 hij hj1
  rw [h i hi1 (by omega), h j (by omega) hj1]
  exact hs i j hi1 hij hj1

/-- Writing an in-range cell back to its own value is the identity. -/
theorem dset_self {T : Type} [Inhabited T] (d : List T) (i : Nat)
    (h : i < d.length) : d.set i (dget d i) = d := by
  rw [dget_of_getElem h]
  exact set_getElem_self_eq d i h

/-- Write the elements of a list consecutively starting at position k. -/
def writeList {T : Type} [Inhabited T] : List T → Nat → List T → List T
  | d, _, [] => d
  | d, k, x :: xs => writeList (d.set k x) (k + 1) xs

@[simp] theorem writeList_length {T : Type} [Inhabited T] :
    ∀ (xs : List T) (d : List T) (k : Nat), (writeList d k xs).length = d.length
  | [], d, k => rfl
  | x :: xs, d, k => by
    rw [writeList, writeList_length xs]
    simp

theorem writeList_frame {T : Type} [Inhabited T] :
    ∀ (xs : List T) (d : List T) (k m : Nat), m < k ∨ k + xs.length ≤ m →
      dget (writeList d k xs) m = dget d m
  | [], d, k, m, _ => rfl
  | x :: xs, d, k, m, h => by
    rw [writeList, writeList_frame xs _ _ _ (by simp at h; omega),
      dget_set_ne x (by simp at h; omega)]

theorem writeList_segN {T : Type} [Inhabited T] :
    ∀ (xs : List T) (d : List T) (k : Nat), k + xs.length ≤ d.length →
      segN (writeList d k xs) k xs.length = xs
  | [], d, k, h => rfl
  | x :: xs, d, k, h => by
    show segN (writeList (d.set k x) (k + 1) xs) k (xs.length + 1) = x :: xs
    rw [segN_cons]
    congr 1
    · rw [writeList_frame xs _ _ _ (Or.inl (by omega)),
        dget_set_self x (by simp at h; omega)]
    · exact writeList_segN xs (d.set k x) (k + 1) (by simp only [List.length_set]; simp at h; omega)

/-- Past-the-end segments through dget are default padding. -/
theorem segN_outside {T : Type} [Inhabited T] (d : List T) {lo : Nat} (n : Nat)
    (h : d.length ≤ lo) : segN d lo n = List.replicate n default := by
  apply List.ext_getElem
  · simp
  · intro m hm1 hm2
    have hm : m < n := by simpa using hm1
    rw [segN_getElem _ _ _ _ (by simp; omega), dget_oob (by omega), List.getElem_replicate]

/-! ## Insertion sort: correctness -/

theorem insInnerR_spec {T : Type} [Inhabited T] {less : T → T → Bool} (hswo : SWO less)
    (key : T) (low : Nat) :
    ∀ c d, low ≤ c → c < d.length → SortedSeg less d low (c - 1) →
      (insInnerR less key low d c).length = d.length ∧
      (∀ k, k < low ∨ c < k → dget (insInnerR less key low d c) k = dget d k) ∧
      (segN (insInnerR less key low d c) low (c + 1 - low)).Perm
        (key :: segN d low (c - low)) ∧
      SortedSeg less (insInnerR less key low d c) low c := by
  intro c
  induction c with
  | zero =>
    intro d hlc hlen hsort
    have hl0 : low = 0 := by omega
    subst hl0
    simp only [insInnerR]
    refine ⟨by simp, fun k hk => dget_set_ne key (by omega), ?_, ?_⟩
    · rw [show 0 + 1 - 0 = 0 + 1 by omega, segN_snoc, segN_zero]
      rw [show (0 : Nat) + 0 = 0 by omega, dget_set_self key hlen]
      exact List.Perm.refl _
    · intro i j h1 h2 h3
      omega
  | succ jp ih =>
    intro d hlc hlen hsort
    by_cases hlow : low < jp + 1
    · simp only [insInnerR, if_pos hlow]
      by_cases hless : less key (dget d jp) = true
      · rw [if_pos hless]
        have hpre : SortedSeg less (d.set (jp + 1) (dget d jp)) low (jp - 1) :=
          sortedSeg_congr (fun k hk1 hk2 => dget_set_ne _ (by omega))
            (hsort.weaken (Nat.le_refl low) (by omega))
        obtain ⟨ihlen, ihframe, ihperm, ihsort⟩ :=
          ih (d.set (jp + 1) (dget d jp)) (by omega) (by simp only [List.length_set]; omega) hpre
        have hsub : jp + 1 - 1 = jp := by omega
        rw [hsub] at hsort
        have htop : dget (insInnerR less key low (d.set (jp + 1) (dget d jp)) jp) (jp + 1) =
            dget d jp := by
          rw [ihframe (jp + 1) (by omega), dget_set_self _ hlen]
        have hmid : segN (d.set (jp + 1) (dget d jp)) low (jp - low) = segN d low (jp - low) :=
          segN_set_outside _ (by omega)
        refine ⟨by rw [ihlen]; simp, ?_, ?_, ?_⟩
        · intro k hk
          rw [ihframe k (by omega), dget_set_ne _ (by omega)]
        · rw [show jp + 1 + 1 - low = (jp + 1 - low) + 1 by omega, segN_snoc,
            show low + (jp + 1 - low) = jp + 1 by omega, htop]
          refine List.Perm.trans (ihperm.append_right _) (List.Perm.of_eq ?_)
          have hsnoc : segN d low ((jp - low) + 1) = segN d low (jp - low) ++ [dget d jp] := by
            rw [segN_snoc, show low + (jp - low) = jp by omega]
          rw [hmid, List.cons_append, ← hsnoc, show jp - low + 1 = jp + 1 - low by omega]
        · intro i j h1 h2 h3
          by_cases hj : j = jp + 1
          · subst hj
            rw [htop]
            have hmemi : dget (insInnerR less key low (d.set (jp + 1) (dget d jp)) jp) i ∈
                key :: segN (d.set (jp + 1) (dget d jp)) low (jp - low) :=
              ihperm.subset (dget_mem_segN h1 (by omega))
            rcases List.mem_cons.mp hmemi with hk | hk
            · rw [hk]
              exact hswo.asymm _ _ hless
            · rw [hmid] at hk
              obtain ⟨m, hm1, hm2, hm3⟩ := mem_segN.mp hk
              rw [← hm3]
              exact hsort m jp hm1 (by omega) (by omega)
          · exact ihsort i j h1 h2 (by omega)
      · rw [if_neg hless]
        have hsub : jp + 1 - 1 = jp := by omega
        rw [hsub] at hsort
        have hfalse : less key (dget d jp) = false := Bool.eq_false_iff.mpr hless
        refine ⟨by simp, fun k hk => dget_set_ne _ (by omega), ?_, ?_⟩
        · rw [show jp + 1 + 1 - low = (jp + 1 - low) + 1 by omega, segN_snoc,
            show low + (jp + 1 - low) = jp + 1 by omega, dget_set_self _ hlen,
            segN_set_outside _ (by omega)]
          exact List.perm_append_singleton _ _
        · intro i j h1 h2 h3
          by_cases hj : j = jp + 1
          · subst hj
            rw [dget_set_self _ hlen, dget_set_ne _ (by omega)]
            by_cases hij : i = jp
            · subst hij
              exact hfalse
            · exact hswo.le_trans _ _ _ hfalse (hsort i jp h1 (by omega) (by omega))
          · rw [dget_set_ne _ (by omega), dget_set_ne _ (by omega)]
            exact hsort i j h1 h2 (by omega)
    · simp only [insInnerR, if_neg hlow]
      have hl : low = jp + 1 := by omega
      subst hl
      refine ⟨by simp, fun k hk => dget_set_ne key (by omega), ?_, ?_⟩
      · rw [show jp + 1 + 1 - (jp + 1) = 0 + 1 by omega, segN_snoc, segN_zero,
          show jp + 1 + 0 = jp + 1 by omega, dget_set_self key hlen,
          show jp + 1 - (jp + 1) = 0 by omega, segN_zero]
        exact List.Perm.refl _
      · intro i j h1 h2 h3
        omega

theorem insLoopR_spec {T : Type} [Inhabited T] {less : T → T → Bool} (hswo : SWO less)
    (low high : Nat) :
    ∀ fuel d i, low + 1 ≤ i → high + 1 ≤ i + fuel → high < d.length →
      SortedSeg less d low (i - 1) →
      SegOp d (insLoopR less low high fuel d i) low high ∧
      SortedSeg less (insLoopR less low high fuel d i) low high := by
  intro fuel
  induction fuel with
  | zero =>
    intro d i h1 h2 h3 h4
    exact ⟨SegOp.refl d low high, h4.weaken (Nat.le_refl low) (by omega)⟩
  | succ fuel ih =>
    intro d i h1 h2 h3 h4
    unfold insLoopR
    by_cases hi : i ≤ high
    · rw [if_pos hi]
      obtain ⟨slen, sframe, sperm, ssort⟩ :=
        insInnerR_spec hswo (dget d i) low i d (by omega) (by omega) h4
      have hstep : SegOp d (insInnerR less (dget d i) low d i) low i := by
        refine ⟨slen, sframe, ?_⟩
        rw [seg_eq_segN, seg_eq_segN]
        refine sperm.trans ?_
        refine (List.perm_append_singleton _ _).symm.trans (List.Perm.of_eq ?_)
        have hsnoc : segN d low ((i - low) + 1) = segN d low (i - low) ++ [dget d i] := by
          rw [segN_snoc, show low + (i - low) = i by omega]
        rw [← hsnoc, show i - low + 1 = i + 1 - low by omega]
      have hstep2 := hstep.mono (Nat.le_refl low) hi (by omega)
      have hrec := ih (insInnerR less (dget d i) low d i) (i + 1) (by omega) (by omega)
        (by rw [slen]; exact h3)
        (by rw [show i + 1 - 1 = i by omega]; exact ssort)
      exact ⟨hstep2.trans hrec.1, hrec.2⟩
    · rw [if_neg hi]
      exact ⟨SegOp.refl d low high, h4.weaken (Nat.le_refl low) (by omega)⟩

theorem insertionSortRangeL_spec {T : Type} [Inhabited T] {less : T → T → Bool}
    (hswo : SWO less) (d : List T) (low high : Nat) (hh : high < d.length) :
    SegOp d (insertionSortRangeL less d low high) low high ∧
    SortedSeg less (insertionSortRangeL less d low high) low high := by
  unfold insertionSortRangeL
  refine insLoopR_spec hswo low high (high - low) d (low + 1) (by omega) (by omega) hh ?_
  intro i j h1 h2 h3
  omega

theorem insInnerR_id {T : Type} [Inhabited T] (less : T → T → Bool) (low : Nat) :
    ∀ c d, c < d.length → (c = low ∨ c = 0 ∨ less (dget d c) (dget d (c - 1)) = false) →
      insInnerR less (dget d c) low d c = d := by
  intro c d hlen hcase
  match c with
  | 0 => simp only [insInnerR]; exact dset_self d 0 hlen
  | jp + 1 =>
    simp only [insInnerR]
    by_cases hlow : low < jp + 1
    · rw [if_pos hlow]
      have hfalse : less (dget d (jp + 1)) (dget d jp) = false := by
        rcases hcase with h | h | h
        · omega
        · omega
        · simpa using h
      rw [if_neg (by simp [hfalse])]
      exact dset_self d (jp + 1) hlen
    · rw [if_neg hlow]
      exact dset_self d (jp + 1) hlen

theorem insLoopR_id {T : Type} [Inhabited T] (less : T → T → Bool) (low high : Nat) :
    ∀ fuel d i, low + 1 ≤ i → high < d.length →
      (∀ k, low ≤ k → k < high → less (dget d (k + 1)) (dget d k) = false) →
      insLoopR less low high fuel d i = d := by
  intro fuel
  induction fuel with
  | zero => intro d i _ _ _; rfl
  | succ fuel ih =>
    intro d i h1 h2 hadj
    unfold insLoopR
    by_cases hi : i ≤ high
    · rw [if_pos hi]
      have hid : insInnerR less (dget d i) low d i = d := by
        refine insInnerR_id less low i d (by omega) ?_
        right; right
        have := hadj (i - 1) (by omega) (by omega)
        rw [show i - 1 + 1 = i by omega] at this
        exact this
      rw [hid]
      exact ih d (i + 1) (by omega) h2 hadj
    · rw [if_neg hi]

theorem insertionSortRangeL_id {T : Type} [Inhabited T] (less : T → T → Bool)
    (d : List T) (low high : Nat) (hh : high < d.length)
    (hadj : ∀ k, low ≤ k → k < high → less (dget d (k + 1)) (dget d k) = false) :
    insertionSortRangeL less d low high = d :=
  insLoopR_id less low high (high - low) d (low + 1) (by omega) hh hadj

theorem insInnerR_frame {T : Type} [Inhabited T] (less : T → T → Bool) (key : T)
    (low : Nat) :
    ∀ c d, low ≤ c →
      (insInnerR less key low d c).length = d.length ∧
      (∀ k, k < low ∨ c < k → dget (insInnerR less key low d c) k = dget d k) := by
  intro c
  induction c with
  | zero =>
    intro d hlc
    simp only [insInnerR]
    exact ⟨by simp, fun k hk => dget_set_ne key (by omega)⟩
  | succ jp ih =>
    intro d hlc
    by_cases hlow : low < jp + 1
    · simp only [insInnerR, if_pos hlow]
      by_cases hless : less key (dget d jp) = true
      · rw [if_pos hless]
        obtain ⟨ih1, ih2⟩ := ih (d.set (jp + 1) (dget d jp)) (by omega)
        refine ⟨by rw [ih1]; simp, ?_⟩
        intro k hk
        rw [ih2 k (by omega), dget_set_ne _ (by omega)]
      · rw [if_neg hless]
        exact ⟨by simp, fun k hk => dget_set_ne _ (by omega)⟩
    · simp only [insInnerR, if_neg hlow]
      exact ⟨by simp, fun k hk => dget_set_ne _ (by omega)⟩

theorem insInnerR_filter {T : Type} [Inhabited T] {less : T → T → Bool}
    (key : T) (low : Nat) (P : T → Bool)
    (hP : ∀ a b, P a = true → P b = true → less a b = false) :
    ∀ c d, low ≤ c → c < d.length →
      (P key = true →
        ((segN (insInnerR less key low d c) low (c + 1 - low)).filter P =
          (segN d low (c - low)).filter P ++ [key])) ∧
      (P key = false →
        ((segN (insInnerR less key low d c) low (c + 1 - low)).filter P =
          (segN d low (c - low)).filter P)) := by
  intro c
  induction c with
  | zero =>
    intro d hlc hlen
    have hl0 : low = 0 := by omega
    subst hl0
    simp only [insInnerR]
    have hseg : segN (d.set 0 key) 0 (0 + 1 - 0) = [key] := by
      rw [show 0 + 1 - 0 = 0 + 1 by omega, segN_snoc, segN_zero,
        show (0 : Nat) + 0 = 0 by omega, dget_set_self key hlen]
      rfl
    rw [hseg]
    constructor
    · intro hPk
      simp [hPk]
    · intro hPk
      simp [hPk]
  | succ jp ih =>
    intro d hlc hlen
    by_cases hlow : low < jp + 1
    · simp only [insInnerR, if_pos hlow]
      by_cases hless : less key (dget d jp) = true
      · rw [if_pos hless]
        obtain ⟨ih1, ih2⟩ := ih (d.set (jp + 1) (dget d jp)) (by omega)
          (by simp only [List.length_set]; omega)
        have hmid : segN (d.set (jp + 1) (dget d jp)) low (jp - low) =
            segN d low (jp - low) := segN_set_outside _ (by omega)
        rw [hmid] at ih1 ih2
        have htop : dget (insInnerR less key low (d.set (jp + 1) (dget d jp)) jp) (jp + 1) =
            dget d jp := by
          rw [(insInnerR_frame less key low jp _ (by omega)).2 (jp + 1) (by omega),
            dget_set_self _ hlen]
        have hsegsplit : segN (insInnerR less key low (d.set (jp + 1) (dget d jp)) jp)
            low (jp + 1 + 1 - low) =
            segN (insInnerR less key low (d.set (jp + 1) (dget d jp)) jp)
              low (jp + 1 - low) ++ [dget d jp] := by
          rw [show jp + 1 + 1 - low = (jp + 1 - low) + 1 by omega, segN_snoc,
            show low + (jp + 1 - low) = jp + 1 by omega, htop]
        have hsegd : segN d low (jp + 1 - low) = segN d low (jp - low) ++ [dget d jp] := by
          rw [show jp + 1 - low = (jp - low) + 1 by omega, segN_snoc,
            show low + (jp - low) = jp by omega]
        constructor
        · intro hPk
          have hPd : P (dget d jp) = false := by
            cases hpd : P (dget d jp)
            · rfl
            · have h2 := hP key (dget d jp) hPk hpd
              rw [h2] at hless
              cases hless
          rw [hsegsplit, List.filter_append, hsegd, List.filter_append, ih1 hPk]
          simp [hPd]
        · intro hPk
          rw [hsegsplit, List.filter_append, hsegd, List.filter_append, ih2 hPk]
      · rw [if_neg hless]
        have hseg : segN (d.set (jp + 1) key) low (jp + 1 + 1 - low) =
            segN d low (jp + 1 - low) ++ [key] := by
          rw [show jp + 1 + 1 - low = (jp + 1 - low) + 1 by omega, segN_snoc,
            show low + (jp + 1 - low) = jp + 1 by omega, dget_set_self _ hlen,
            segN_set_outside _ (by omega)]
        constructor
        · intro hPk
          rw [hseg, List.filter_append]
          simp [hPk]
        · intro hPk
          rw [hseg, List.filter_append]
          simp [hPk]
    · simp only [insInnerR, if_neg hlow]
      have hl : low = jp + 1 := by omega
      subst hl
      have hseg : segN (d.set (jp + 1) key) (jp + 1) (jp + 1 + 1 - (jp + 1)) = [key] := by
        rw [show jp + 1 + 1 - (jp + 1) = 0 + 1 by omega, segN_snoc, segN_zero,
          show jp + 1 + 0 = jp + 1 by omega, dget_set_self key hlen]
        rfl
      rw [hseg, show jp + 1 - (jp + 1) = 0 by omega, segN_zero]
      constructor
      · intro hPk
        simp [hPk]
      · intro hPk
        simp [hPk]

theorem insLoopR_filter {T : Type} [Inhabited T] {less : T → T → Bool}
    (low high : Nat) (P : T → Bool)
    (hP : ∀ a b, P a = true → P b = true → less a b = false) :
    ∀ fuel d i, low + 1 ≤ i → high < d.length →
      (segN (insLoopR less low high fuel d i) low (high + 1 - low)).filter P =
        (segN d low (high + 1 - low)).filter P := by
  intro fuel
  induction fuel with
  | zero => intro d i _ _; rfl
  | succ fuel ih =>
    intro d i h1 h2
    unfold insLoopR
    by_cases hi : i ≤ high
    · rw [if_pos hi]
      have hstep : (segN (insInnerR less (dget d i) low d i) low (high + 1 - low)).filter P =
          (segN d low (high + 1 - low)).filter P := by
        have e1 := segN_append (insInnerR less (dget d i) low d i) low (i + 1 - low) (high - i)
        rw [show low + (i + 1 - low) = i + 1 by omega,
          show (i + 1 - low) + (high - i) = high + 1 - low by omega] at e1
        have e2 := segN_append d low (i + 1 - low) (high - i)
        rw [show low + (i + 1 - low) = i + 1 by omega,
          show (i + 1 - low) + (high - i) = high + 1 - low by omega] at e2
        have htail : segN (insInnerR less (dget d i) low d i) (i + 1) (high - i) =
            segN d (i + 1) (high - i) :=
          segN_congr (fun k hk1 hk2 =>
            (insInnerR_frame less (dget d i) low i d (by omega)).2 k (Or.inr (by omega)))
        rw [e1, e2, List.filter_append, List.filter_append, htail]
        congr 1
        obtain ⟨f1, f2⟩ := insInnerR_filter (dget d i) low P hP i d (by omega) (by omega)
        have hsegd : segN d low (i + 1 - low) = segN d low (i - low) ++ [dget d i] := by
          rw [show i + 1 - low = (i - low) + 1 by omega, segN_snoc,
            show low + (i - low) = i by omega]
        cases hPk : P (dget d i)
        · rw [f2 hPk, hsegd, List.filter_append]
          simp [hPk]
        · rw [f1 hPk, hsegd, List.filter_append]
          simp [hPk]
      rw [ih (insInnerR less (dget d i) low d i) (i + 1) (by omega)
        (by rw [(insInnerR_frame less (dget d i) low i d (by omega)).1]; exact h2), hstep]
    · rw [if_neg hi]

theorem insLoopR_frame_len {T : Type} [Inhabited T] (less : T → T → Bool)
    (low high : Nat) :
    ∀ fuel (d : List T) i, low + 1 ≤ i → (insLoopR less low high fuel d i).length = d.length := by
  intro fuel
  induction fuel with
  | zero => intro d i _; rfl
  | succ fuel ih =>
    intro d i h1
    unfold insLoopR
    by_cases hi : i ≤ high
    · rw [if_pos hi, ih _ _ (by omega),
        (insInnerR_frame less (dget d i) low i d (by omega)).1]
    · rw [if_neg hi]

theorem insInner_eq_R {T : Type} [Inhabited T] (less : T → T → Bool) (key : T) :
    ∀ jp d, insInner less key d jp = insInnerR less key 0 d jp := by
  intro jp
  induction jp with
  | zero => intro d; rfl
  | succ jp ih =>
    intro d
    simp only [insInner, insInnerR, if_pos (Nat.succ_pos jp)]
    by_cases h : less key (dget d jp) = true
    · rw [if_pos h, if_pos h, ih]
    · rw [if_neg h, if_neg h]

theorem insLoop_eq_R {T : Type} [Inhabited T] (less : T → T → Bool) (size : Nat) :
    ∀ fuel d i, 1 ≤ i →
      insLoop less size fuel d i = insLoopR less 0 (size - 1) fuel d i := by
  intro fuel
  induction fuel with
  | zero => intro d i _; rfl
  | succ fuel ih =>
    intro d i h1
    simp only [insLoop, insLoopR]
    by_cases hi : i < size
    · rw [if_pos hi, if_pos (by omega), insInner_eq_R, ih _ _ (by omega)]
    · rw [if_neg hi, if_neg (by omega)]

theorem insertionSort_data_eq {T : Type} [Inhabited T] (pq : PQueue T) :
    (pq.insertionSort).data = insertionSortRangeL pq.less pq.data 0 (pq.size - 1) := by
  show insLoop pq.less pq.size (pq.size - 1) pq.data 1 = _
  unfold insertionSortRangeL
  rw [insLoop_eq_R pq.less pq.size (pq.size - 1) pq.data 1 (by omega)]
  rfl

theorem insertionSort_ok {T : Type} [Inhabited T] (pq : PQueue T) (hswo : SWO pq.less)
    (hwf : pq.WF) (h0 : 0 < pq.size) :
    SegOp pq.data (pq.insertionSort).data 0 (pq.size - 1) ∧
    SortedSeg pq.less (pq.insertionSort).data 0 (pq.size - 1) := by
  rw [insertionSort_data_eq]
  exact insertionSortRangeL_spec hswo pq.data 0 (pq.size - 1)
    (by unfold PQueue.WF at hwf; omega)

theorem insertionSort_id {T : Type} [Inhabited T] (pq : PQueue T)
    (hwf : pq.WF) (h0 : 0 < pq.size)
    (hadj : SortedLive pq.less pq.data pq.size) : pq.insertionSort = pq := by
  have hdata : insertionSortRangeL pq.less pq.data 0 (pq.size - 1) = pq.data := by
    refine insertionSortRangeL_id pq.less pq.data 0 (pq.size - 1)
      (by unfold PQueue.WF at hwf; omega) ?_
    intro k hk1 hk2
    exact hadj k (by omega)
  have hdata2 : (pq.insertionSort).data = pq.data := by
    rw [insertionSort_data_eq, hdata]
  show { pq with data := insLoop pq.less pq.size (pq.size - 1) pq.data 1 } = pq
  have : insLoop pq.less pq.size (pq.size - 1) pq.data 1 = pq.data := hdata2
  rw [this]

theorem insertionSort_filter {T : Type} [Inhabited T] (pq : PQueue T)
    (P : T → Bool) (hP : ∀ a b, P a = true → P b = true → pq.less a b = false)
    (hwf : pq.WF) :
    ((pq.insertionSort).data.take pq.size).filter P =
      (pq.data.take pq.size).filter P := by
  by_cases h0 : pq.size = 0
  · rw [h0]
    rfl
  · have hlen : (pq.insertionSort).data.length = pq.data.length := by
      rw [insertionSort_data_eq]
      unfold insertionSortRangeL
      exact insLoopR_frame_len pq.less 0 (pq.size - 1) (pq.size - 1 - 0) pq.data 1 (by omega)
    rw [take_eq_seg _ pq.size (by omega) (by rw [hlen]; exact hwf),
      take_eq_seg _ pq.size (by omega) hwf,
      seg_eq_segN, seg_eq_segN, show pq.size - 1 + 1 - 0 = pq.size by omega]
    rw [insertionSort_data_eq]
    unfold insertionSortRangeL
    have := insLoopR_filter 0 (pq.size - 1) P hP (pq.size - 1 - 0) pq.data 1 (by omega)
      (by unfold PQueue.WF at hwf; omega)
    rw [show pq.size - 1 + 1 - 0 = pq.size by omega] at this
    exact this

/-! ## Merge sort: the functional merge and its properties -/

/-- The merge order of the source's merge loop, as a function on lists:
    take the left head if less(l, r); take the right head if less(r, l);
    on incomparable heads take the left (stability). -/
def mergeFun {T : Type} (less : T → T → Bool) : List T → List T → List T
  | [], r => r
  | l, [] => l
  | a :: l, b :: r =>
    if less a b then a :: mergeFun less l (b :: r)
    else if less b a then b :: mergeFun less (a :: l) r
    else a :: mergeFun less l (b :: r)

theorem mergeFun_perm {T : Type} (less : T → T → Bool) :
    ∀ l r, (mergeFun less l r).Perm (l ++ r) := by
  intro l r
  induction l, r using mergeFun.induct less with
  | case1 r => simp [mergeFun]
  | case2 l => simp [mergeFun]
  | case3 a l b r h ih =>
    rw [mergeFun, if_pos h]
    exact ih.cons a
  | case4 a l b r h1 h2 ih =>
    rw [mergeFun, if_neg h1, if_pos h2]
    exact List.Perm.trans (ih.cons b) (List.Perm.symm List.perm_middle)
  | case5 a l b r h1 h2 ih =>
    rw [mergeFun, if_neg h1, if_neg h2]
    exact ih.cons a

theorem mergeFun_length {T : Type} (less : T → T → Bool) (l r : List T) :
    (mergeFun less l r).length = l.length + r.length := by
  rw [(mergeFun_perm less l r).length_eq]
  simp

theorem mergeFun_sorted {T : Type} {less : T → T → Bool} (hswo : SWO less) :
    ∀ l r, l.Pairwise (fun a b => less b a = false) →
      r.Pairwise (fun a b => less b a = false) →
      (mergeFun less l r).Pairwise (fun a b => less b a = false) := by
  intro l r
  induction l, r using mergeFun.induct less with
  | case1 r => intro _ hr; simpa [mergeFun] using hr
  | case2 l => intro hl _; simpa [mergeFun] using hl
  | case3 a l b r h ih =>
    intro hl hr
    rw [mergeFun, if_pos h]
    rw [List.pairwise_cons] at hl ⊢
    refine ⟨?_, ih hl.2 hr⟩
    intro x hx
    rcases List.mem_append.mp ((mergeFun_perm less l (b :: r)).subset hx) with hxl | hxr
    · exact hl.1 x hxl
    · rw [List.pairwise_cons] at hr
      rcases List.mem_cons.mp hxr with rfl | hxr2
      · exact hswo.asymm a x h
      · exact hswo.le_trans x b a (hr.1 x hxr2) (hswo.asymm a b h)
  | case4 a l b r h1 h2 ih =>
    intro hl hr
    rw [mergeFun, if_neg h1, if_pos h2]
    rw [List.pairwise_cons] at hr ⊢
    refine ⟨?_, ih hl hr.2⟩
    intro x hx
    rcases List.mem_append.mp ((mergeFun_perm less (a :: l) r).subset hx) with hxl | hxr
    · rw [List.pairwise_cons] at hl
      rcases List.mem_cons.mp hxl with rfl | hxl2
      · exact hswo.asymm b x h2
      · exact hswo.le_trans x a b (hl.1 x hxl2) (hswo.asymm b a h2)
    · exact hr.1 x hxr
  | case5 a l b r h1 h2 ih =>
    intro hl hr
    rw [mergeFun, if_neg h1, if_neg h2]
    rw [List.pairwise_cons] at hl ⊢
    refine ⟨?_, ih hl.2 hr⟩
    intro x hx
    rcases List.mem_append.mp ((mergeFun_perm less l (b :: r)).subset hx) with hxl | hxr
    · exact hl.1 x hxl
    · rw [List.pairwise_cons] at hr
      rcases List.mem_cons.mp hxr with rfl | hxr2
      · exact Bool.eq_false_iff.mpr h2
      · exact hswo.le_trans x b a (hr.1 x hxr2) (Bool.eq_false_iff.mpr h2)

theorem mergeFun_id {T : Type} (less : T → T → Bool) :
    ∀ l r, (l ++ r).Pairwise (fun a b => less b a = false) →
      mergeFun less l r = l ++ r := by
  intro l r
  induction l, r using mergeFun.induct less with
  | case1 r => intro _; simp [mergeFun]
  | case2 l => intro _; simp [mergeFun]
  | case3 a l b r h ih =>
    intro hs
    rw [mergeFun, if_pos h]
    rw [List.cons_append, List.pairwise_cons] at hs
    rw [ih hs.2]
    rfl
  | case4 a l b r h1 h2 ih =>
    intro hs
    exfalso
    rw [List.cons_append, List.pairwise_cons] at hs
    have := hs.1 b (by simp)
    rw [this] at h2
    cases h2
  | case5 a l b r h1 h2 ih =>
    intro hs
    rw [mergeFun, if_neg h1, if_neg h2]
    rw [List.cons_append, List.pairwise_cons] at hs
    rw [ih hs.2]
    rfl

theorem mergeFun_filter {T : Type} {less : T → T → Bool} (hswo : SWO less)
    (P : T → Bool) (hP : ∀ a b, P a = true → P b = true → less a b = false) :
    ∀ l r, l.Pairwise (fun a b => less b a = false) →
      r.Pairwise (fun a b => less b a = false) →
      (mergeFun less l r).filter P = l.filter P ++ r.filter P := by
  intro l r
  induction l, r using mergeFun.induct less with
  | case1 r => intro _ _; simp [mergeFun]
  | case2 l => intro _ _; simp [mergeFun]
  | case3 a l b r h ih =>
    intro hl hr
    rw [mergeFun, if_pos h]
    rw [List.pairwise_cons] at hl
    cases hPa : P a <;> simp [List.filter_cons, hPa, ih hl.2 hr]
  | case4 a l b r h1 h2 ih =>
    intro hl hr
    rw [mergeFun, if_neg h1, if_pos h2]
    rw [List.pairwise_cons] at hr
    cases hPb : P b
    · simp [List.filter_cons, hPb, ih hl hr.2]
    · have hnone : (a :: l).filter P = [] := by
        rw [List.filter_eq_nil_iff]
        intro x hx hPx
        have hbx : less b x = false := hP b x hPb hPx
        have hxa : less x a = false := by
          rcases List.mem_cons.mp hx with rfl | hx2
          · exact hswo.irrefl x
          · rw [List.pairwise_cons] at hl
            exact hl.1 x hx2
        have hc := hswo.lt_of_lt_of_nlt h2 hxa
        rw [hc] at hbx
        cases hbx
      simp [List.filter_cons, hPb, ih hl hr.2, hnone]
  | case5 a l b r h1 h2 ih =>
    intro hl hr
    rw [mergeFun, if_neg h1, if_neg h2]
    rw [List.pairwise_cons] at hl
    cases hPa : P a <;> simp [List.filter_cons, hPa, ih hl.2 hr]

theorem mergeFun_nil_right {T : Type} (less : T → T → Bool) (l : List T) :
    mergeFun less l [] = l := by
  cases l <;> simp [mergeFun]

theorem writeList_self {T : Type} [Inhabited T] :
    ∀ (n : Nat) (d : List T) (k : Nat), k + n ≤ d.length →
      writeList d k (segN d k n) = d
  | 0, d, k, _ => rfl
  | n + 1, d, k, h => by
    rw [segN_cons, writeList, dset_self d k (by omega)]
    exact writeList_self n d (k + 1) (by omega)

theorem copyFrom_spec {T : Type} [Inhabited T] (temp : List T) (bound : Nat) :
    ∀ fuel (d : List T) i k, bound + 1 - i ≤ fuel →
      copyFrom temp bound fuel d i k =
        (writeList d k (segN temp i (bound + 1 - i)), k + (bound + 1 - i)) := by
  intro fuel
  induction fuel with
  | zero =>
    intro d i k hf
    rw [show bound + 1 - i = 0 by omega]
    rfl
  | succ fuel ih =>
    intro d i k hf
    unfold copyFrom
    by_cases hi : i ≤ bound
    · rw [if_pos hi, ih _ (i + 1) (k + 1) (by omega)]
      rw [show bound + 1 - i = (bound - i) + 1 by omega, segN_cons, writeList,
        show bound + 1 - (i + 1) = bound - i by omega,
        show k + 1 + (bound - i) = k + (bound - i + 1) by omega]
    · rw [if_neg hi, show bound + 1 - i = 0 by omega]
      rfl

theorem mergeLoop_spec {T : Type} [Inhabited T] (less : T → T → Bool) (temp : List T)
    (mid right : Nat) :
    ∀ fuel (d : List T) i j k, (mid + 1 - i) + (right + 1 - j) ≤ fuel →
      mergeLoop less temp mid right fuel d i j k =
        writeList d k
          (mergeFun less (segN temp i (mid + 1 - i)) (segN temp j (right + 1 - j))) := by
  intro fuel
  induction fuel with
  | zero =>
    intro d i j k hf
    unfold mergeLoop
    dsimp only
    rw [copyFrom_spec temp mid (mid + 1 - i) d i k (Nat.le_refl _)]
    dsimp only
    rw [copyFrom_spec temp right (right + 1 - j) _ j _ (Nat.le_refl _)]
    dsimp only
    rw [show mid + 1 - i = 0 by omega, show right + 1 - j = 0 by omega]
    simp [mergeFun, writeList]
  | succ fuel ih =>
    intro d i j k hf
    unfold mergeLoop
    by_cases hij : i ≤ mid ∧ j ≤ right
    · rw [if_pos hij]
      obtain ⟨hi, hj⟩ := hij
      rw [show mid + 1 - i = (mid - i) + 1 by omega, segN_cons,
        show right + 1 - j = (right - j) + 1 by omega, segN_cons]
      rw [mergeFun]
      by_cases h1 : less (dget temp i) (dget temp j) = true
      · rw [if_pos h1, if_pos h1, writeList]
        rw [ih _ (i + 1) j (k + 1) (by omega),
          show mid + 1 - (i + 1) = mid - i by omega,
          show right + 1 - j = (right - j) + 1 by omega, segN_cons]
      · rw [if_neg h1, if_neg h1]
        by_cases h2 : less (dget temp j) (dget temp i) = true
        · rw [if_pos h2, if_pos h2, writeList]
          rw [ih _ i (j + 1) (k + 1) (by omega),
            show right + 1 - (j + 1) = right - j by omega,
            show mid + 1 - i = (mid - i) + 1 by omega, segN_cons]
        · rw [if_neg h2, if_neg h2, writeList]
          rw [ih _ (i + 1) j (k + 1) (by omega),
            show mid + 1 - (i + 1) = mid - i by omega,
            show right + 1 - j = (right - j) + 1 by omega, segN_cons]
    · rw [if_neg hij]
      dsimp only
      rw [copyFrom_spec temp mid (mid + 1 - i) d i k (Nat.le_refl _)]
      dsimp only
      rw [copyFrom_spec temp right (right + 1 - j) _ j _ (Nat.le_refl _)]
      dsimp only
      by_cases hi : i ≤ mid
      · have hj : ¬(j ≤ right) := fun hj => hij ⟨hi, hj⟩
        rw [show right + 1 - j = 0 by omega]
        rw [segN_zero, mergeFun_nil_right]
        simp [writeList]
      · rw [show mid + 1 - i = 0 by omega]
        simp [mergeFun, writeList]

theorem mergeL_spec {T : Type} [Inhabited T] (less : T → T → Bool) (d : List T)
    (left mid right : Nat) :
    mergeL less d left mid right =
      writeList d left
        (mergeFun less (segN d left (mid + 1 - left)) (segN d (mid + 1) (right + 1 - (mid + 1)))) := by
  unfold mergeL
  exact mergeLoop_spec less d mid right _ d left (mid + 1) left (Nat.le_refl _)

theorem mergeL_ok {T : Type} [Inhabited T] {less : T → T → Bool} (hswo : SWO less)
    (d : List T) (left mid right : Nat)
    (h1 : left ≤ mid + 1) (h2 : mid ≤ right) (hr : right < d.length)
    (hsl : SortedSeg less d left mid) (hsr : SortedSeg less d (mid + 1) right) :
    SegOp d (mergeL less d left mid right) left right ∧
    SortedSeg less (mergeL less d left mid right) left right ∧
    (∀ P : T → Bool, (∀ a b, P a = true → P b = true → less a b = false) →
      (segN (mergeL less d left mid right) left (right + 1 - left)).filter P =
        (segN d left (right + 1 - left)).filter P) := by
  rw [mergeL_spec]
  have hlenM : (mergeFun less (segN d left (mid + 1 - left))
      (segN d (mid + 1) (right + 1 - (mid + 1)))).length = right + 1 - left := by
    rw [mergeFun_length]
    simp only [segN_length]
    omega
  have hinb : left + (right + 1 - left) ≤ d.length := by omega
  have hsegres : segN (writeList d left
      (mergeFun less (segN d left (mid + 1 - left)) (segN d (mid + 1) (right + 1 - (mid + 1)))))
      left (right + 1 - left) =
      mergeFun less (segN d left (mid + 1 - left)) (segN d (mid + 1) (right + 1 - (mid + 1))) := by
    have := writeList_segN (mergeFun less (segN d left (mid + 1 - left))
      (segN d (mid + 1) (right + 1 - (mid + 1)))) d left (by rw [hlenM]; exact hinb)
    rw [hlenM] at this
    exact this
  have happ : segN d left (right + 1 - left) =
      segN d left (mid + 1 - left) ++ segN d (mid + 1) (right + 1 - (mid + 1)) := by
    have e := segN_append d left (mid + 1 - left) (right + 1 - (mid + 1))
    rw [show left + (mid + 1 - left) = mid + 1 by omega,
      show (mid + 1 - left) + (right + 1 - (mid + 1)) = right + 1 - left by omega] at e
    exact e
  have hpl : (segN d left (mid + 1 - left)).Pairwise (fun a b => less b a = false) :=
    (sortedSeg_iff_pairwise less d left mid).mp hsl
  have hpr : (segN d (mid + 1) (right + 1 - (mid + 1))).Pairwise
      (fun a b => less b a = false) :=
    (sortedSeg_iff_pairwise less d (mid + 1) right).mp hsr
  refine ⟨⟨by simp, ?_, ?_⟩, ?_, ?_⟩
  · intro k hk
    refine writeList_frame _ d left k ?_
    rw [hlenM]
    omega
  · rw [seg_eq_segN, seg_eq_segN, hsegres, happ]
    exact mergeFun_perm less _ _
  · rw [(sortedSeg_iff_pairwise less _ left right), hsegres]
    exact mergeFun_sorted hswo _ _ hpl hpr
  · intro P hP
    rw [hsegres, happ, List.filter_append]
    exact mergeFun_filter hswo P hP _ _ hpl hpr

theorem mergeL_id {T : Type} [Inhabited T] (less : T → T → Bool) (d : List T)
    (left mid right : Nat)
    (h1 : left ≤ mid + 1) (h2 : mid ≤ right) (hr : right < d.length)
    (hs : SortedSeg less d left right) :
    mergeL less d left mid right = d := by
  rw [mergeL_spec]
  have happ : segN d left (right + 1 - left) =
      segN d left (mid + 1 - left) ++ segN d (mid + 1) (right + 1 - (mid + 1)) := by
    have e := segN_append d left (mid + 1 - left) (right + 1 - (mid + 1))
    rw [show left + (mid + 1 - left) = mid + 1 by omega,
      show (mid + 1 - left) + (right + 1 - (mid + 1)) = right + 1 - left by omega] at e
    exact e
  have hp : (segN d left (mid + 1 - left) ++
      segN d (mid + 1) (right + 1 - (mid + 1))).Pairwise (fun a b => less b a = false) := by
    rw [← happ]
    exact (sortedSeg_iff_pairwise less d left right).mp hs
  rw [mergeFun_id less _ _ hp, ← happ]
  exact writeList_self (right + 1 - left) d left (by omega)

theorem sortedSeg_trivial {T : Type} [Inhabited T] (less : T → T → Bool)
    (d : List T) {lo hi : Nat} (h : hi ≤ lo) : SortedSeg less d lo hi :=
  fun i j h1 h2 h3 => absurd ((h3.trans h).trans h1) (by omega)

theorem mergeSortRange_ok {T : Type} [Inhabited T] {less : T → T → Bool}
    (hswo : SWO less) :
    ∀ fuel (d : List T) left right, right - left ≤ fuel → right < d.length →
      SegOp d (mergeSortRange less fuel d left right) left right ∧
      SortedSeg less (mergeSortRange less fuel d left right) left right ∧
      (∀ P : T → Bool, (∀ a b, P a = true → P b = true → less a b = false) →
        (segN (mergeSortRange less fuel d left right) left (right + 1 - left)).filter P =
          (segN d left (right + 1 - left)).filter P) := by
  intro fuel
  induction fuel with
  | zero =>
    intro d left right hf hr
    exact ⟨SegOp.refl d left right, sortedSeg_trivial less d (by omega),
      fun P hP => rfl⟩
  | succ fuel ih =>
    intro d left right hf hr
    unfold mergeSortRange
    by_cases hlr : left < right
    · rw [if_pos hlr]
      dsimp only
      obtain ⟨op1, sort1, filt1⟩ := ih d left (left + (right - left) / 2) (by omega) (by omega)
      obtain ⟨op2, sort2, filt2⟩ := ih (mergeSortRange less fuel d left (left + (right - left) / 2))
        (left + (right - left) / 2 + 1) right (by omega) (by rw [op1.len]; exact hr)
      have hsort1' : SortedSeg less
          (mergeSortRange less fuel (mergeSortRange less fuel d left (left + (right - left) / 2))
            (left + (right - left) / 2 + 1) right)
          left (left + (right - left) / 2) :=
        sortedSeg_congr (fun k hk1 hk2 => op2.frame k (by omega)) sort1
      obtain ⟨opM, sortM, filtM⟩ := mergeL_ok hswo _ left (left + (right - left) / 2) right
        (by omega) (by omega) (by rw [op2.len, op1.len]; exact hr) hsort1' sort2
      refine ⟨((op1.mono (Nat.le_refl left) (by omega) (by omega)).trans
        (op2.mono (by omega) (Nat.le_refl right) (by omega))).trans opM, sortM, ?_⟩
      intro P hP
      rw [filtM P hP]
      have hsplit : ∀ e : List T, segN e left (right + 1 - left) =
          segN e left (left + (right - left) / 2 + 1 - left) ++
          segN e (left + (right - left) / 2 + 1)
            (right + 1 - (left + (right - left) / 2 + 1)) := by
        intro e
        have h := segN_append e left (left + (right - left) / 2 + 1 - left)
          (right + 1 - (left + (right - left) / 2 + 1))
        rw [show left + (left + (right - left) / 2 + 1 - left) =
          left + (right - left) / 2 + 1 by omega] at h
        rw [show left + (right - left) / 2 + 1 - left +
          (right + 1 - (left + (right - left) / 2 + 1)) = right + 1 - left by omega] at h
        exact h
      rw [hsplit, hsplit d, List.filter_append, List.filter_append]
      congr 1
      · have hfirst : segN (mergeSortRange less fuel
            (mergeSortRange less fuel d left (left + (right - left) / 2))
            (left + (right - left) / 2 + 1) right) left
            (left + (right - left) / 2 + 1 - left) =
            segN (mergeSortRange less fuel d left (left + (right - left) / 2)) left
            (left + (right - left) / 2 + 1 - left) :=
          segN_congr (fun k hk1 hk2 => op2.frame k (by omega))
        rw [hfirst]
        exact filt1 P hP
      · rw [filt2 P hP]
        refine congrArg _ (segN_congr (fun k hk1 hk2 => op1.frame k (by omega)))
    · rw [if_neg hlr]
      exact ⟨SegOp.refl d left right, sortedSeg_trivial less d (by omega),
        fun P hP => rfl⟩

theorem mergeSortRange_id {T : Type} [Inhabited T] (less : T → T → Bool) :
    ∀ fuel (d : List T) left right, right < d.length →
      SortedSeg less d left right →
      mergeSortRange less fuel d left right = d := by
  intro fuel
  induction fuel with
  | zero => intro d left right _ _; rfl
  | succ fuel ih =>
    intro d left right hr hs
    unfold mergeSortRange
    by_cases hlr : left < right
    · rw [if_pos hlr]
      dsimp only
      rw [ih d left (left + (right - left) / 2) (by omega)
        (hs.weaken (Nat.le_refl left) (by omega))]
      rw [ih d (left + (right - left) / 2 + 1) right hr
        (hs.weaken (by omega) (Nat.le_refl right))]
      exact mergeL_id less d left (left + (right - left) / 2) right (by omega) (by omega) hr hs
    · rw [if_neg hlr]

/-! ## Quicksort: correctness -/

theorem lswap_self {T : Type} [Inhabited T] (d : List T) (i : Nat) (h : i < d.length) :
    lswap d i i = d := by
  unfold lswap
  rw [List.set_set, dset_self d i h]

theorem partLoop_spec {T : Type} [Inhabited T] {less : T → T → Bool} (hswo : SWO less)
    (pivot : T) (high : Nat) :
    ∀ fuel (d : List T) ip j, high - j ≤ fuel → ip ≤ j → j ≤ high → high < d.length →
      (∀ k, ip ≤ k → k < j → less pivot (dget d k) = true) →
      SegOp d (partLoop less pivot high fuel d ip j).1 ip (high - 1) ∧
      ip ≤ (partLoop less pivot high fuel d ip j).2 ∧
      (partLoop less pivot high fuel d ip j).2 ≤ high ∧
      (∀ k, ip ≤ k → k < (partLoop less pivot high fuel d ip j).2 →
        less pivot (dget (partLoop less pivot high fuel d ip j).1 k) = false) ∧
      (∀ k, (partLoop less pivot high fuel d ip j).2 ≤ k → k < high →
        less pivot (dget (partLoop less pivot high fuel d ip j).1 k) = true) := by
  intro fuel
  induction fuel with
  | zero =>
    intro d ip j hf h1 h2 h3 hmid
    have hjh : j = high := by omega
    simp only [partLoop]
    exact ⟨SegOp.refl d ip (high - 1), Nat.le_refl ip, by omega,
      fun k hk1 hk2 => absurd hk2 (by omega), fun k hk1 hk2 => hmid k hk1 (by omega)⟩
  | succ fuel ih =>
    intro d ip j hf h1 h2 h3 hmid
    unfold partLoop
    by_cases hj : j < high
    · rw [if_pos hj]
      rw [partition_cond_eq hswo (dget d j) pivot]
      by_cases hc : less pivot (dget d j) = true
      · rw [if_neg (by simp [hc])]
        exact ih d ip (j + 1) (by omega) (by omega) (by omega) h3
          (fun k hk1 hk2 => by
            by_cases hkj : k = j
            · subst hkj; exact hc
            · exact hmid k hk1 (by omega))
      · rw [if_pos (by simp [Bool.eq_false_iff.mpr hc])]
        have hswap : SegOp d (lswap d ip j) ip (high - 1) :=
          SegOp.of_lswap (Nat.le_refl ip) (by omega) h1 (by omega) (by omega) (by omega)
        have hmid2 : ∀ k, ip + 1 ≤ k → k < j + 1 → less pivot (dget (lswap d ip j) k) = true := by
          intro k hk1 hk2
          by_cases hkj : k = j
          · by_cases hij : ip = j
            · omega
            · rw [hkj, dget_lswap_snd (by omega)]
              exact hmid ip (Nat.le_refl ip) (by omega)
          · rw [dget_lswap_other (by omega) (by omega)]
            exact hmid k (by omega) (by omega)
        obtain ⟨iop, ih1, ih2, ihL, ihR⟩ := ih (lswap d ip j) (ip + 1) (j + 1) (by omega)
          (by omega) (by omega) (by simpa using h3) hmid2
        refine ⟨hswap.trans (iop.mono (by omega) (Nat.le_refl _) (by omega)), by omega, ih2,
          ?_, ihR⟩
        intro k hk1 hk2
        by_cases hkip : k = ip
        · subst hkip
          rw [iop.frame k (Or.inl (by omega)), dget_lswap_fst (by omega) (by omega)]
          exact Bool.eq_false_iff.mpr hc
        · exact ihL k (by omega) hk2
    · rw [if_neg hj]
      have hjh : j = high := by omega
      exact ⟨SegOp.refl d ip (high - 1), Nat.le_refl ip, by omega,
        fun k hk1 hk2 => absurd hk2 (by omega), fun k hk1 hk2 => hmid k hk1 (by omega)⟩

theorem partitionL_spec {T : Type} [Inhabited T] {less : T → T → Bool} (hswo : SWO less)
    (d : List T) (low high : Nat) (hlh : low ≤ high) (hh : high < d.length) :
    SegOp d (partitionL less d low high).1 low high ∧
    low ≤ (partitionL less d low high).2 ∧
    (partitionL less d low high).2 ≤ high ∧
    dget (partitionL less d low high).1 (partitionL less d low high).2 = dget d high ∧
    (∀ k, low ≤ k → k < (partitionL less d low high).2 →
      less (dget d high) (dget (partitionL less d low high).1 k) = false) ∧
    (∀ k, (partitionL less d low high).2 < k → k ≤ high →
      less (dget d high) (dget (partitionL less d low high).1 k) = true) := by
  obtain ⟨op, h1, h2, hL, hR⟩ := partLoop_spec hswo (dget d high) high (high - low) d low low
    (by omega) (Nat.le_refl low) hlh hh (fun k hk1 hk2 => absurd hk2 (by omega))
  unfold partitionL
  dsimp only
  set r := partLoop less (dget d high) high (high - low) d low low with hr
  have hlen : r.1.length = d.length := op.len
  have hph : dget r.1 high = dget d high := by
    by_cases h0 : high = 0
    · have hl0 : low = 0 := by omega
      rw [hr, h0, hl0]
      simp only [partLoop]
    · exact op.frame high (Or.inr (by omega))
  have hop2 : SegOp d (lswap r.1 r.2 high) low high :=
    (op.mono (Nat.le_refl low) (by omega) (by omega)).trans
      (SegOp.of_lswap h1 h2 hlh (Nat.le_refl high) (by omega) (by omega))
  refine ⟨hop2, h1, h2, ?_, ?_, ?_⟩
  · rw [dget_lswap_fst (by omega) (by omega)]
    exact hph
  · intro k hk1 hk2
    rw [dget_lswap_other (by omega) (by omega)]
    exact hL k hk1 hk2
  · intro k hk1 hk2
    by_cases hkh : k = high
    · subst hkh
      rw [dget_lswap_snd (by omega)]
      exact hR r.2 (Nat.le_refl _) (by omega)
    · rw [dget_lswap_other (by omega) (by omega)]
      exact hR k (by omega) (by omega)

theorem quickSortRange_noop {T : Type} [Inhabited T] (less : T → T → Bool) :
    ∀ fuel (d : List T) low high, high ≤ low → quickSortRange less fuel d low high = d
  | 0, d, _, _, _ => rfl
  | fuel + 1, d, low, high, h => by
    simp only [quickSortRange]
    rw [if_neg (by omega)]

theorem quickSortRange_ok {T : Type} [Inhabited T] {less : T → T → Bool} (hswo : SWO less) :
    ∀ fuel (d : List T) low high, high - low ≤ fuel → high < d.length →
      SegOp d (quickSortRange less fuel d low high) low high ∧
      SortedSeg less (quickSortRange less fuel d low high) low high := by
  intro fuel
  induction fuel with
  | zero =>
    intro d low high hf hh
    simp only [quickSortRange]
    exact ⟨SegOp.refl d low high, sortedSeg_trivial less d (by omega)⟩
  | succ fuel ih =>
    intro d low high hf hh
    by_cases hlh : low < high
    · obtain ⟨opP, hp1, hp2, hpv, hPL, hPR⟩ := partitionL_spec hswo d low high (by omega) hh
      simp only [quickSortRange]
      rw [if_pos hlh]
      set p := partitionL less d low high with hp
      have hplen : p.1.length = d.length := opP.len
      obtain ⟨opL, sortL⟩ := ih p.1 low (p.2 - 1) (by omega) (by omega)
      set dL := quickSortRange less fuel p.1 low (p.2 - 1) with hdL
      have hdLlen : dL.length = p.1.length := opL.len
      obtain ⟨opR, sortR⟩ := ih dL (p.2 + 1) high (by omega) (by omega)
      set dR := quickSortRange less fuel dL (p.2 + 1) high with hdR
      have hpivL : dget dL p.2 = dget p.1 p.2 := by
        by_cases hp0 : p.2 = 0
        · rw [hdL, hp0, quickSortRange_noop less fuel p.1 low (0 - 1) (by omega)]
        · exact opL.frame p.2 (Or.inr (by omega))
      have hpivR : dget dR p.2 = dget dL p.2 := opR.frame p.2 (Or.inl (by omega))
      have hpiv : dget dR p.2 = dget d high := by rw [hpivR, hpivL, hpv]
      have hLval : ∀ i, low ≤ i → i < p.2 → less (dget d high) (dget dR i) = false := by
        intro i hi1 hi2
        rw [opR.frame i (Or.inl (by omega))]
        have hmem : dget dL i ∈ seg p.1 low (p.2 - 1) := opL.dget_mem hi1 (by omega)
        obtain ⟨m, hm1, hm2, hm3⟩ := mem_seg.mp hmem
        rw [← hm3]
        exact hPL m hm1 (by omega)
      have hRval : ∀ j, p.2 < j → j ≤ high → less (dget d high) (dget dR j) = true := by
        intro j hj1 hj2
        have hmem : dget dR j ∈ seg dL (p.2 + 1) high := opR.dget_mem (by omega) hj2
        rw [seg_congr (fun k hk1 hk2 => opL.frame k (Or.inr (by omega)))] at hmem
        obtain ⟨m, hm1, hm2, hm3⟩ := mem_seg.mp hmem
        rw [← hm3]
        exact hPR m (by omega) hm2
      have sortL2 : SortedSeg less dR low (p.2 - 1) :=
        sortedSeg_congr (fun k hk1 hk2 => opR.frame k (Or.inl (by omega))) sortL
      refine ⟨opP.trans ((opL.mono (Nat.le_refl low) (by omega) (by omega)).trans
        (opR.mono (by omega) (Nat.le_refl high) (by omega))), ?_⟩
      intro i j hi hij hj
      rcases Nat.lt_trichotomy j p.2 with hjp | hjp | hjp
      · exact sortL2 i j hi hij (by omega)
      · have hieq : dget dR j = dget d high := hjp ▸ hpiv
        rw [hieq]
        exact hLval i hi (by omega)
      · rcases Nat.lt_trichotomy i p.2 with hip | hip | hip
        · exact hswo.le_trans _ _ _ (hswo.asymm _ _ (hRval j hjp hj)) (hLval i hi hip)
        · have hieq : dget dR i = dget d high := hip ▸ hpiv
          rw [hieq]
          exact hswo.asymm _ _ (hRval j hjp hj)
        · exact sortR i j (by omega) hij hj
    · simp only [quickSortRange]
      rw [if_neg hlh]
      exact ⟨SegOp.refl d low high, sortedSeg_trivial less d (by omega)⟩

theorem partLoop_id {T : Type} [Inhabited T] (less : T → T → Bool) (pivot : T) (high : Nat) :
    ∀ fuel (d : List T) j, high - j ≤ fuel → j ≤ high → high < d.length →
      (∀ k, j ≤ k → k < high → less pivot (dget d k) = false) →
      partLoop less pivot high fuel d j j = (d, high) := by
  intro fuel
  induction fuel with
  | zero =>
    intro d j hf hj hh hmid
    simp only [partLoop]
    rw [show j = high by omega]
  | succ fuel ih =>
    intro d j hf hj hh hmid
    unfold partLoop
    by_cases hjh : j < high
    · rw [if_pos hjh]
      have hnp : less pivot (dget d j) = false := hmid j (Nat.le_refl j) hjh
      rw [if_pos (by cases hx : less (dget d j) pivot <;> simp [hx, hnp])]
      rw [lswap_self d j (by omega)]
      exact ih d (j + 1) (by omega) (by omega) hh (fun k hk1 hk2 => hmid k (by omega) hk2)
    · rw [if_neg hjh]
      rw [show j = high by omega]

theorem partitionL_id {T : Type} [Inhabited T] (less : T → T → Bool) (d : List T)
    (low high : Nat) (hlh : low ≤ high) (hh : high < d.length)
    (hs : SortedSeg less d low high) :
    partitionL less d low high = (d, high) := by
  unfold partitionL
  dsimp only
  rw [partLoop_id less (dget d high) high (high - low) d low (by omega) hlh hh
    (fun k hk1 hk2 => hs k high hk1 hk2 (Nat.le_refl high))]
  dsimp only
  rw [lswap_self d high hh]

theorem quickSortRange_id {T : Type} [Inhabited T] (less : T → T → Bool) :
    ∀ fuel (d : List T) low high, high < d.length → SortedSeg less d low high →
      quickSortRange less fuel d low high = d := by
  intro fuel
  induction fuel with
  | zero =>
    intro d low high hh hs
    simp only [quickSortRange]
  | succ fuel ih =>
    intro d low high hh hs
    by_cases hlh : low < high
    · simp only [quickSortRange]
      rw [if_pos hlh, partitionL_id less d low high (by omega) hh hs]
      dsimp only
      rw [ih d low (high - 1) (by omega) (hs.weaken (Nat.le_refl low) (by omega))]
      exact quickSortRange_noop less fuel d (high + 1) high (by omega)
    · simp only [quickSortRange]
      rw [if_neg hlh]

/-! ## Heapsort: correctness -/

/-- Edge form of the max-heap order on the region of relative size hs at
    offset base: every parent-child pair whose parent index is at least m
    is ordered.  heapify at root m turns HeapFrom (m+1) into HeapFrom m. -/
def HeapFrom {T : Type} [Inhabited T] (less : T → T → Bool) (d : List T)
    (base hs m : Nat) : Prop :=
  ∀ c, 1 ≤ c → c < hs → m ≤ (c - 1) / 2 →
    less (dget d (base + (c - 1) / 2)) (dget d (base + c)) = false

/-- c is a descendant of j in the implicit binary heap (relative indices). -/
inductive Desc : Nat → Nat → Prop where
  | refl (j : Nat) : Desc j j
  | step {j c : Nat} (h1 : 1 ≤ c) (h2 : Desc j ((c - 1) / 2)) : Desc j c

theorem Desc.le {j c : Nat} (h : Desc j c) : j ≤ c := by
  induction h with
  | refl => exact Nat.le_refl _
  | step h1 h2 ih => omega

theorem Desc.chain {i j c : Nat} (h1 : Desc i j) (h2 : Desc j c) : Desc i c := by
  induction h2 with
  | refl => exact h1
  | step ha hb ih => exact Desc.step ha ih

theorem desc_zero : ∀ c, Desc 0 c := by
  intro c
  induction c using Nat.strong_induction_on with
  | _ c ih =>
    match c with
    | 0 => exact Desc.refl 0
    | c + 1 => exact Desc.step (by omega) (ih ((c + 1 - 1) / 2) (by omega))

/-- Along any descendant chain below m, heap order propagates. -/
theorem heapFrom_desc {T : Type} [Inhabited T] {less : T → T → Bool} (hswo : SWO less)
    {d : List T} {base hs m q c : Nat} (hh : HeapFrom less d base hs m)
    (hq : m ≤ q) (hdesc : Desc q c) (hc : c < hs) :
    less (dget d (base + q)) (dget d (base + c)) = false := by
  induction hdesc with
  | refl => exact hswo.irrefl _
  | step h1 h2 ih =>
    next c' =>
    have hpar := hh c' h1 hc (by have := h2.le; omega)
    exact hswo.le_trans _ _ _ (ih (by omega)) hpar

theorem heapFrom_root_max {T : Type} [Inhabited T] {less : T → T → Bool} (hswo : SWO less)
    {d : List T} {base hs : Nat} (hh : HeapFrom less d base hs 0) {c : Nat} (hc : c < hs) :
    less (dget d base) (dget d (base + c)) = false := by
  have := heapFrom_desc hswo hh (Nat.le_refl 0) (desc_zero c) hc
  simpa using this

theorem heapLargest_spec {T : Type} [Inhabited T] {less : T → T → Bool} (hswo : SWO less)
    (d : List T) (base hs j : Nat) :
    (heapLargest less d base hs (base + j) = base + j ∨
     heapLargest less d base hs (base + j) = base + (2 * j + 1) ∨
     heapLargest less d base hs (base + j) = base + (2 * j + 2)) ∧
    (2 * j + 1 < hs →
      less (dget d (heapLargest less d base hs (base + j))) (dget d (base + (2 * j + 1))) = false) ∧
    (2 * j + 2 < hs →
      less (dget d (heapLargest less d base hs (base + j))) (dget d (base + (2 * j + 2))) = false) ∧
    (heapLargest less d base hs (base + j) ≠ base + j →
      less (dget d (base + j)) (dget d (heapLargest less d base hs (base + j))) = true) ∧
    less (dget d (heapLargest less d base hs (base + j))) (dget d (base + j)) = false := by
  unfold heapLargest
  dsimp only
  rw [show 2 * (base + j - base) + 1 + base = base + (2 * j + 1) by omega,
    show 2 * (base + j - base) + 2 + base = base + (2 * j + 2) by omega]
  by_cases h1 : (decide (base + (2 * j + 1) < base + hs) && less (dget d (base + j)) (dget d (base + (2 * j + 1)))) = true
  · rw [if_pos h1]
    rw [Bool.and_eq_true, decide_eq_true_eq] at h1
    by_cases h2 : (decide (base + (2 * j + 2) < base + hs) && less (dget d (base + (2 * j + 1))) (dget d (base + (2 * j + 2)))) = true
    · rw [if_pos h2]
      rw [Bool.and_eq_true, decide_eq_true_eq] at h2
      have hxb : less (dget d (base + j)) (dget d (base + (2 * j + 2))) = true :=
        hswo.lt_trans h1.2 h2.2
      exact ⟨Or.inr (Or.inr rfl), fun _ => hswo.asymm _ _ h2.2, fun _ => hswo.irrefl _,
        fun _ => hxb, hswo.asymm _ _ hxb⟩
    · rw [if_neg h2]
      rw [Bool.and_eq_true, decide_eq_true_eq, not_and_or] at h2
      refine ⟨Or.inr (Or.inl rfl), fun _ => hswo.irrefl _, ?_, fun _ => h1.2,
        hswo.asymm _ _ h1.2⟩
      intro hrok
      rcases h2 with h2 | h2
      · exact absurd (by omega : base + (2 * j + 2) < base + hs) h2
      · exact Bool.eq_false_iff.mpr h2
  · rw [if_neg h1]
    rw [Bool.and_eq_true, decide_eq_true_eq, not_and_or] at h1
    by_cases h2 : (decide (base + (2 * j + 2) < base + hs) && less (dget d (base + j)) (dget d (base + (2 * j + 2)))) = true
    · rw [if_pos h2]
      rw [Bool.and_eq_true, decide_eq_true_eq] at h2
      refine ⟨Or.inr (Or.inr rfl), ?_, fun _ => hswo.irrefl _, fun _ => h2.2,
        hswo.asymm _ _ h2.2⟩
      intro hlok
      have hxa : less (dget d (base + j)) (dget d (base + (2 * j + 1))) = false := by
        rcases h1 with h1 | h1
        · exact absurd (by omega : base + (2 * j + 1) < base + hs) h1
        · exact Bool.eq_false_iff.mpr h1
      cases hba : less (dget d (base + (2 * j + 2))) (dget d (base + (2 * j + 1)))
      · rfl
      · have := hswo.lt_trans h2.2 hba
        rw [this] at hxa
        cases hxa
    · rw [if_neg h2]
      rw [Bool.and_eq_true, decide_eq_true_eq, not_and_or] at h2
      refine ⟨Or.inl rfl, ?_, ?_, fun h => absurd rfl h, hswo.irrefl _⟩
      · intro hlok
        rcases h1 with h1 | h1
        · exact absurd (by omega : base + (2 * j + 1) < base + hs) h1
        · exact Bool.eq_false_iff.mpr h1
      · intro hrok
        rcases h2 with h2 | h2
        · exact absurd (by omega : base + (2 * j + 2) < base + hs) h2
        · exact Bool.eq_false_iff.mpr h2

theorem heapify_spec {T : Type} [Inhabited T] {less : T → T → Bool} (hswo : SWO less)
    (base hs : Nat) :
    ∀ fuel (d : List T) j, hs - j ≤ fuel → j < hs → base + hs ≤ d.length →
      HeapFrom less d base hs (j + 1) →
      SegOp d (heapify less fuel d base hs (base + j)) base (base + hs - 1) ∧
      (∀ c, c < hs → ¬ Desc j c →
        dget (heapify less fuel d base hs (base + j)) (base + c) = dget d (base + c)) ∧
      HeapFrom less (heapify less fuel d base hs (base + j)) base hs j ∧
      (∀ c, c < hs → Desc j c → ∃ e, e < hs ∧ Desc j e ∧
        dget (heapify less fuel d base hs (base + j)) (base + c) = dget d (base + e)) := by
  intro fuel
  induction fuel with
  | zero =>
    intro d j hf hj hlen hpre
    exact absurd hj (by omega)
  | succ fuel ih =>
    intro d j hf hj hlen hpre
    obtain ⟨hor, hlc, hrc, hlt, hge⟩ := heapLargest_spec hswo d base hs j
    unfold heapify
    dsimp only
    by_cases hne : heapLargest less d base hs (base + j) ≠ base + j
    · rw [if_pos hne]
      obtain hroot | ⟨hgt, hub⟩ := heapLargest_eq_or less d base hs (base + j)
      · exact absurd hroot hne
      have hstrict := hlt hne
      obtain ⟨g, hgL⟩ : ∃ g, heapLargest less d base hs (base + j) = base + g :=
        ⟨heapLargest less d base hs (base + j) - base, by omega⟩
      have hjg : j < g := by omega
      have hghs : g < hs := by omega
      have hg23 : g = 2 * j + 1 ∨ g = 2 * j + 2 := by
        rcases hor with h | h | h
        · exact absurd h hne
        · exact Or.inl (by omega)
        · exact Or.inr (by omega)
      have hdjg : Desc j g := by
        have hp : (g - 1) / 2 = j := by omega
        exact Desc.step (by omega) (hp ▸ Desc.refl j)
      rw [hgL] at hlc hrc hge hstrict ⊢
      have hjlen : base + j < d.length := by omega
      have hglen : base + g < d.length := by omega
      have hlswlen : (lswap d (base + j) (base + g)).length = d.length := by simp [lswap]
      have hd1j : dget (lswap d (base + j) (base + g)) (base + j) = dget d (base + g) :=
        dget_lswap_fst hjlen hglen
      have hd1g : dget (lswap d (base + j) (base + g)) (base + g) = dget d (base + j) :=
        dget_lswap_snd hglen
      have hd1o : ∀ c, c ≠ j → c ≠ g →
          dget (lswap d (base + j) (base + g)) (base + c) = dget d (base + c) :=
        fun c hcj hcg => dget_lswap_other (by omega) (by omega)
      have hpre2 : HeapFrom less (lswap d (base + j) (base + g)) base hs (g + 1) := by
        intro c h1 hc hp
        have hcg : 2 * g + 3 ≤ c := by omega
        rw [hd1o ((c - 1) / 2) (by omega) (by omega), hd1o c (by omega) (by omega)]
        exact hpre c h1 hc (by omega)
      obtain ⟨iop, ifr, ihp, iprov⟩ := ih (lswap d (base + j) (base + g)) g (by omega) hghs
        (by omega) hpre2
      have hRg : ∀ c, c < hs → Desc g c →
          dget (heapify less fuel (lswap d (base + j) (base + g)) base hs (base + g))
            (base + c) = dget d (base + j) ∨
          ∃ e, e < hs ∧ Desc g e ∧ e ≠ g ∧
            dget (heapify less fuel (lswap d (base + j) (base + g)) base hs (base + g))
              (base + c) = dget d (base + e) := by
        intro c hc hdc
        obtain ⟨e, he1, he2, he3⟩ := iprov c hc hdc
        by_cases heg : e = g
        · left
          rw [he3, heg, hd1g]
        · right
          exact ⟨e, he1, he2, heg, by rw [he3, hd1o e (by have := he2.le; omega) heg]⟩
      have hdesc_par : ∀ c, (c - 1) / 2 < g → Desc g c → c = g := by
        intro c hp hdc
        cases hdc with
        | refl => rfl
        | step ha hb => exact absurd hb.le (by omega)
      have hgdom : ∀ e, e < hs → Desc g e →
          less (dget d (base + g)) (dget d (base + e)) = false :=
        fun e he hde => heapFrom_desc hswo hpre (by omega) hde he
      refine ⟨(SegOp.of_lswap (by omega) (by omega) (by omega) (by omega) hjlen hglen).trans
        iop, ?_, ?_, ?_⟩
      · intro c hc hnd
        have hncg : ¬ Desc g c := fun h => hnd (hdjg.chain h)
        rw [ifr c hc hncg,
          hd1o c (fun h => hnd (by rw [h]; exact Desc.refl j))
            (fun h => hnd (by rw [h]; exact hdjg))]
      · intro c h1 hc hp
        by_cases hpg : g ≤ (c - 1) / 2
        · exact ihp c h1 hc hpg
        · push_neg at hpg
          by_cases hpj : (c - 1) / 2 = j
          · have hc12 : c = 2 * j + 1 ∨ c = 2 * j + 2 := by omega
            have hRp : dget (heapify less fuel (lswap d (base + j) (base + g)) base hs
                (base + g)) (base + (c - 1) / 2) = dget d (base + g) := by
              rw [hpj, ifr j (by omega) (fun h => absurd h.le (by omega)), hd1j]
            rw [hRp]
            by_cases hdc : Desc g c
            · rcases hRg c hc hdc with hcase | ⟨e, he1, he2, he3, he4⟩
              · rw [hcase]
                exact hge
              · rw [he4]
                exact hgdom e he1 he2
            · rw [ifr c hc hdc,
                hd1o c (by omega) (fun h => hdc (by rw [h]; exact Desc.refl g))]
              rcases hc12 with h | h
              · rw [h]
                exact hlc (by omega)
              · rw [h]
                exact hrc (by omega)
          · have hpgt : j < (c - 1) / 2 := by omega
            have hRp : dget (heapify less fuel (lswap d (base + j) (base + g)) base hs
                (base + g)) (base + (c - 1) / 2) = dget d (base + (c - 1) / 2) := by
              rw [ifr ((c - 1) / 2) (by omega) (fun h => absurd h.le (by omega)),
                hd1o ((c - 1) / 2) (by omega) (by omega)]
            rw [hRp]
            by_cases hdc : Desc g c
            · have hcg : c = g := hdesc_par c hpg hdc
              rcases hRg c hc hdc with hcase | ⟨e, he1, he2, he3, he4⟩
              · rw [hcase]
                have hjc : less (dget d (base + j)) (dget d (base + c)) = true := by
                  rw [hcg]
                  exact hstrict
                have hA := hpre c h1 hc (by omega)
                cases hx : less (dget d (base + (c - 1) / 2)) (dget d (base + j))
                · rfl
                · have := hswo.lt_trans hx hjc
                  rw [this] at hA
                  cases hA
              · rw [he4]
                have hA := hpre c h1 hc (by omega)
                have hB := hgdom e he1 he2
                rw [← hcg] at hB
                exact hswo.le_trans _ _ _ hA hB
            · rw [ifr c hc hdc,
                hd1o c (by omega) (fun h => hdc (by rw [h]; exact Desc.refl g))]
              exact hpre c h1 hc (by omega)
      · intro c hc hdc
        by_cases hgc : Desc g c
        · obtain ⟨e, he1, he2, he3⟩ := iprov c hc hgc
          by_cases heg : e = g
          · exact ⟨j, by omega, Desc.refl j, by rw [he3, heg, hd1g]⟩
          · exact ⟨e, he1, hdjg.chain he2,
              by rw [he3, hd1o e (by have := he2.le; omega) heg]⟩
        · by_cases hcj : c = j
          · exact ⟨g, hghs, hdjg, by rw [ifr c hc hgc, hcj, hd1j]⟩
          · exact ⟨c, hc, hdc,
              by rw [ifr c hc hgc,
                hd1o c hcj (fun h => hgc (by rw [h]; exact Desc.refl g))]⟩
    · rw [if_neg hne]
      push_neg at hne
      refine ⟨SegOp.refl d base (base + hs - 1), fun c hc hnd => rfl, ?_,
        fun c hc hdc => ⟨c, hc, hdc, rfl⟩⟩
      intro c h1 hc hp
      by_cases hpj : (c - 1) / 2 = j
      · have hc12 : c = 2 * j + 1 ∨ c = 2 * j + 2 := by omega
        rw [hne] at hlc hrc
        rw [hpj]
        rcases hc12 with h | h
        · rw [h] at hc ⊢
          exact hlc hc
        · rw [h] at hc ⊢
          exact hrc hc
      · exact hpre c h1 hc (by omega)

theorem buildHeapLoop_spec {T : Type} [Inhabited T] {less : T → T → Bool} (hswo : SWO less)
    (base hs : Nat) :
    ∀ n (d : List T), n ≤ hs → base + hs ≤ d.length → HeapFrom less d base hs n →
      SegOp d (buildHeapLoop less base hs d n) base (base + hs - 1) ∧
      HeapFrom less (buildHeapLoop less base hs d n) base hs 0 := by
  intro n
  induction n with
  | zero =>
    intro d hn hlen hpre
    exact ⟨SegOp.refl d base (base + hs - 1), hpre⟩
  | succ n ihn =>
    intro d hn hlen hpre
    obtain ⟨hop, _, hhf, _⟩ := heapify_spec hswo base hs hs d n (by omega) (by omega) hlen hpre
    simp only [buildHeapLoop]
    obtain ⟨op2, hf2⟩ := ihn (heapify less hs d base hs (base + n)) (by omega)
      (by have := hop.len; omega) hhf
    exact ⟨hop.trans op2, hf2⟩

theorem extractLoop_spec {T : Type} [Inhabited T] {less : T → T → Bool} (hswo : SWO less)
    (low N : Nat) :
    ∀ i (d : List T), i ≤ N → low + N < d.length →
      HeapFrom less d low (i + 1) 0 →
      (∀ a b, a < b → b ≤ N → i < b → less (dget d (low + b)) (dget d (low + a)) = false) →
      SegOp d (extractLoop less low d i) low (low + i) ∧
      SortedSeg less (extractLoop less low d i) low (low + N) := by
  intro i
  induction i with
  | zero =>
    intro d hi hlen hheap hup
    refine ⟨SegOp.refl d low low, ?_⟩
    intro a b ha hab hb
    have h := hup (a - low) (b - low) (by omega) (by omega) (by omega)
    rw [show low + (b - low) = b by omega, show low + (a - low) = a by omega] at h
    exact h
  | succ i ihn =>
    intro d hi hlen hheap hup
    simp only [extractLoop]
    have hlswlen : (lswap d low (low + (i + 1))).length = d.length := by simp [lswap]
    have hd1top : dget (lswap d low (low + (i + 1))) (low + (i + 1)) = dget d low :=
      dget_lswap_snd (by omega)
    have hd10 : dget (lswap d low (low + (i + 1))) low = dget d (low + (i + 1)) :=
      dget_lswap_fst (by omega) (by omega)
    have hd1o : ∀ c, c ≠ 0 → c ≠ i + 1 →
        dget (lswap d low (low + (i + 1))) (low + c) = dget d (low + c) :=
      fun c h0 h1 => dget_lswap_other (by omega) (by omega)
    have hroot : ∀ c, c ≤ i + 1 → less (dget d low) (dget d (low + c)) = false :=
      fun c hc => heapFrom_root_max hswo hheap (by omega)
    have hpre2 : HeapFrom less (lswap d low (low + (i + 1))) low (i + 1) 1 := by
      intro c h1 hc hp
      have hc3 : 3 ≤ c := by omega
      rw [show low + (c - 1) / 2 = low + ((c - 1) / 2) from rfl,
        hd1o ((c - 1) / 2) (by omega) (by omega), hd1o c (by omega) (by omega)]
      exact hheap c h1 (by omega) (by omega)
    obtain ⟨hop2, _, hhf2, _⟩ := heapify_spec hswo low (i + 1) (i + 1)
      (lswap d low (low + (i + 1))) 0 (by omega) (by omega) (by omega) hpre2
    simp only [Nat.add_zero] at hop2 hhf2
    have hd2len : (heapify less (i + 1) (lswap d low (low + (i + 1))) low (i + 1) low).length
        = d.length := by have := hop2.len; omega
    have hd2hi : ∀ b, i + 1 ≤ b →
        dget (heapify less (i + 1) (lswap d low (low + (i + 1))) low (i + 1) low) (low + b)
          = dget (lswap d low (low + (i + 1))) (low + b) :=
      fun b hb => hop2.frame (low + b) (Or.inr (by omega))
    have hup2 : ∀ a b, a < b → b ≤ N → i < b →
        less (dget (heapify less (i + 1) (lswap d low (low + (i + 1))) low (i + 1) low)
            (low + b))
          (dget (heapify less (i + 1) (lswap d low (low + (i + 1))) low (i + 1) low)
            (low + a)) = false := by
      intro a b hab hbN hbi
      have hvb : dget (heapify less (i + 1) (lswap d low (low + (i + 1))) low (i + 1) low)
          (low + b) = (if b = i + 1 then dget d low else dget d (low + b)) := by
        rw [hd2hi b (by omega)]
        by_cases hb1 : b = i + 1
        · rw [if_pos hb1, hb1]
          exact hd1top
        · rw [if_neg hb1]
          exact hd1o b (by omega) hb1
      by_cases ha : a ≤ i
      · have hmem := hop2.dget_mem (show low ≤ low + a by omega)
          (show low + a ≤ low + (i + 1) - 1 by omega)
        obtain ⟨k, hk1, hk2, hk3⟩ := mem_seg.mp hmem
        have hkc : dget (lswap d low (low + (i + 1))) k
            = dget (lswap d low (low + (i + 1))) (low + (k - low)) := by
          rw [show low + (k - low) = k by omega]
        by_cases hk0 : k = low
        · rw [← hk3, hk0, hd10, hvb]
          by_cases hb1 : b = i + 1
          · rw [if_pos hb1]
            exact hroot (i + 1) (by omega)
          · rw [if_neg hb1]
            exact hup (i + 1) b (by omega) hbN (by omega)
        · rw [← hk3, hkc, hd1o (k - low) (by omega) (by omega), hvb]
          by_cases hb1 : b = i + 1
          · rw [if_pos hb1]
            exact hroot (k - low) (by omega)
          · rw [if_neg hb1]
            exact hup (k - low) b (by omega) hbN (by omega)
      · have hva : dget (heapify less (i + 1) (lswap d low (low + (i + 1))) low (i + 1) low)
            (low + a) = (if a = i + 1 then dget d low else dget d (low + a)) := by
          rw [hd2hi a (by omega)]
          by_cases ha1 : a = i + 1
          · rw [if_pos ha1, ha1]
            exact hd1top
          · rw [if_neg ha1]
            exact hd1o a (by omega) ha1
        rw [hvb, hva]
        by_cases hb1 : b = i + 1
        · omega
        · rw [if_neg hb1]
          by_cases ha1 : a = i + 1
          · rw [if_pos ha1]
            have := hup 0 b (by omega) hbN (by omega)
            simpa using this
          · rw [if_neg ha1]
            exact hup a b hab hbN (by omega)
      
    obtain ⟨op3, sorted3⟩ := ihn (heapify less (i + 1) (lswap d low (low + (i + 1))) low
      (i + 1) low) (by omega) (by omega) hhf2 hup2
    refine ⟨?_, sorted3⟩
    refine ((SegOp.of_lswap (Nat.le_refl low) (by omega) (by omega) (by omega) (by omega)
      (by omega)).trans ((hop2.mono (Nat.le_refl low) (by omega) (by omega)).trans
      (op3.mono (Nat.le_refl low) (by omega) (by omega))))

theorem heapSortRange_ok {T : Type} [Inhabited T] {less : T → T → Bool} (hswo : SWO less)
    (d : List T) (low high : Nat) (hlh : low ≤ high) (hh : high < d.length) :
    SegOp d (heapSortRange less d low high) low high ∧
    SortedSeg less (heapSortRange less d low high) low high := by
  unfold heapSortRange
  dsimp only
  have hinit : HeapFrom less d low (high - low + 1) ((high - low + 1) / 2) := by
    intro c h1 hc hp
    exact absurd hc (by omega)
  obtain ⟨bop, bhf⟩ := buildHeapLoop_spec hswo low (high - low + 1) ((high - low + 1) / 2) d
    (by omega) (by omega) hinit
  obtain ⟨eop, esort⟩ := extractLoop_spec hswo low (high - low + 1 - 1)
    (high - low + 1 - 1)
    (buildHeapLoop less low (high - low + 1) d ((high - low + 1) / 2))
    (Nat.le_refl _) (by have := bop.len; omega)
    (by rw [show high - low + 1 - 1 + 1 = high - low + 1 by omega]; exact bhf)
    (fun a b hab hbN hbi => absurd hbN (by omega))
  rw [show low + (high - low + 1 - 1) = high by omega] at eop esort
  exact ⟨(bop.mono (Nat.le_refl low) (by omega) (by omega)).trans eop, esort⟩

/-! ## Introsort: correctness -/

theorem introsortRange_noop {T : Type} [Inhabited T] (less : T → T → Bool) :
    ∀ fuel (d : List T) low high depth, high ≤ low →
      introsortRange less fuel d low high depth = d
  | 0, d, _, _, _, _ => rfl
  | fuel + 1, d, low, high, depth, h => by
    simp only [introsortRange]
    rw [if_pos (by omega : high - low + 1 ≤ 16)]
    unfold insertionSortRangeL
    rw [show high - low = 0 by omega]
    rfl

theorem introsortRange_ok {T : Type} [Inhabited T] {less : T → T → Bool} (hswo : SWO less) :
    ∀ fuel (d : List T) low high depth, high - low ≤ fuel → high < d.length →
      SegOp d (introsortRange less fuel d low high depth) low high ∧
      SortedSeg less (introsortRange less fuel d low high depth) low high := by
  intro fuel
  induction fuel with
  | zero =>
    intro d low high depth hf hh
    simp only [introsortRange]
    exact ⟨SegOp.refl d low high, sortedSeg_trivial less d (by omega)⟩
  | succ fuel ih =>
    intro d low high depth hf hh
    by_cases h16 : high - low + 1 ≤ 16
    · simp only [introsortRange]
      rw [if_pos h16]
      exact insertionSortRangeL_spec hswo d low high hh
    · by_cases hd0 : depth = 0
      · simp only [introsortRange]
        rw [if_neg h16, if_pos hd0]
        exact heapSortRange_ok hswo d low high (by omega) hh
      · have hlh : low < high := by omega
        obtain ⟨opP, hp1, hp2, hpv, hPL, hPR⟩ := partitionL_spec hswo d low high (by omega) hh
        simp only [introsortRange]
        rw [if_neg h16, if_neg hd0]
        set p := partitionL less d low high with hp
        have hplen : p.1.length = d.length := opP.len
        obtain ⟨opL, sortL⟩ := ih p.1 low (p.2 - 1) (depth - 1) (by omega) (by omega)
        set dL := introsortRange less fuel p.1 low (p.2 - 1) (depth - 1) with hdL
        have hdLlen : dL.length = p.1.length := opL.len
        obtain ⟨opR, sortR⟩ := ih dL (p.2 + 1) high (depth - 1) (by omega) (by omega)
        set dR := introsortRange less fuel dL (p.2 + 1) high (depth - 1) with hdR
        have hpivL : dget dL p.2 = dget p.1 p.2 := by
          by_cases hp0 : p.2 = 0
          · rw [hdL, hp0, introsortRange_noop less fuel p.1 low (0 - 1) (depth - 1) (by omega)]
          · exact opL.frame p.2 (Or.inr (by omega))
        have hpivR : dget dR p.2 = dget dL p.2 := opR.frame p.2 (Or.inl (by omega))
        have hpiv : dget dR p.2 = dget d high := by rw [hpivR, hpivL, hpv]
        have hLval : ∀ i, low ≤ i → i < p.2 → less (dget d high) (dget dR i) = false := by
          intro i hi1 hi2
          rw [opR.frame i (Or.inl (by omega))]
          have hmem : dget dL i ∈ seg p.1 low (p.2 - 1) := opL.dget_mem hi1 (by omega)
          obtain ⟨m, hm1, hm2, hm3⟩ := mem_seg.mp hmem
          rw [← hm3]
          exact hPL m hm1 (by omega)
        have hRval : ∀ j, p.2 < j → j ≤ high → less (dget d high) (dget dR j) = true := by
          intro j hj1 hj2
          have hmem : dget dR j ∈ seg dL (p.2 + 1) high := opR.dget_mem (by omega) hj2
          rw [seg_congr (fun k hk1 hk2 => opL.frame k (Or.inr (by omega)))] at hmem
          obtain ⟨m, hm1, hm2, hm3⟩ := mem_seg.mp hmem
          rw [← hm3]
          exact hPR m (by omega) hm2
        have sortL2 : SortedSeg less dR low (p.2 - 1) :=
          sortedSeg_congr (fun k hk1 hk2 => opR.frame k (Or.inl (by omega))) sortL
        refine ⟨opP.trans ((opL.mono (Nat.le_refl low) (by omega) (by omega)).trans
          (opR.mono (by omega) (Nat.le_refl high) (by omega))), ?_⟩
        intro i j hi hij hj
        rcases Nat.lt_trichotomy j p.2 with hjp | hjp | hjp
        · exact sortL2 i j hi hij (by omega)
        · have hieq : dget dR j = dget d high := hjp ▸ hpiv
          rw [hieq]
          exact hLval i hi (by omega)
        · rcases Nat.lt_trichotomy i p.2 with hip | hip | hip
          · exact hswo.le_trans _ _ _ (hswo.asymm _ _ (hRval j hjp hj)) (hLval i hi hip)
          · have hieq : dget dR i = dget d high := hip ▸ hpiv
            rw [hieq]
            exact hswo.asymm _ _ (hRval j hjp hj)
          · exact sortR i j (by omega) hij hj

/-! ## Timsort: correctness -/

theorem revRange_spec {T : Type} [Inhabited T] :
    ∀ fuel (d : List T) s e, e - s ≤ fuel → e < d.length →
      SegOp d (revRange fuel d s e) s e ∧
      (∀ k, s ≤ k → k ≤ e → dget (revRange fuel d s e) k = dget d (s + e - k)) := by
  intro fuel
  induction fuel with
  | zero =>
    intro d s e hf he
    simp only [revRange]
    refine ⟨SegOp.refl d s e, ?_⟩
    intro k h1 h2
    rw [show s + e - k = k by omega]
  | succ fuel ih =>
    intro d s e hf he
    simp only [revRange]
    by_cases hse : s < e
    · rw [if_pos hse]
      obtain ⟨iop, ival⟩ := ih (lswap d s e) (s + 1) (e - 1) (by omega) (by simp [lswap]; omega)
      have hval : ∀ k, s ≤ k → k ≤ e → dget (revRange fuel (lswap d s e) (s + 1) (e - 1)) k
          = dget d (s + e - k) := by
        intro k h1 h2
        by_cases hk1 : k = s
        · rw [hk1, iop.frame s (Or.inl (by omega)), dget_lswap_fst (by omega) he,
            show s + e - s = e by omega]
        · by_cases hk2 : k = e
          · rw [hk2, iop.frame e (Or.inr (by omega)), dget_lswap_snd he,
              show s + e - e = s by omega]
          · have h3 := ival k (by omega) (by omega)
            rw [h3, show s + 1 + (e - 1) - k = s + e - k by omega,
              dget_lswap_other (by omega) (by omega)]
      refine ⟨?_, hval⟩
      exact (SegOp.of_lswap (Nat.le_refl s) (by omega) (by omega) (Nat.le_refl e)
        (by omega) he).trans (iop.mono (by omega) (by omega) (by omega))
    · rw [if_neg hse]
      refine ⟨SegOp.refl d s e, ?_⟩
      intro k h1 h2
      rw [show s + e - k = k by omega]

theorem ascEnd_spec {T : Type} [Inhabited T] (less : T → T → Bool) (d : List T) (size : Nat) :
    ∀ fuel j, size - 1 - j ≤ fuel → j ≤ size - 1 →
      j ≤ ascEnd less d size fuel j ∧ ascEnd less d size fuel j ≤ size - 1 ∧
      (∀ k, j ≤ k → k < ascEnd less d size fuel j →
        less (dget d k) (dget d (k + 1)) = true) := by
  intro fuel
  induction fuel with
  | zero =>
    intro j hf hj
    simp only [ascEnd]
    exact ⟨Nat.le_refl j, hj, fun k hk1 hk2 => absurd hk2 (by omega)⟩
  | succ fuel ih =>
    intro j hf hj
    simp only [ascEnd]
    by_cases hjs : j < size - 1
    · rw [if_pos hjs]
      by_cases hcmp : less (dget d j) (dget d (j + 1)) = true
      · rw [if_pos hcmp]
        obtain ⟨ih1, ih2, ih3⟩ := ih (j + 1) (by omega) (by omega)
        refine ⟨by omega, ih2, ?_⟩
        intro k hk1 hk2
        by_cases hkj : k = j
        · rw [hkj]
          exact hcmp
        · exact ih3 k (by omega) hk2
      · rw [if_neg hcmp]
        exact ⟨Nat.le_refl j, hj, fun k hk1 hk2 => absurd hk2 (by omega)⟩
    · rw [if_neg hjs]
      exact ⟨Nat.le_refl j, hj, fun k hk1 hk2 => absurd hk2 (by omega)⟩

theorem descEnd_spec {T : Type} [Inhabited T] {less : T → T → Bool} (hswo : SWO less)
    (d : List T) (size : Nat) :
    ∀ fuel j, size - 1 - j ≤ fuel → j ≤ size - 1 →
      j ≤ descEnd less d size fuel j ∧ descEnd less d size fuel j ≤ size - 1 ∧
      (∀ k, j ≤ k → k < descEnd less d size fuel j →
        less (dget d k) (dget d (k + 1)) = false) := by
  intro fuel
  induction fuel with
  | zero =>
    intro j hf hj
    simp only [descEnd]
    exact ⟨Nat.le_refl j, hj, fun k hk1 hk2 => absurd hk2 (by omega)⟩
  | succ fuel ih =>
    intro j hf hj
    simp only [descEnd]
    by_cases hjs : j < size - 1
    · rw [if_pos hjs]
      rw [partition_cond_eq hswo (dget d (j + 1)) (dget d j)]
      by_cases hcmp : less (dget d j) (dget d (j + 1)) = true
      · rw [if_neg (by simp [hcmp])]
        exact ⟨Nat.le_refl j, hj, fun k hk1 hk2 => absurd hk2 (by omega)⟩
      · rw [if_pos (by simp [Bool.eq_false_iff.mpr hcmp])]
        obtain ⟨ih1, ih2, ih3⟩ := ih (j + 1) (by omega) (by omega)
        refine ⟨by omega, ih2, ?_⟩
        intro k hk1 hk2
        by_cases hkj : k = j
        · rw [hkj]
          exact Bool.eq_false_iff.mpr hcmp
        · exact ih3 k (by omega) hk2
    · rw [if_neg hjs]
      exact ⟨Nat.le_refl j, hj, fun k hk1 hk2 => absurd hk2 (by omega)⟩

/-- The last boundary of a run list (the previous boundary when empty). -/
def lastB : Nat → List Nat → Nat
  | prev, [] => prev
  | _, b :: rest => lastB b rest

/-- Validity of a run-boundary list over a buffer: boundaries strictly
    increase and every run segment is sorted. -/
def RunsOK {T : Type} [Inhabited T] (less : T → T → Bool) (d : List T) :
    Nat → List Nat → Prop
  | _, [] => True
  | prev, b :: rest => prev < b ∧ SortedSeg less d prev (b - 1) ∧ RunsOK less d b rest

theorem runsOK_le {T : Type} [Inhabited T] (less : T → T → Bool) (d : List T) :
    ∀ rest prev, RunsOK less d prev rest → prev ≤ lastB prev rest
  | [], prev, _ => Nat.le_refl prev
  | b :: rest, prev, h => by
    simp only [lastB]
    have h1 := h.1
    have := runsOK_le less d rest b h.2.2
    omega

theorem runsOK_congr {T : Type} [Inhabited T] {less : T → T → Bool} {d d' : List T} :
    ∀ rest prev, (∀ k, prev ≤ k → dget d' k = dget d k) →
      RunsOK less d prev rest → RunsOK less d' prev rest
  | [], prev, _, _ => trivial
  | b :: rest, prev, hf, h => by
    have h1 := h.1
    refine ⟨h1, sortedSeg_congr (fun k hk1 hk2 => hf k hk1) h.2.1, ?_⟩
    exact runsOK_congr rest b (fun k hk => hf k (by omega)) h.2.2

theorem lastB_append (b : Nat) : ∀ rest prev, lastB prev (rest ++ [b]) = b
  | [], prev => rfl
  | c :: rest, prev => lastB_append b rest c

theorem runsOK_append {T : Type} [Inhabited T] {less : T → T → Bool} {d : List T} {n : Nat} :
    ∀ rest prev, RunsOK less d prev rest → lastB prev rest < n →
      SortedSeg less d (lastB prev rest) (n - 1) →
      RunsOK less d prev (rest ++ [n])
  | [], prev, h, hlt, hs => ⟨hlt, hs, trivial⟩
  | b :: rest, prev, h, hlt, hs =>
    ⟨h.1, h.2.1, runsOK_append rest b h.2.2 hlt hs⟩

theorem findRunsGo_spec {T : Type} [Inhabited T] {less : T → T → Bool} (hswo : SWO less)
    (size : Nat) :
    ∀ fuel (d : List T) i, size - 1 - i ≤ fuel → i ≤ size → size ≤ d.length →
      SegOp d (findRunsGo less fuel d size i).1 i (size - 1) ∧
      RunsOK less (findRunsGo less fuel d size i).1 i (findRunsGo less fuel d size i).2 ∧
      size - 1 ≤ lastB i (findRunsGo less fuel d size i).2 ∧
      lastB i (findRunsGo less fuel d size i).2 ≤ size := by
  intro fuel
  induction fuel with
  | zero =>
    intro d i hf hi hlen
    simp only [findRunsGo, lastB]
    exact ⟨SegOp.refl d i (size - 1), trivial, by omega, hi⟩
  | succ fuel ih =>
    intro d i hf hi hlen
    by_cases his : i < size - 1
    · simp only [findRunsGo]
      rw [if_pos his]
      by_cases hc : less (dget d i) (dget d (i + 1)) = true
      · rw [if_pos hc]
        dsimp only
        obtain ⟨ha1, ha2, ha3⟩ := ascEnd_spec less d size (size - 1 - i) i (Nat.le_refl _)
          (by omega)
        obtain ⟨rop, rok, rl1, rl2⟩ := ih d (ascEnd less d size (size - 1 - i) i + 1)
          (by omega) (by omega) hlen
        have hrun : SortedSeg less d i (ascEnd less d size (size - 1 - i) i) :=
          sortedSeg_of_adjacent hswo (fun k hk1 hk2 => hswo.asymm _ _ (ha3 k hk1 hk2))
        refine ⟨rop.mono (by omega) (Nat.le_refl _) (by omega), ?_, ?_, ?_⟩
        · refine ⟨by omega, ?_, rok⟩
          rw [show ascEnd less d size (size - 1 - i) i + 1 - 1
            = ascEnd less d size (size - 1 - i) i by omega]
          exact sortedSeg_congr (fun k hk1 hk2 => rop.frame k (Or.inl (by omega))) hrun
        · simp only [lastB]
          exact rl1
        · simp only [lastB]
          exact rl2
      · rw [if_neg hc]
        dsimp only
        obtain ⟨hd1, hd2, hd3⟩ := descEnd_spec hswo d size (size - 1 - i) i (Nat.le_refl _)
          (by omega)
        obtain ⟨vop, vval⟩ := revRange_spec (descEnd less d size (size - 1 - i) i - i) d i
          (descEnd less d size (size - 1 - i) i) (Nat.le_refl _) (by omega)
        obtain ⟨rop, rok, rl1, rl2⟩ := ih
          (revRange (descEnd less d size (size - 1 - i) i - i) d i
            (descEnd less d size (size - 1 - i) i))
          (descEnd less d size (size - 1 - i) i + 1) (by omega) (by omega)
          (by have := vop.len; omega)
        have hrun : SortedSeg less
            (revRange (descEnd less d size (size - 1 - i) i - i) d i
              (descEnd less d size (size - 1 - i) i))
            i (descEnd less d size (size - 1 - i) i) := by
          refine sortedSeg_of_adjacent hswo ?_
          intro k hk1 hk2
          rw [vval (k + 1) (by omega) (by omega), vval k (by omega) (by omega)]
          rw [show i + descEnd less d size (size - 1 - i) i - (k + 1)
            = i + descEnd less d size (size - 1 - i) i - k - 1 by omega]
          have := hd3 (i + descEnd less d size (size - 1 - i) i - k - 1) (by omega) (by omega)
          rw [show i + descEnd less d size (size - 1 - i) i - k - 1 + 1
            = i + descEnd less d size (size - 1 - i) i - k by omega] at this
          exact this
        refine ⟨(vop.mono (Nat.le_refl i) (by omega) (by omega)).trans
          (rop.mono (by omega) (Nat.le_refl _) (by omega)), ?_, ?_, ?_⟩
        · refine ⟨by omega, ?_, rok⟩
          rw [show descEnd less d size (size - 1 - i) i + 1 - 1
            = descEnd less d size (size - 1 - i) i by omega]
          exact sortedSeg_congr (fun k hk1 hk2 => rop.frame k (Or.inl (by omega))) hrun
        · simp only [lastB]
          exact rl1
        · simp only [lastB]
          exact rl2
    · simp only [findRunsGo]
      rw [if_neg his]
      simp only [lastB]
      exact ⟨SegOp.refl d i (size - 1), trivial, by omega, hi⟩

theorem getLastD_eq_lastB : ∀ (rest : List Nat) (prev x : Nat),
    List.getLastD (prev :: rest) x = lastB prev rest
  | [], _, _ => rfl
  | b :: rest, prev, x => by
    simp only [lastB]
    rw [List.getLastD_cons]
    exact getLastD_eq_lastB rest b prev

theorem findRuns_spec {T : Type} [Inhabited T] {less : T → T → Bool} (hswo : SWO less)
    (d : List T) (size : Nat) (h1 : 1 ≤ size) (hlen : size ≤ d.length) :
    SegOp d (findRuns less d size).1 0 (size - 1) ∧
    ∃ rest, (findRuns less d size).2 = 0 :: rest ∧
      RunsOK less (findRuns less d size).1 0 rest ∧
      lastB 0 rest = size ∧ rest ≠ [] := by
  obtain ⟨rop, rok, rl1, rl2⟩ := findRunsGo_spec hswo size (size - 1) d 0 (Nat.le_refl _)
    (by omega) hlen
  unfold findRuns
  dsimp only
  rw [getLastD_eq_lastB]
  refine ⟨rop, ?_⟩
  by_cases hls : lastB 0 (findRunsGo less (size - 1) d size 0).2 = size
  · rw [if_neg (by simp [hls])]
    refine ⟨(findRunsGo less (size - 1) d size 0).2, rfl, rok, hls, ?_⟩
    intro hnil
    rw [hnil] at hls
    simp only [lastB] at hls
    omega
  · rw [if_pos (by simp [hls]), List.cons_append]
    refine ⟨(findRunsGo less (size - 1) d size 0).2 ++ [size], rfl, ?_, lastB_append _ _ _,
      by simp⟩
    refine runsOK_append _ 0 rok (by omega) ?_
    have hlb : lastB 0 (findRunsGo less (size - 1) d size 0).2 = size - 1 := by omega
    rw [hlb]
    exact sortedSeg_trivial less _ (Nat.le_refl _)

theorem mergePassGo_spec {T : Type} [Inhabited T] {less : T → T → Bool} (hswo : SWO less)
    (n : Nat) :
    ∀ (d : List T) (prev : Nat) (runs : List Nat), n ≤ d.length →
      RunsOK less d prev runs → lastB prev runs = n →
      SegOp d (mergePassGo less d prev runs).1 prev (n - 1) ∧
      RunsOK less (mergePassGo less d prev runs).1 prev (mergePassGo less d prev runs).2 ∧
      lastB prev (mergePassGo less d prev runs).2 = n ∧
      2 * (mergePassGo less d prev runs).2.length ≤ runs.length + 1 ∧
      (runs ≠ [] → (mergePassGo less d prev runs).2 ≠ []) := by
  intro d prev runs
  induction d, prev, runs using mergePassGo.induct less with
  | case1 d prev b1 b2 rest d' ih =>
    have hd' : d' = mergeL less d prev (b1 - 1) (b2 - 1) := rfl
    rw [hd'] at ih
    intro hlen hok hlast
    simp only [lastB] at hlast
    have hpb1 : prev < b1 := hok.1
    have hs1 : SortedSeg less d prev (b1 - 1) := hok.2.1
    have hb12 : b1 < b2 := hok.2.2.1
    have hs2 : SortedSeg less d b1 (b2 - 1) := hok.2.2.2.1
    have hokt : RunsOK less d b2 rest := hok.2.2.2.2
    have hb2n : b2 ≤ n := by have := runsOK_le less d rest b2 hokt; omega
    obtain ⟨mop, msort, _⟩ := mergeL_ok hswo d prev (b1 - 1) (b2 - 1) (by omega) (by omega)
      (by omega) hs1 (by rw [show b1 - 1 + 1 = b1 by omega]; exact hs2)
    have hokt2 : RunsOK less (mergeL less d prev (b1 - 1) (b2 - 1)) b2 rest :=
      runsOK_congr rest b2 (fun k hk => mop.frame k (Or.inr (by omega))) hokt
    obtain ⟨rop, rok, rlast, rlen, rne⟩ := ih (by have := mop.len; omega) hokt2 hlast
    simp only [mergePassGo]
    refine ⟨(mop.mono (Nat.le_refl prev) (by omega) (by omega)).trans
      (rop.mono (by omega) (Nat.le_refl _) (by omega)), ?_, ?_, ?_, ?_⟩
    · refine ⟨by omega, ?_, rok⟩
      exact sortedSeg_congr (fun k hk1 hk2 => rop.frame k (Or.inl (by omega))) msort
    · simp only [lastB]
      exact rlast
    · simp only [List.length_cons]
      omega
    · intro _
      simp
  | case2 d prev b1 =>
    intro hlen hok hlast
    simp only [mergePassGo, lastB] at *
    exact ⟨SegOp.refl d prev (n - 1), hok, hlast,
      by simp only [List.length_cons, List.length_nil]; omega, fun _ => by simp⟩
  | case3 d prev =>
    intro hlen hok hlast
    simp only [mergePassGo, lastB] at *
    exact ⟨SegOp.refl d prev (n - 1), trivial, hlast,
      by simp only [List.length_nil]; omega, fun h => absurd rfl h⟩

theorem mergeRunsLoop_spec {T : Type} [Inhabited T] {less : T → T → Bool} (hswo : SWO less)
    (n : Nat) :
    ∀ fuel (d : List T) r0 rest, rest.length ≤ fuel → rest ≠ [] → n ≤ d.length →
      RunsOK less d r0 rest → lastB r0 rest = n →
      SegOp d (mergeRunsLoop less fuel d (r0 :: rest)) r0 (n - 1) ∧
      SortedSeg less (mergeRunsLoop less fuel d (r0 :: rest)) r0 (n - 1) := by
  intro fuel
  induction fuel with
  | zero =>
    intro d r0 rest hf hne hlen hok hlast
    exact absurd (List.length_eq_zero.mp (by omega)) hne
  | succ fuel ihn =>
    intro d r0 rest hf hne hlen hok hlast
    simp only [mergeRunsLoop]
    by_cases h2 : 2 < (r0 :: rest).length
    · rw [if_pos h2]
      simp only [List.length_cons] at h2
      obtain ⟨pop, pok, plast, plen, pne⟩ := mergePassGo_spec hswo n d r0 rest hlen hok hlast
      obtain ⟨lop, lsort⟩ := ihn (mergePassGo less d r0 rest).1 r0
        (mergePassGo less d r0 rest).2 (by omega) (pne hne) (by have := pop.len; omega)
        pok plast
      exact ⟨pop.trans lop, lsort⟩
    · rw [if_neg h2]
      simp only [List.length_cons] at h2
      match rest, hne with
      | [b], _ =>
        simp only [lastB] at hlast
        have hs : SortedSeg less d r0 (b - 1) := hok.2.1
        rw [hlast] at hs
        exact ⟨SegOp.refl d r0 (n - 1), hs⟩
      | b1 :: b2 :: tail, _ =>
        exact absurd h2 (by simp only [List.length_cons]; omega)

theorem timsort_ok {T : Type} [Inhabited T] (pq : PQueue T) (hswo : SWO pq.less)
    (hwf : pq.WF) (h0 : 0 < pq.size) :
    SegOp pq.data (pq.timsort).data 0 (pq.size - 1) ∧
    SortedSeg pq.less (pq.timsort).data 0 (pq.size - 1) := by
  unfold PQueue.timsort
  by_cases h32 : pq.size ≤ 32
  · rw [if_pos h32]
    exact insertionSort_ok pq hswo hwf h0
  · rw [if_neg h32]
    dsimp only
    obtain ⟨fop, rest, heq, hok, hlast, hne⟩ := findRuns_spec hswo pq.data pq.size (by omega)
      hwf
    rw [heq]
    obtain ⟨lop, lsort⟩ := mergeRunsLoop_spec hswo pq.size (0 :: rest).length
      (findRuns pq.less pq.data pq.size).1 0 rest (by simp) hne
      (by have := fop.len; have := hwf; unfold PQueue.WF at this; omega) hok hlast
    exact ⟨fop.trans lop, lsort⟩

/-! ## Dispatch-level characterizations and concrete inputs -/

/-- The reversed integer comparator (sorts descending). -/
def revLess (a b : Int) : Bool :=
  decide (b < a)

/-- A comparator with ties: compare the decimal tens key. -/
def keyLess (a b : Int) : Bool :=
  decide (a.tdiv 10 < b.tdiv 10)

/-- The tie class of key 3 under keyLess. -/
def keyIs3 (a : Int) : Bool :=
  decide (a.tdiv 10 = 3)

theorem revLess_SWO : SWO revLess := by
  constructor
  · intro a b h
    simp only [revLess, decide_eq_true_eq] at h
    simp only [revLess, decide_eq_false_iff_not]
    omega
  · intro a b c h1 h2
    simp only [revLess, decide_eq_false_iff_not] at h1 h2
    simp only [revLess, decide_eq_false_iff_not]
    omega

theorem keyLess_SWO : SWO keyLess := by
  constructor
  · intro a b h
    simp only [keyLess, decide_eq_true_eq] at h
    simp only [keyLess, decide_eq_false_iff_not]
    omega
  · intro a b c h1 h2
    simp only [keyLess, decide_eq_false_iff_not] at h1 h2
    simp only [keyLess, decide_eq_false_iff_not]
    omega

/-- Ascending integers 0..100 with the reversed comparator: Auto routes to
    counting sort, which ignores the comparator. -/
def pqRevAsc : PQueue Int :=
  { data := (List.range 101).map (fun n => (n : Int))
    less := revLess
    dataType := DataType.IntegerType
    size := 101 }

/-- 33 elements, sorted under keyLess with one tie pair [30, 31] in front:
    above the minMerge cutoff, timsort reverses the tie pair. -/
def pqTies : PQueue Int :=
  { data := [30, 31] ++ (List.range 31).map (fun i => (40 + 10 * i : Int))
    less := keyLess
    dataType := DataType.GenericType
    size := 33 }

/-- [3, 2, 1] sorted under the reversed comparator with an integer tag:
    counting sort rewrites it ascending. -/
def pqRevSmall : PQueue Int :=
  { data := [3, 2, 1]
    less := revLess
    dataType := DataType.IntegerType
    size := 3 }

theorem sws_insertion (pq : PQueue Int) :
    pq.SortWithStrategy SortStrategy.InsertionStrategy
      = if pq.size ≤ 1 then pq else pq.insertionSort := by
  unfold PQueue.SortWithStrategy
  by_cases h : pq.size ≤ 1
  · rw [if_pos h, if_pos h]
  · rw [if_neg h, if_neg h]
    rfl

theorem sws_merge (pq : PQueue Int) :
    pq.SortWithStrategy SortStrategy.MergeStrategy
      = if pq.size ≤ 1 then pq else pq.mergeSort := by
  unfold PQueue.SortWithStrategy
  by_cases h : pq.size ≤ 1
  · rw [if_pos h, if_pos h]
  · rw [if_neg h, if_neg h]
    rfl

theorem sws_quick (pq : PQueue Int) :
    pq.SortWithStrategy SortStrategy.QuickStrategy
      = if pq.size ≤ 1 then pq else pq.quickSort := by
  unfold PQueue.SortWithStrategy
  by_cases h : pq.size ≤ 1
  · rw [if_pos h, if_pos h]
  · rw [if_neg h, if_neg h]
    rfl

theorem sws_timsort (pq : PQueue Int) :
    pq.SortWithStrategy SortStrategy.TimsortStrategy
      = if pq.size ≤ 1 then pq else pq.timsort := by
  unfold PQueue.SortWithStrategy
  by_cases h : pq.size ≤ 1
  · rw [if_pos h, if_pos h]
  · rw [if_neg h, if_neg h]
    rfl

theorem sws_introsort (pq : PQueue Int) :
    pq.SortWithStrategy SortStrategy.IntrosortStrategy
      = if pq.size ≤ 1 then pq else pq.introsort := by
  unfold PQueue.SortWithStrategy
  by_cases h : pq.size ≤ 1
  · rw [if_pos h, if_pos h]
  · rw [if_neg h, if_neg h]
    rfl

theorem sws_counting (pq : PQueue Int) :
    pq.SortWithStrategy SortStrategy.CountingStrategy
      = if pq.size ≤ 1 then pq
        else if pq.dataType = DataType.IntegerType then pq.countingSort
        else pq.quickSort := by
  unfold PQueue.SortWithStrategy
  by_cases h : pq.size ≤ 1
  · rw [if_pos h, if_pos h]
  · rw [if_neg h, if_neg h]
    rfl

theorem sws_radix (pq : PQueue Int) :
    pq.SortWithStrategy SortStrategy.RadixStrategy
      = if pq.size ≤ 1 then pq
        else if pq.dataType = DataType.IntegerType then pq.radixSort
        else pq.quickSort := by
  unfold PQueue.SortWithStrategy
  by_cases h : pq.size ≤ 1
  · rw [if_pos h, if_pos h]
  · rw [if_neg h, if_neg h]
    rfl

theorem sortAuto_eq_choose (pq : PQueue Int) :
    pq.sortAuto = pq.SortWithStrategy pq.chooseOptimalStrategy := by
  unfold PQueue.sortAuto PQueue.SortWithStrategy
  by_cases h : pq.size ≤ 1
  · rw [if_pos h, if_pos h]
  · rw [if_neg h, if_neg h]
    dsimp only
    rw [if_pos rfl]
    by_cases hC : pq.chooseOptimalStrategy = SortStrategy.AutoStrategy
    · rw [if_pos hC]
    · rw [if_neg hC]

theorem chooseOptimal_comparison (pq : PQueue Int)
    (h : pq.dataType ≠ DataType.IntegerType ∨ pq.size ≤ 100) :
    pq.chooseOptimalStrategy = SortStrategy.InsertionStrategy ∨
    pq.chooseOptimalStrategy = SortStrategy.TimsortStrategy ∨
    pq.chooseOptimalStrategy = SortStrategy.IntrosortStrategy ∨
    pq.chooseOptimalStrategy = SortStrategy.MergeStrategy ∨
    pq.chooseOptimalStrategy = SortStrategy.QuickStrategy := by
  unfold PQueue.chooseOptimalStrategy
  dsimp only
  split
  · exact Or.inl rfl
  · split
    · exact Or.inl rfl
    · split
      · next hint =>
        rcases h with h | h
        · exact absurd hint.1 h
        · exact absurd hint.2 (by omega)
      · split
        · split
          · exact Or.inr (Or.inr (Or.inl rfl))
          · exact Or.inr (Or.inl rfl)
        · split
          · exact Or.inr (Or.inr (Or.inr (Or.inl rfl)))
          · split
            · split
              · exact Or.inr (Or.inr (Or.inl rfl))
              · exact Or.inr (Or.inl rfl)
            · split
              · exact Or.inr (Or.inr (Or.inr (Or.inr rfl)))
              · split
                · exact Or.inr (Or.inr (Or.inl rfl))
                · exact Or.inr (Or.inl rfl)

theorem sws_data_ok (pq : PQueue Int) (hswo : SWO pq.less) (hwf : pq.WF)
    (s : SortStrategy)
    (hs : s = SortStrategy.InsertionStrategy ∨ s = SortStrategy.TimsortStrategy ∨
      s = SortStrategy.IntrosortStrategy ∨ s = SortStrategy.MergeStrategy ∨
      s = SortStrategy.QuickStrategy)
    (h2 : 1 < pq.size) :
    SegOp pq.data (pq.SortWithStrategy s).data 0 (pq.size - 1) ∧
    SortedSeg pq.less (pq.SortWithStrategy s).data 0 (pq.size - 1) := by
  have hwf' : pq.size ≤ pq.data.length := hwf
  rcases hs with rfl | rfl | rfl | rfl | rfl
  · rw [sws_insertion, if_neg (by omega)]
    exact insertionSort_ok pq hswo hwf (by omega)
  · rw [sws_timsort, if_neg (by omega)]
    exact timsort_ok pq hswo hwf (by omega)
  · rw [sws_introsort, if_neg (by omega)]
    unfold PQueue.introsort
    dsimp only
    exact introsortRange_ok hswo pq.size pq.data 0 (pq.size - 1) (2 * log2floor pq.size)
      (by omega) (by omega)
  · rw [sws_merge, if_neg (by omega)]
    unfold PQueue.mergeSort
    rw [if_neg (by omega)]
    dsimp only
    obtain ⟨hop, hsort, _⟩ := mergeSortRange_ok hswo (pq.size - 1) pq.data 0 (pq.size - 1)
      (by omega) (by omega)
    exact ⟨hop, hsort⟩
  · rw [sws_quick, if_neg (by omega)]
    unfold PQueue.quickSort
    dsimp only
    exact quickSortRange_ok hswo pq.size pq.data 0 (pq.size - 1) (by omega) (by omega)

theorem sws_fields (pq : PQueue Int) (s : SortStrategy) :
    (pq.SortWithStrategy s).size = pq.size ∧ (pq.SortWithStrategy s).less = pq.less ∧
    (pq.SortWithStrategy s).dataType = pq.dataType := by
  unfold PQueue.SortWithStrategy
  split
  · exact ⟨rfl, rfl, rfl⟩
  · dsimp only
    generalize (if s = SortStrategy.AutoStrategy then pq.chooseOptimalStrategy else s) = a
    cases a <;>
      (unfold PQueue.insertionSort PQueue.timsort PQueue.introsort PQueue.mergeSort
        PQueue.quickSort PQueue.radixSort PQueue.countingSort <;>
       dsimp only <;>
       repeat' split) <;>
      exact ⟨rfl, rfl, rfl⟩

theorem isNearlySorted_of_sorted {T : Type} [Inhabited T] (pq : PQueue T)
    (hs : SortedLive pq.less pq.data pq.size) : pq.isNearlySorted = true := by
  unfold PQueue.isNearlySorted
  by_cases h1 : pq.size ≤ 1
  · rw [if_pos h1]
  · rw [if_neg h1]
    dsimp only
    rw [nearlyLoop_spec pq.less pq.data pq.size _ (pq.size - 1) 0 0 (by omega)
      (by split <;> omega)]
    have hz : countInv pq.less pq.data 0 (pq.size - 1) = 0 := by
      unfold countInv
      rw [List.countP_eq_zero]
      intro k hk
      rw [List.mem_range'] at hk
      obtain ⟨i, hlt, rfl⟩ := hk
      simp only [Bool.not_eq_true]
      exact hs (0 + 1 * i) (by omega)
    rw [hz]
    split <;> omega

theorem chooseOptimal_sorted (pq : PQueue Int) (hs : SortedLive pq.less pq.data pq.size) :
    pq.chooseOptimalStrategy = SortStrategy.InsertionStrategy := by
  unfold PQueue.chooseOptimalStrategy
  dsimp only
  split
  · rfl
  · split
    · rfl
    · next hns => exact absurd (isNearlySorted_of_sorted pq hs) hns

theorem quickSort_id (pq : PQueue Int) (hswo : SWO pq.less) (hwf : pq.WF)
    (h0 : 0 < pq.size) (hs : SortedLive pq.less pq.data pq.size) :
    pq.quickSort = pq := by
  have hwf' : pq.size ≤ pq.data.length := hwf
  have hd : quickSortRange pq.less pq.size pq.data 0 (pq.size - 1) = pq.data :=
    quickSortRange_id pq.less pq.size pq.data 0 (pq.size - 1) (by omega)
      ((sortedLive_iff_sortedSeg hswo h0).mp hs)
  unfold PQueue.quickSort
  rw [hd]

theorem mergeSort_id (pq : PQueue Int) (hswo : SWO pq.less) (hwf : pq.WF)
    (hs : SortedLive pq.less pq.data pq.size) :
    pq.mergeSort = pq := by
  have hwf' : pq.size ≤ pq.data.length := hwf
  unfold PQueue.mergeSort
  by_cases h1 : pq.size ≤ 1
  · rw [if_pos h1]
  · rw [if_neg h1]
    have hd : mergeSortRange pq.less (pq.size - 1) pq.data 0 (pq.size - 1) = pq.data :=
      mergeSortRange_id pq.less (pq.size - 1) pq.data 0 (pq.size - 1) (by omega)
        ((sortedLive_iff_sortedSeg hswo (by omega)).mp hs)
    rw [hd]

theorem mergeSort_filter (pq : PQueue Int) (hswo : SWO pq.less) (hwf : pq.WF)
    (P : Int → Bool) (hP : ∀ a b, P a = true → P b = true → pq.less a b = false) :
    ((pq.mergeSort).data.take pq.size).filter P = (pq.data.take pq.size).filter P := by
  unfold PQueue.mergeSort
  by_cases h1 : pq.size ≤ 1
  · rw [if_pos h1]
  · rw [if_neg h1]
    dsimp only
    have hwf' : pq.size ≤ pq.data.length := hwf
    obtain ⟨hop, _, hfil⟩ := mergeSortRange_ok hswo (pq.size - 1) pq.data 0 (pq.size - 1)
      (by omega) (by omega)
    rw [take_eq_seg _ pq.size (by omega) (by rw [hop.len]; exact hwf'),
      take_eq_seg _ pq.size (by omega) hwf', seg_eq_segN, seg_eq_segN,
      show pq.size - 1 + 1 - 0 = pq.size by omega]
    have := hfil P hP
    rw [show pq.size - 1 + 1 - 0 = pq.size by omega] at this
    exact this

/-- C1: the spec claims that for every strict-weak-order comparator and
    every input, Sort() (Auto) leaves the live prefix non-decreasing under
    the comparator.  This fails when the integer-tagged path routes to
    counting/radix sort, which ignore the comparator; the amended claim
    restricts to inputs that do not take that path: non-integer tag, or
    size at most 100 (the selector only considers counting/radix beyond
    100).  Under that restriction Auto always dispatches to a
    comparison-based algorithm, and the live prefix is sorted. -/
theorem spec_auto_sort_sorted (pq : PQueue Int) (hswo : SWO pq.less) (hwf : pq.WF)
    (hdt : pq.dataType ≠ DataType.IntegerType ∨ pq.size ≤ 100) :
    SortedLive pq.less (pq.sortAuto).data pq.size := by
  by_cases h2 : pq.size ≤ 1
  · have heq : pq.sortAuto = pq := by
      unfold PQueue.sortAuto PQueue.SortWithStrategy
      rw [if_pos h2]
    rw [heq]
    intro i hi
    exact absurd hi (by omega)
  · rw [sortAuto_eq_choose]
    obtain ⟨_, hsort⟩ := sws_data_ok pq hswo hwf pq.chooseOptimalStrategy
      (chooseOptimal_comparison pq hdt) (by omega)
    exact (sortedLive_iff_sortedSeg hswo (by omega)).mpr hsort

theorem spec_auto_sort_sorted_witness :
    SortedLive (NewInts [5, 3]).less ((NewInts [5, 3]).sortAuto).data (NewInts [5, 3]).size :=
  spec_auto_sort_sorted (NewInts [5, 3]) intLess_SWO (by decide) (Or.inr (by decide))

set_option maxRecDepth 40000 in
/-- C1 counterexample: ascending integers 0..100 with the reversed
    comparator and the integer tag.  Auto selects counting sort (not
    nearly sorted under revLess; integer tag; size 101 > 100; range
    100 <= 1000), which ignores the comparator and leaves the data
    ascending, hence not sorted under revLess. -/
theorem spec_auto_sort_sorted_counterexample :
    SWO pqRevAsc.less ∧ pqRevAsc.WF ∧
    ¬ SortedLive pqRevAsc.less (pqRevAsc.sortAuto).data pqRevAsc.size :=
  ⟨revLess_SWO, by decide, by decide⟩

theorem keyIs3_compat : ∀ a b, keyIs3 a = true → keyIs3 b = true → keyLess a b = false := by
  intro a b ha hb
  simp only [keyIs3, decide_eq_true_eq] at ha hb
  simp only [keyLess, decide_eq_false_iff_not]
  omega

/-- C4: the spec claims Merge, Timsort-lite and Insertion are stable.
    Merge and Insertion are (stated as: the live prefix filtered by any
    tie-class predicate is unchanged), but Timsort-lite is not: findRuns
    treats an incomparable adjacent pair as part of a descending run and
    reverses it (see the counterexample), so the amended claim drops
    Timsort-lite. -/
theorem spec_stable_strategies (pq : PQueue Int) (hswo : SWO pq.less) (hwf : pq.WF)
    (P : Int → Bool) (hP : ∀ a b, P a = true → P b = true → pq.less a b = false) :
    ((pq.SortWithStrategy SortStrategy.MergeStrategy).data.take pq.size).filter P =
      (pq.data.take pq.size).filter P ∧
    ((pq.SortWithStrategy SortStrategy.InsertionStrategy).data.take pq.size).filter P =
      (pq.data.take pq.size).filter P := by
  constructor
  · rw [sws_merge]
    by_cases h1 : pq.size ≤ 1
    · rw [if_pos h1]
    · rw [if_neg h1]
      exact mergeSort_filter pq hswo hwf P hP
  · rw [sws_insertion]
    by_cases h1 : pq.size ≤ 1
    · rw [if_pos h1]
    · rw [if_neg h1]
      exact insertionSort_filter pq P hP hwf

theorem spec_stable_strategies_witness :
    ((pqTies.SortWithStrategy SortStrategy.MergeStrategy).data.take pqTies.size).filter keyIs3 =
      (pqTies.data.take pqTies.size).filter keyIs3 ∧
    ((pqTies.SortWithStrategy SortStrategy.InsertionStrategy).data.take
        pqTies.size).filter keyIs3 =
      (pqTies.data.take pqTies.size).filter keyIs3 :=
  spec_stable_strategies pqTies keyLess_SWO (by decide) keyIs3 keyIs3_compat

set_option maxRecDepth 40000 in
/-- C4 counterexample: 33 elements sorted under the tens-digit comparator
    with the tie pair [30, 31] in front.  Size 33 exceeds minMerge, so
    timsort runs findRuns, which classifies the incomparable pair as a
    descending run and reverses it to [31, 30]: the tie class {30, 31} is
    emitted in reversed input order, violating stability. -/
theorem spec_stable_strategies_counterexample :
    SWO pqTies.less ∧ pqTies.WF ∧
    (∀ a b, keyIs3 a = true → keyIs3 b = true → pqTies.less a b = false) ∧
    ((pqTies.SortWithStrategy SortStrategy.TimsortStrategy).data.take
        pqTies.size).filter keyIs3 ≠
      (pqTies.data.take pqTies.size).filter keyIs3 :=
  ⟨keyLess_SWO, by decide, keyIs3_compat, by decide⟩

/-- C6: the spec claims sorting an already-sorted sequence (non-decreasing
    under the queue's comparator) leaves the element order unchanged under
    every strategy.  That holds for Auto (a sorted input is nearly sorted,
    so Auto always picks insertion sort), Insertion, Merge and Quick, but
    fails for Counting and Radix (they sort by integer value, ignoring the
    comparator; see the counterexample) and for Timsort-lite (it reverses
    runs of comparator-equal elements).  The amended claim keeps the four
    strategies for which it holds. -/
theorem spec_sorted_idempotent (pq : PQueue Int) (hswo : SWO pq.less) (hwf : pq.WF)
    (hs : SortedLive pq.less pq.data pq.size) :
    pq.sortAuto = pq ∧
    pq.SortWithStrategy SortStrategy.InsertionStrategy = pq ∧
    pq.SortWithStrategy SortStrategy.MergeStrategy = pq ∧
    pq.SortWithStrategy SortStrategy.QuickStrategy = pq := by
  have hins : pq.SortWithStrategy SortStrategy.InsertionStrategy = pq := by
    rw [sws_insertion]
    by_cases h1 : pq.size ≤ 1
    · rw [if_pos h1]
    · rw [if_neg h1]
      exact insertionSort_id pq hwf (by omega) hs
  refine ⟨?_, hins, ?_, ?_⟩
  · rw [sortAuto_eq_choose, chooseOptimal_sorted pq hs]
    exact hins
  · rw [sws_merge]
    by_cases h1 : pq.size ≤ 1
    · rw [if_pos h1]
    · rw [if_neg h1]
      exact mergeSort_id pq hswo hwf hs
  · rw [sws_quick]
    by_cases h1 : pq.size ≤ 1
    · rw [if_pos h1]
    · rw [if_neg h1]
      exact quickSort_id pq hswo hwf (by omega) hs

theorem spec_sorted_idempotent_witness :
    (NewInts [1, 2]).sortAuto = NewInts [1, 2] ∧
    (NewInts [1, 2]).SortWithStrategy SortStrategy.InsertionStrategy = NewInts [1, 2] ∧
    (NewInts [1, 2]).SortWithStrategy SortStrategy.MergeStrategy = NewInts [1, 2] ∧
    (NewInts [1, 2]).SortWithStrategy SortStrategy.QuickStrategy = NewInts [1, 2] :=
  spec_sorted_idempotent (NewInts [1, 2]) intLess_SWO (by decide) (by decide)

/-- C6 counterexample: [3, 2, 1] is sorted under the reversed comparator,
    but the explicitly selected Counting strategy on the integer tag
    rewrites the live prefix in ascending value order [1, 2, 3]. -/
theorem spec_sorted_idempotent_counterexample :
    SWO pqRevSmall.less ∧ pqRevSmall.WF ∧
    SortedLive pqRevSmall.less pqRevSmall.data pqRevSmall.size ∧
    (pqRevSmall.SortWithStrategy SortStrategy.CountingStrategy).data ≠ pqRevSmall.data :=
  ⟨revLess_SWO, by decide, by decide, by decide⟩

/-! ## Counting sort: multiset preservation -/

theorem dget_replicate_nat (n k : Nat) : dget (List.replicate n (0 : Nat)) k = 0 := by
  unfold dget
  by_cases hk : k < n
  · rw [List.getD_eq_getElem _ _ (by simpa using hk)]
    simp
  · rw [List.getD_eq_default _ _ (by simpa using hk)]
    rfl

theorem cntLoopVal_spec (d : List Int) (size : Nat) (minVal : Int) :
    ∀ fuel i count, size - i ≤ fuel →
      (∀ j, i ≤ j → j < size → (dget d j - minVal).toNat < count.length) →
      (cntLoopVal d size minVal fuel count i).length = count.length ∧
      ∀ k, dget (cntLoopVal d size minVal fuel count i) k
        = dget count k +
          (segN d i (size - i)).countP (fun v => decide ((v - minVal).toNat = k)) := by
  intro fuel
  induction fuel with
  | zero =>
    intro i count hf hb
    simp only [cntLoopVal]
    refine ⟨trivial, fun k => ?_⟩
    rw [show size - i = 0 by omega]
    simp
  | succ fuel ih =>
    intro i count hf hb
    simp only [cntLoopVal]
    by_cases hi : i < size
    · rw [if_pos hi]
      obtain ⟨ihl, ihv⟩ := ih (i + 1)
        (count.set (dget d i - minVal).toNat (count.getD (dget d i - minVal).toNat 0 + 1))
        (by omega)
        (fun j hj1 hj2 => by rw [List.length_set]; exact hb j (by omega) hj2)
      refine ⟨by rw [ihl, List.length_set], ?_⟩
      intro k
      rw [ihv k]
      have hset : dget (count.set (dget d i - minVal).toNat
          (count.getD (dget d i - minVal).toNat 0 + 1)) k
          = dget count k + (if (dget d i - minVal).toNat = k then 1 else 0) := by
        by_cases hk : (dget d i - minVal).toNat = k
        · rw [← hk, dget_set_self _ (hb i (Nat.le_refl i) hi), if_pos rfl]
          rfl
        · rw [dget_set_ne _ hk, if_neg hk]
          omega
      rw [hset, show size - i = (size - (i + 1)) + 1 by omega, segN_cons, List.countP_cons]
      by_cases hk2 : (dget d i - minVal).toNat = k
      · rw [if_pos hk2, if_pos (by simp [hk2])]
        omega
      · rw [if_neg hk2, if_neg (by simp [hk2])]
        omega
    · rw [if_neg hi]
      refine ⟨rfl, fun k => ?_⟩
      rw [show size - i = 0 by omega]
      simp

theorem writeList_append {T : Type} [Inhabited T] :
    ∀ (a b : List T) (d : List T) (k : Nat),
      writeList d k (a ++ b) = writeList (writeList d k a) (k + a.length) b
  | [], b, d, k => by simp [writeList]
  | x :: a, b, d, k => by
    show writeList (d.set k x) (k + 1) (a ++ b) = _
    rw [writeList_append a b (d.set k x) (k + 1)]
    simp only [writeList, List.length_cons]
    rw [show k + 1 + a.length = k + (a.length + 1) by omega]

theorem fillRun_spec (v : Int) :
    ∀ (c : Nat) (d : List Int) (pos : Nat),
      fillRun v d pos c = (writeList d pos (List.replicate c v), pos + c)
  | 0, d, pos => rfl
  | c + 1, d, pos => by
    show fillRun v (d.set pos v) (pos + 1) c = _
    rw [fillRun_spec v c (d.set pos v) (pos + 1), List.replicate_succ]
    simp only [writeList]
    rw [show pos + 1 + c = pos + (c + 1) by omega]

/-- The list countingSort reconstructs: for each value slot i in
    [i0, i0+fuel), the value minVal+i repeated count[i] times. -/
def reconList (minVal : Int) (count : List Nat) : Nat → Nat → List Int
  | _, 0 => []
  | i, fuel + 1 =>
    List.replicate (dget count i) (minVal + i) ++ reconList minVal count (i + 1) fuel

theorem reconLoop_spec (minVal : Int) (count : List Nat) :
    ∀ fuel (d : List Int) pos i, count.length - i ≤ fuel →
      reconLoop minVal count fuel d pos i
        = writeList d pos (reconList minVal count i (count.length - i)) := by
  intro fuel
  induction fuel with
  | zero =>
    intro d pos i hf
    simp only [reconLoop]
    rw [show count.length - i = 0 by omega]
    rfl
  | succ fuel ih =>
    intro d pos i hf
    simp only [reconLoop]
    by_cases hi : i < count.length
    · rw [if_pos hi]
      rw [fillRun_spec]
      dsimp only
      rw [ih _ _ (i + 1) (by omega)]
      rw [show count.length - i = (count.length - (i + 1)) + 1 by omega]
      show _ = writeList d pos (List.replicate (dget count i) (minVal + i) ++
        reconList minVal count (i + 1) (count.length - (i + 1)))
      rw [writeList_append]
      rw [List.length_replicate]
      rfl
    · rw [if_neg hi]
      rw [show count.length - i = 0 by omega]
      rfl

theorem reconList_count (minVal : Int) (count : List Nat) (v : Int) :
    ∀ fuel i, (reconList minVal count i fuel).count v
      = if minVal ≤ v ∧ i ≤ (v - minVal).toNat ∧ (v - minVal).toNat < i + fuel
        then dget count (v - minVal).toNat else 0 := by
  intro fuel
  induction fuel with
  | zero =>
    intro i
    rw [if_neg (by omega)]
    rfl
  | succ fuel ih =>
    intro i
    simp only [reconList]
    rw [List.count_append, List.count_replicate, ih (i + 1)]
    by_cases hv : v = minVal + i
    · have ht : (v - minVal).toNat = i := by omega
      rw [if_pos (show (minVal + (i : Int) == v) = true by simp [hv]),
        if_neg (show ¬ (minVal ≤ v ∧ i + 1 ≤ (v - minVal).toNat ∧
          (v - minVal).toNat < i + 1 + fuel) by omega),
        if_pos (show minVal ≤ v ∧ i ≤ (v - minVal).toNat ∧
          (v - minVal).toNat < i + (fuel + 1) by omega), ht]
      omega
    · rw [if_neg (show ¬ (minVal + (i : Int) == v) = true by simp; omega)]
      by_cases hc : minVal ≤ v ∧ i + 1 ≤ (v - minVal).toNat ∧ (v - minVal).toNat < i + 1 + fuel
      · rw [if_pos hc, if_pos (by omega)]
        omega
      · rw [if_neg hc, if_neg (by omega)]

theorem countP_key_eq_count (minVal v : Int) (hv : minVal ≤ v) :
    ∀ l : List Int, (∀ x ∈ l, minVal ≤ x) →
      l.countP (fun x => decide ((x - minVal).toNat = (v - minVal).toNat)) = l.count v
  | [], _ => rfl
  | x :: l, h => by
    rw [List.countP_cons, List.count_cons,
      countP_key_eq_count minVal v hv l (fun y hy => h y (by simp [hy]))]
    have hx : minVal ≤ x := h x (by simp)
    by_cases hxv : x = v
    · rw [if_pos (by simp [hxv]), if_pos (by simp [hxv])]
    · rw [if_neg (by simp; omega), if_neg (by simpa using hxv)]

theorem SegOp.take_perm {T : Type} [Inhabited T] {d d' : List T} {n : Nat}
    (h : SegOp d d' 0 (n - 1)) (h0 : 0 < n) (hn : n ≤ d.length) :
    (d'.take n).Perm (d.take n) := by
  rw [take_eq_seg d' n h0 (by rw [h.len]; exact hn), take_eq_seg d n h0 hn]
  exact h.perm

theorem quickSort_perm (pq : PQueue Int) (hswo : SWO pq.less) (hwf : pq.WF)
    (h0 : 0 < pq.size) :
    (pq.quickSort).data.length = pq.data.length ∧
    ((pq.quickSort).data.take pq.size).Perm (pq.data.take pq.size) := by
  have hwf' : pq.size ≤ pq.data.length := hwf
  unfold PQueue.quickSort
  dsimp only
  have hop := (quickSortRange_ok hswo pq.size pq.data 0 (pq.size - 1) (by omega)
    (by omega)).1
  exact ⟨hop.len, hop.take_perm h0 hwf'⟩

theorem countingSort_perm (pq : PQueue Int) (hswo : SWO pq.less) (hwf : pq.WF)
    (h0 : 0 < pq.size) :
    (pq.countingSort).data.length = pq.data.length ∧
    ((pq.countingSort).data.take pq.size).Perm (pq.data.take pq.size) := by
  have hwf' : pq.size ≤ pq.data.length := hwf
  have hq := quickSort_perm pq hswo hwf h0
  unfold PQueue.countingSort
  by_cases hdt : pq.dataType ≠ DataType.IntegerType
  · rw [if_pos hdt]
    exact hq
  · rw [if_neg hdt]
    dsimp only
    by_cases hrange : 10000 < (pq.getMinMaxInt).2 - (pq.getMinMaxInt).1
    · rw [if_pos hrange]
      exact hq
    · rw [if_neg hrange]
      dsimp only
      have hbnd := (getMinMaxInt_bounds pq h0).1
      obtain ⟨hclen, hcval⟩ := cntLoopVal_spec pq.data pq.size pq.getMinMaxInt.1 pq.size 0
        (List.replicate (pq.getMinMaxInt.2 - pq.getMinMaxInt.1 + 1).toNat 0)
        (by omega)
        (fun j hj1 hj2 => by
          rw [List.length_replicate]
          have := hbnd j hj2
          omega)
      set mm := pq.getMinMaxInt with hmm
      set count := cntLoopVal pq.data pq.size mm.1 pq.size
        (List.replicate (mm.2 - mm.1 + 1).toNat 0) 0 with hcount
      rw [List.length_replicate] at hclen
      have hcval2 : ∀ k, dget count k
          = (segN pq.data 0 pq.size).countP (fun v => decide ((v - mm.1).toNat = k)) := by
        intro k
        have := hcval k
        rw [dget_replicate_nat] at this
        rw [show pq.size - 0 = pq.size from rfl] at this
        omega
      have htake : pq.data.take pq.size = segN pq.data 0 pq.size := by
        rw [take_eq_seg _ _ h0 hwf', seg_eq_segN, show pq.size - 1 + 1 - 0 = pq.size by omega]
      have hmemge : ∀ x ∈ segN pq.data 0 pq.size, mm.1 ≤ x := by
        intro x hx
        obtain ⟨k, hk1, hk2, hk3⟩ := mem_segN.mp hx
        rw [← hk3]
        exact (hbnd k (by omega)).1
      have hperm : (reconList mm.1 count 0 count.length).Perm (pq.data.take pq.size) := by
        rw [List.perm_iff_count]
        intro v
        rw [reconList_count, htake]
        by_cases hc : mm.1 ≤ v ∧ (v - mm.1).toNat < count.length
        · rw [if_pos (by omega)]
          rw [hcval2]
          exact countP_key_eq_count mm.1 v hc.1 (segN pq.data 0 pq.size) hmemge
        · rw [if_neg (by omega)]
          symm
          rw [List.count_eq_zero]
          intro hmem
          obtain ⟨k, hk1, hk2, hk3⟩ := mem_segN.mp hmem
          have := hbnd k (by omega)
          rw [hk3] at this
          rw [hclen] at hc
          omega
      have hRlen : (reconList mm.1 count 0 count.length).length = pq.size := by
        rw [hperm.length_eq, List.length_take]
        omega
      have hrl := reconLoop_spec mm.1 count count.length pq.data 0 0 (by omega)
      rw [show count.length - 0 = count.length from rfl] at hrl
      rw [hrl]
      refine ⟨by rw [writeList_length], ?_⟩
      have htk : (writeList pq.data 0 (reconList mm.1 count 0 count.length)).take pq.size
          = reconList mm.1 count 0 count.length := by
        rw [take_eq_seg _ _ h0 (by rw [writeList_length]; exact hwf'), seg_eq_segN,
          show pq.size - 1 + 1 - 0 = pq.size by omega, ← hRlen]
        exact writeList_segN _ _ _ (by rw [hRlen]; omega)
      rw [htk]
      exact hperm

/-! ## Radix sort: multiset preservation -/

theorem goDigit_lt10 (v exp : Int) (hv : 0 ≤ v) (he : 0 < exp) :
    (goDigit v exp).toNat < 10 := by
  unfold goDigit
  have h1 : 0 ≤ v.tdiv exp := Int.tdiv_nonneg hv (by omega)
  have h2 := Int.tmod_nonneg 10 h1
  have h3 := Int.tmod_lt_of_pos (v.tdiv exp) (show (0 : Int) < 10 by omega)
  omega

/-- The number of indices before ip whose digit at exp is v. -/
def cntA (d : List Int) (exp : Int) (ip v : Nat) : Nat :=
  (List.range ip).countP (fun j => decide ((goDigit (dget d j) exp).toNat = v))

theorem cntA_succ (d : List Int) (exp : Int) (ip v : Nat) :
    cntA d exp (ip + 1) v
      = cntA d exp ip v + (if (goDigit (dget d ip) exp).toNat = v then 1 else 0) := by
  unfold cntA
  rw [List.range_succ, List.countP_append]
  congr 1
  rw [List.countP_cons]
  simp only [List.countP_nil, Nat.zero_add]
  by_cases h : (goDigit (dget d ip) exp).toNat = v
  · rw [if_pos (by simp [h]), if_pos h]
  · rw [if_neg (by simp [h]), if_neg h]

theorem cntA_mono (d : List Int) (exp : Int) {j ip : Nat} (h : j ≤ ip) (v : Nat) :
    cntA d exp j v ≤ cntA d exp ip v :=
  List.Sublist.countP_le _ (List.range_sublist.mpr h)

theorem cntA_strict (d : List Int) (exp : Int) {j ip v : Nat} (h : j < ip)
    (hd : (goDigit (dget d j) exp).toNat = v) :
    cntA d exp j v < cntA d exp ip v := by
  have h1 := cntA_mono d exp (show j + 1 ≤ ip by omega) v
  rw [cntA_succ, if_pos hd] at h1
  omega

/-- Sum of f over [0, n). -/
def sumF (f : Nat → Nat) : Nat → Nat
  | 0 => 0
  | v + 1 => sumF f v + f v

theorem sumF_congr {f g : Nat → Nat} : ∀ n, (∀ w, w < n → f w = g w) → sumF f n = sumF g n
  | 0, _ => rfl
  | n + 1, h => by
    simp only [sumF]
    rw [sumF_congr n (fun w hw => h w (by omega)), h n (by omega)]

theorem sumF_le_succ (f : Nat → Nat) (v : Nat) : sumF f v ≤ sumF f (v + 1) := by
  simp only [sumF]
  omega

theorem sumF_mono (f : Nat → Nat) {v w : Nat} (h : v ≤ w) : sumF f v ≤ sumF f w := by
  induction w with
  | zero =>
    rw [show v = 0 by omega]
  | succ w ih =>
    by_cases hv : v = w + 1
    · rw [hv]
    · exact (ih (by omega)).trans (sumF_le_succ f w)

theorem sumF_add_ite (g : Nat → Nat) (t : Nat) :
    ∀ n, sumF (fun w => g w + if w = t then 1 else 0) n
      = sumF g n + (if t < n then 1 else 0)
  | 0 => by
    rw [if_neg (by omega)]
    rfl
  | n + 1 => by
    simp only [sumF]
    rw [sumF_add_ite g t n]
    split_ifs <;> omega

theorem sumF_cntA (d : List Int) (exp : Int) :
    ∀ ip, (∀ j, j < ip → (goDigit (dget d j) exp).toNat < 10) →
      sumF (cntA d exp ip) 10 = ip
  | 0, _ => rfl
  | ip + 1, h => by
    rw [sumF_congr 10 (fun w hw => by
      rw [cntA_succ, show (if (goDigit (dget d ip) exp).toNat = w then 1 else 0)
        = (if w = (goDigit (dget d ip) exp).toNat then 1 else 0) from
          if_congr eq_comm rfl rfl])]
    rw [sumF_add_ite (cntA d exp ip) _ 10, sumF_cntA d exp ip (fun j hj => h j (by omega)),
      if_pos (h ip (by omega))]

/-- The output slot that the placement loop writes element j into. -/
def posOf (d : List Int) (exp : Int) (S : Nat → Nat) (j : Nat) : Nat :=
  S ((goDigit (dget d j) exp).toNat) + cntA d exp j ((goDigit (dget d j) exp).toNat)

theorem posOf_inj (d : List Int) (exp : Int) (S : Nat → Nat) (N : Nat)
    (hC : ∀ v w, v < w → w < 10 → S v + cntA d exp N v ≤ S w)
    (hD : ∀ j, j < N → (goDigit (dget d j) exp).toNat < 10) :
    ∀ j1 j2, j1 < j2 → j2 < N → posOf d exp S j1 ≠ posOf d exp S j2 := by
  intro j1 j2 h12 h2N
  unfold posOf
  rcases Nat.lt_trichotomy ((goDigit (dget d j1) exp).toNat)
    ((goDigit (dget d j2) exp).toNat) with hv | hv | hv
  · have hs := cntA_strict d exp (show j1 < N by omega)
      (rfl : (goDigit (dget d j1) exp).toNat = (goDigit (dget d j1) exp).toNat)
    have hc := hC _ _ hv (hD j2 h2N)
    omega
  · rw [hv]
    have hs := cntA_strict d exp h12 hv
    omega
  · have hs := cntA_strict d exp (show j2 < N by omega)
      (rfl : (goDigit (dget d j2) exp).toNat = (goDigit (dget d j2) exp).toNat)
    have hc := hC _ _ hv (hD j1 (by omega))
    omega

theorem placeLoop_spec (d : List Int) (exp : Int) (S : Nat → Nat) :
    ∀ ip (out : List Int) (cnt : List Nat),
      cnt.length = 10 →
      (∀ j, j < ip → (goDigit (dget d j) exp).toNat < 10) →
      (∀ v, v < 10 → dget cnt v = S v + cntA d exp ip v) →
      (∀ v w, v < w → w < 10 → S v + cntA d exp ip v ≤ S w) →
      (∀ j, j < ip → posOf d exp S j < out.length) →
      (placeLoop d exp out cnt ip).1.length = out.length ∧
      (∀ p, (∀ j, j < ip → p ≠ posOf d exp S j) →
        dget (placeLoop d exp out cnt ip).1 p = dget out p) ∧
      (∀ j, j < ip → dget (placeLoop d exp out cnt ip).1 (posOf d exp S j) = dget d j) := by
  intro ip
  induction ip with
  | zero =>
    intro out cnt hcl hD hA hC hE
    exact ⟨rfl, fun p _ => rfl, fun j hj => absurd hj (by omega)⟩
  | succ ip ih =>
    intro out cnt hcl hD hA hC hE
    simp only [placeLoop]
    have hdg10 : (goDigit (dget d ip) exp).toNat < 10 := hD ip (by omega)
    have hc : cnt.getD ((goDigit (dget d ip) exp).toNat) 0
        = S ((goDigit (dget d ip) exp).toNat)
          + cntA d exp ip ((goDigit (dget d ip) exp).toNat) + 1 := by
      have h1 := hA _ hdg10
      rw [cntA_succ, if_pos rfl] at h1
      have h2 : dget cnt ((goDigit (dget d ip) exp).toNat)
          = cnt.getD ((goDigit (dget d ip) exp).toNat) 0 := rfl
      omega
    have hposip : posOf d exp S ip
        = S ((goDigit (dget d ip) exp).toNat)
          + cntA d exp ip ((goDigit (dget d ip) exp).toNat) := rfl
    obtain ⟨il, ifr, iw⟩ := ih
      (out.set (cnt.getD ((goDigit (dget d ip) exp).toNat) 0 - 1) (dget d ip))
      (cnt.set ((goDigit (dget d ip) exp).toNat)
        (cnt.getD ((goDigit (dget d ip) exp).toNat) 0 - 1))
      (by rw [List.length_set, hcl])
      (fun j hj => hD j (by omega))
      (fun v hv => by
        by_cases hveq : v = (goDigit (dget d ip) exp).toNat
        · rw [hveq, dget_set_self _ (by omega), hc]
          omega
        · rw [dget_set_ne _ (fun h => hveq h.symm)]
          have h1 := hA v hv
          rw [cntA_succ, if_neg (fun h => hveq h.symm)] at h1
          omega)
      (fun v w hv hw => le_trans (by have := cntA_mono d exp (show ip ≤ ip + 1 by omega) v; omega)
        (hC v w hv hw))
      (fun j hj => by rw [List.length_set]; exact hE j (by omega))
    refine ⟨by rw [il, List.length_set], ?_, ?_⟩
    · intro p hp
      rw [ifr p (fun j hj => hp j (by omega)),
        dget_set_ne _ (show cnt.getD ((goDigit (dget d ip) exp).toNat) 0 - 1 ≠ p by
          have := hp ip (by omega)
          rw [hposip] at this
          omega)]
    · intro j hj
      by_cases hjip : j = ip
      · rw [hjip]
        have hfresh : ∀ j', j' < ip → posOf d exp S ip ≠ posOf d exp S j' :=
          fun j' hj' => (posOf_inj d exp S (ip + 1) hC hD j' ip hj' (by omega)).symm
        rw [ifr (posOf d exp S ip) (fun j' hj' => hfresh j' hj')]
        rw [hposip, show S ((goDigit (dget d ip) exp).toNat)
            + cntA d exp ip ((goDigit (dget d ip) exp).toNat)
          = cnt.getD ((goDigit (dget d ip) exp).toNat) 0 - 1 by omega]
        refine dget_set_self _ ?_
        have := hE ip (by omega)
        rw [hposip] at this
        omega
      · exact iw j (by omega)

theorem cntLoopDigit_spec (d : List Int) (size : Nat) (exp : Int) :
    ∀ fuel i count, size - i ≤ fuel →
      (∀ j, i ≤ j → j < size → (goDigit (dget d j) exp).toNat < count.length) →
      (cntLoopDigit d size exp fuel count i).length = count.length ∧
      ∀ k, dget (cntLoopDigit d size exp fuel count i) k
        = dget count k + (List.range' i (size - i)).countP
            (fun j => decide ((goDigit (dget d j) exp).toNat = k)) := by
  intro fuel
  induction fuel with
  | zero =>
    intro i count hf hb
    simp only [cntLoopDigit]
    refine ⟨trivial, fun k => ?_⟩
    rw [show size - i = 0 by omega]
    simp
  | succ fuel ih =>
    intro i count hf hb
    simp only [cntLoopDigit]
    by_cases hi : i < size
    · rw [if_pos hi]
      obtain ⟨ihl, ihv⟩ := ih (i + 1)
        (count.set ((goDigit (dget d i) exp).toNat)
          (count.getD ((goDigit (dget d i) exp).toNat) 0 + 1))
        (by omega)
        (fun j hj1 hj2 => by rw [List.length_set]; exact hb j (by omega) hj2)
      refine ⟨by rw [ihl, List.length_set], ?_⟩
      intro k
      rw [ihv k]
      have hset : dget (count.set ((goDigit (dget d i) exp).toNat)
          (count.getD ((goDigit (dget d i) exp).toNat) 0 + 1)) k
          = dget count k + (if (goDigit (dget d i) exp).toNat = k then 1 else 0) := by
        by_cases hk : (goDigit (dget d i) exp).toNat = k
        · rw [← hk, dget_set_self _ (hb i (Nat.le_refl i) hi), if_pos rfl]
          rfl
        · rw [dget_set_ne _ hk, if_neg hk]
          omega
      rw [hset, show size - i = (size - (i + 1)) + 1 by omega, List.range'_succ,
        List.countP_cons]
      by_cases hk2 : (goDigit (dget d i) exp).toNat = k
      · rw [if_pos hk2, if_pos (by simp [hk2])]
        omega
      · rw [if_neg hk2, if_neg (by simp [hk2])]
        omega
    · rw [if_neg hi]
      refine ⟨rfl, fun k => ?_⟩
      rw [show size - i = 0 by omega]
      simp

theorem prefixSumLoop_spec (c0 : List Nat) :
    ∀ fuel i cnt, 10 - i ≤ fuel → 1 ≤ i → cnt.length = 10 →
      (∀ v, v < i → dget cnt v = sumF (dget c0) (v + 1)) →
      (∀ v, i ≤ v → dget cnt v = dget c0 v) →
      (prefixSumLoop fuel cnt i).length = 10 ∧
      ∀ v, v < 10 → dget (prefixSumLoop fuel cnt i) v = sumF (dget c0) (v + 1) := by
  intro fuel
  induction fuel with
  | zero =>
    intro i cnt hf hi hl hlow hhigh
    simp only [prefixSumLoop]
    exact ⟨hl, fun v hv => hlow v (by omega)⟩
  | succ fuel ih =>
    intro i cnt hf hi hl hlow hhigh
    simp only [prefixSumLoop]
    by_cases h10 : i < 10
    · rw [if_pos h10]
      refine ih (i + 1) (cnt.set i (cnt.getD i 0 + cnt.getD (i - 1) 0)) (by omega) (by omega)
        (by rw [List.length_set, hl]) ?_ ?_
      · intro v hv
        by_cases hvi : v = i
        · rw [hvi, dget_set_self _ (by omega)]
          have h1 : dget cnt i = dget c0 i := hhigh i (Nat.le_refl i)
          have h2 : dget cnt (i - 1) = sumF (dget c0) (i - 1 + 1) := hlow (i - 1) (by omega)
          rw [show i - 1 + 1 = i by omega] at h2
          have h3 : sumF (dget c0) (i + 1) = sumF (dget c0) i + dget c0 i := rfl
          have h4 : cnt.getD i 0 = dget cnt i := rfl
          have h5 : cnt.getD (i - 1) 0 = dget cnt (i - 1) := rfl
          omega
        · rw [dget_set_ne _ (fun h => hvi h.symm)]
          exact hlow v (by omega)
      · intro v hv
        rw [dget_set_ne _ (by omega)]
        exact hhigh v (by omega)
    · rw [if_neg h10]
      exact ⟨hl, fun v hv => hlow v (by omega)⟩

theorem dget_take (l : List Int) (n p : Nat) (h1 : p < n) (h2 : n ≤ l.length) :
    dget (l.take n) p = dget l p := by
  unfold dget
  rw [List.getD_eq_getElem _ _ (by simp; omega), List.getD_eq_getElem _ _ (by omega)]
  exact List.getElem_take l

theorem count_eq_countP_range (v : Int) :
    ∀ l : List Int, l.count v = (List.range l.length).countP (fun p => decide (dget l p = v))
  | [] => rfl
  | x :: t => by
    rw [List.count_cons, List.length_cons, List.range_succ_eq_map, List.countP_cons,
      List.countP_map, count_eq_countP_range v t]
    congr 1

theorem countingSortByDigitL_perm (d : List Int) (size : Nat) (exp : Int)
    (hsz : size ≤ d.length) (hexp : 0 < exp)
    (hpos : ∀ j, j < size → 0 ≤ dget d j) :
    (countingSortByDigitL d size exp).length = d.length ∧
    ((countingSortByDigitL d size exp).take size).Perm (d.take size) ∧
    (countingSortByDigitL d size exp).drop size = d.drop size := by
  have hD : ∀ j, j < size → (goDigit (dget d j) exp).toNat < 10 :=
    fun j hj => goDigit_lt10 _ _ (hpos j hj) hexp
  unfold countingSortByDigitL
  dsimp only
  obtain ⟨hct_len, hct⟩ := cntLoopDigit_spec d size exp size 0 (List.replicate 10 0)
    (by omega) (fun j hj1 hj2 => by rw [List.length_replicate]; exact hD j hj2)
  set c0 := cntLoopDigit d size exp size (List.replicate 10 0) 0 with hc0
  rw [List.length_replicate] at hct_len
  have hc0v : ∀ k, dget c0 k = cntA d exp size k := by
    intro k
    rw [hct k, dget_replicate_nat, show size - 0 = size from rfl]
    unfold cntA
    rw [List.range_eq_range']
    omega
  obtain ⟨hps_len, hps⟩ := prefixSumLoop_spec c0 9 1 c0 (by omega) (by omega) hct_len
    (fun v hv => by
      rw [show v = 0 by omega]
      have h1 : sumF (dget c0) (0 + 1) = sumF (dget c0) 0 + dget c0 0 := rfl
      have h2 : sumF (dget c0) 0 = 0 := rfl
      omega)
    (fun v hv => rfl)
  set c2 := prefixSumLoop 9 c0 1 with hc2
  have hA : ∀ v, v < 10 → dget c2 v = sumF (dget c0) v + cntA d exp size v := by
    intro v hv
    rw [hps v hv]
    have h1 : sumF (dget c0) (v + 1) = sumF (dget c0) v + dget c0 v := rfl
    rw [h1, hc0v v]
  have hC : ∀ v w, v < w → w < 10 →
      sumF (dget c0) v + cntA d exp size v ≤ sumF (dget c0) w := by
    intro v w hvw hw
    have h1 : sumF (dget c0) (v + 1) = sumF (dget c0) v + dget c0 v := rfl
    have h2 := sumF_mono (dget c0) (show v + 1 ≤ w by omega)
    have h3 := hc0v v
    omega
  have htot : sumF (dget c0) 10 = size := by
    rw [sumF_congr 10 (fun w hw => hc0v w)]
    exact sumF_cntA d exp size hD
  have hE : ∀ j, j < size →
      posOf d exp (sumF (dget c0)) j < (List.replicate size (0 : Int)).length := by
    intro j hj
    rw [List.length_replicate]
    unfold posOf
    have hv10 := hD j hj
    have h1 := cntA_strict d exp hj (rfl :
      (goDigit (dget d j) exp).toNat = (goDigit (dget d j) exp).toNat)
    have h3 : sumF (dget c0) ((goDigit (dget d j) exp).toNat + 1)
        = sumF (dget c0) ((goDigit (dget d j) exp).toNat)
          + cntA d exp size ((goDigit (dget d j) exp).toNat) := by
      have h4 : sumF (dget c0) ((goDigit (dget d j) exp).toNat + 1)
          = sumF (dget c0) ((goDigit (dget d j) exp).toNat)
            + dget c0 ((goDigit (dget d j) exp).toNat) := rfl
      rw [h4, hc0v]
    have h5 := sumF_mono (dget c0) (show (goDigit (dget d j) exp).toNat + 1 ≤ 10 by omega)
    omega
  obtain ⟨pl_len, pl_fr, pl_w⟩ := placeLoop_spec d exp (sumF (dget c0)) size
    (List.replicate size 0) c2 hps_len hD hA hC hE
  set r1 := (placeLoop d exp (List.replicate size (0 : Int)) c2 size).1 with hr1
  rw [List.length_replicate] at pl_len
  have hperm : r1.Perm (d.take size) := by
    rw [List.perm_iff_count]
    intro v
    rw [count_eq_countP_range v r1, count_eq_countP_range v (d.take size), pl_len,
      List.length_take, show min size d.length = size by omega]
    have hinj := posOf_inj d exp (sumF (dget c0)) size hC hD
    have hnodup : ((List.range size).map (posOf d exp (sumF (dget c0)))).Nodup := by
      refine (List.nodup_map_iff_inj_on (List.nodup_range size)).mpr ?_
      intro a ha b hb hab
      rcases Nat.lt_trichotomy a b with h | h | h
      · exact absurd hab (hinj a b h (by simpa using hb))
      · exact h
      · exact absurd hab.symm (hinj b a h (by simpa using ha))
    have hsub : ((List.range size).map (posOf d exp (sumF (dget c0)))) ⊆ List.range size := by
      intro p hp
      rw [List.mem_map] at hp
      obtain ⟨j, hj1, hj2⟩ := hp
      rw [List.mem_range] at hj1 ⊢
      rw [← hj2]
      have := hE j hj1
      rw [List.length_replicate] at this
      exact this
    have hP : ((List.range size).map (posOf d exp (sumF (dget c0)))).Perm (List.range size) :=
      (List.subperm_of_subset hnodup hsub).perm_of_length_le (by simp)
    rw [← List.Perm.countP_eq _ hP, List.countP_map]
    apply List.countP_congr
    intro j hj
    rw [List.mem_range] at hj
    show decide (dget r1 (posOf d exp (sumF (dget c0)) j) = v) = true
      ↔ decide (dget (d.take size) j = v) = true
    rw [pl_w j hj, dget_take d size j hj hsz]
  refine ⟨?_, ?_, ?_⟩
  · rw [List.length_append, pl_len, List.length_drop]
    omega
  · rw [show size = r1.length by rw [pl_len], List.take_left]
    rw [pl_len]
    exact hperm
  · rw [show size = r1.length by rw [pl_len], List.drop_left, pl_len]

theorem dget_mem_take (l : List Int) (n j : Nat) (h1 : j < n) (h2 : n ≤ l.length) :
    dget l j ∈ l.take n := by
  rw [take_eq_seg l n (by omega) h2]
  exact dget_mem_seg (by omega) (by omega)

theorem radixLoop_perm (size : Nat) (maxVal : Int) :
    ∀ fuel (d : List Int) exp, 0 < exp → size ≤ d.length →
      (∀ j, j < size → 0 ≤ dget d j) →
      (radixLoop size maxVal fuel d exp).length = d.length ∧
      ((radixLoop size maxVal fuel d exp).take size).Perm (d.take size) := by
  intro fuel
  induction fuel with
  | zero =>
    intro d exp hexp hsz hpos
    exact ⟨rfl, List.Perm.refl _⟩
  | succ fuel ih =>
    intro d exp hexp hsz hpos
    simp only [radixLoop]
    by_cases hguard : 0 < maxVal.tdiv exp
    · rw [if_pos hguard]
      obtain ⟨plen, pperm, pdrop⟩ := countingSortByDigitL_perm d size exp hsz hexp hpos
      obtain ⟨ilen, iperm⟩ := ih (countingSortByDigitL d size exp) (exp * 10) (by omega)
        (by omega)
        (fun j hj => by
          have hmem : dget (countingSortByDigitL d size exp) j
              ∈ (countingSortByDigitL d size exp).take size :=
            dget_mem_take _ _ _ hj (by omega)
          have hmem2 := pperm.subset hmem
          rw [take_eq_seg d size (by omega) hsz] at hmem2
          obtain ⟨k, hk1, hk2, hk3⟩ := mem_seg.mp hmem2
          rw [← hk3]
          exact hpos k (by omega))
      exact ⟨by omega, iperm.trans pperm⟩
    · rw [if_neg hguard]
      exact ⟨rfl, List.Perm.refl _⟩

theorem radixSort_perm (pq : PQueue Int) (hswo : SWO pq.less) (hwf : pq.WF)
    (h0 : 0 < pq.size) (hpos : ∀ j, j < pq.size → 0 ≤ dget pq.data j) :
    (pq.radixSort).data.length = pq.data.length ∧
    ((pq.radixSort).data.take pq.size).Perm (pq.data.take pq.size) := by
  have hwf' : pq.size ≤ pq.data.length := hwf
  unfold PQueue.radixSort
  by_cases hdt : pq.dataType ≠ DataType.IntegerType
  · rw [if_pos hdt]
    exact quickSort_perm pq hswo hwf h0
  · rw [if_neg hdt]
    dsimp only
    by_cases hmax : pq.getMaxInt ≤ 0
    · rw [if_pos hmax]
      exact ⟨rfl, List.Perm.refl _⟩
    · rw [if_neg hmax]
      dsimp only
      exact radixLoop_perm pq.size pq.getMaxInt (pq.getMaxInt.toNat + 1) pq.data 1
        (by omega) hwf' hpos

theorem sws_small (pq : PQueue Int) (s : SortStrategy) (h : pq.size ≤ 1) :
    pq.SortWithStrategy s = pq := by
  unfold PQueue.SortWithStrategy
  rw [if_pos h]

theorem sws_perm (pq : PQueue Int) (hswo : SWO pq.less) (hwf : pq.WF)
    (hpos : pq.dataType = DataType.IntegerType → ∀ j, j < pq.size → 0 ≤ dget pq.data j)
    (s : SortStrategy) :
    (pq.SortWithStrategy s).data.length = pq.data.length ∧
    ((pq.SortWithStrategy s).data.take pq.size).Perm (pq.data.take pq.size) := by
  have hwf' : pq.size ≤ pq.data.length := hwf
  by_cases h1 : pq.size ≤ 1
  · rw [sws_small pq s h1]
    exact ⟨rfl, List.Perm.refl _⟩
  · have h0 : 0 < pq.size := by omega
    unfold PQueue.SortWithStrategy
    rw [if_neg h1]
    dsimp only
    generalize (if s = SortStrategy.AutoStrategy then pq.chooseOptimalStrategy else s) = a
    cases a with
    | AutoStrategy =>
      exact quickSort_perm pq hswo hwf h0
    | RadixStrategy =>
      by_cases hdt : pq.dataType = DataType.IntegerType
      · rw [if_pos hdt]
        exact radixSort_perm pq hswo hwf h0 (hpos hdt)
      · rw [if_neg hdt]
        exact quickSort_perm pq hswo hwf h0
    | CountingStrategy =>
      show (if pq.dataType = DataType.IntegerType then pq.countingSort
          else pq.quickSort).data.length = pq.data.length ∧
        (((if pq.dataType = DataType.IntegerType then pq.countingSort
          else pq.quickSort)).data.take pq.size).Perm (pq.data.take pq.size)
      by_cases hdt : pq.dataType = DataType.IntegerType
      · rw [if_pos hdt]
        exact countingSort_perm pq hswo hwf h0
      · rw [if_neg hdt]
        exact quickSort_perm pq hswo hwf h0
    | InsertionStrategy =>
      have hop := (insertionSort_ok pq hswo hwf h0).1
      exact ⟨hop.len, hop.take_perm h0 hwf'⟩
    | TimsortStrategy =>
      have hop := (timsort_ok pq hswo hwf h0).1
      exact ⟨hop.len, hop.take_perm h0 hwf'⟩
    | IntrosortStrategy =>
      unfold PQueue.introsort
      dsimp only
      have hop := (introsortRange_ok hswo pq.size pq.data 0 (pq.size - 1)
        (2 * log2floor pq.size) (by omega) (by omega)).1
      exact ⟨hop.len, hop.take_perm h0 hwf'⟩
    | MergeStrategy =>
      unfold PQueue.mergeSort
      rw [if_neg h1]
      dsimp only
      have hop := (mergeSortRange_ok hswo (pq.size - 1) pq.data 0 (pq.size - 1)
        (by omega) (by omega)).1
      exact ⟨hop.len, hop.take_perm h0 hwf'⟩
    | QuickStrategy =>
      exact quickSort_perm pq hswo hwf h0

/-! ## Operation sequences: Push, Pop and Sort conserve the element multiset -/

/-- One client operation against the queue: Push(v), Pop(), or Sort(). -/
inductive QOp where
  | push (v : Int)
  | pop
  | sort

/-- Apply one operation to a (queue, popped-values-so-far) pair; a Pop
    appends its returned element, if any, to the popped list. -/
def applyOp (st : PQueue Int × List Int) (op : QOp) : PQueue Int × List Int :=
  match op with
  | QOp.push v => (st.1.Push v, st.2)
  | QOp.pop => ((st.1.Pop).2, st.2 ++ (st.1.Pop).1.toList)
  | QOp.sort => (st.1.sortAuto, st.2)

/-- Apply a finite sequence of operations from left to right. -/
def applyOps (st : PQueue Int × List Int) : List QOp → PQueue Int × List Int
  | [] => st
  | op :: rest => applyOps (applyOp st op) rest

/-- The values pushed by a sequence of operations, in order. -/
def pushedVals : List QOp → List Int
  | [] => []
  | QOp.push v :: rest => v :: pushedVals rest
  | QOp.pop :: rest => pushedVals rest
  | QOp.sort :: rest => pushedVals rest

theorem take_succ_set {T : Type} (l : List T) (n : Nat) (v : T) (h : n < l.length) :
    (l.set n v).take (n + 1) = l.take n ++ [v] := by
  have hlen : (l.take n).length = n := by simp [Nat.min_eq_left (Nat.le_of_lt h)]
  rw [List.set_take, List.take_succ, List.getElem?_eq_getElem h, Option.toList_some,
    List.set_append, if_neg (by rw [hlen]; omega), hlen]
  simp

theorem middle_last_swap_perm {T : Type} (xs ys : List T) (a b : T) :
    ((xs ++ b :: ys) ++ [a]).Perm ((xs ++ a :: ys) ++ [b]) := by
  rw [List.append_assoc, List.append_assoc]
  refine List.Perm.append_left xs ?_
  refine (List.Perm.cons b (List.perm_append_singleton a ys)).trans ?_
  refine (List.Perm.swap a b ys).trans ?_
  exact List.Perm.cons a (List.perm_append_singleton b ys).symm

theorem minIdxLoop_lt {T : Type} [Inhabited T] (less : T → T → Bool) (d : List T)
    (size : Nat) : ∀ fuel b i, b < size → minIdxLoop less d size fuel b i < size := by
  intro fuel
  induction fuel with
  | zero => intro b i hb; simpa [minIdxLoop] using hb
  | succ fuel ih =>
    intro b i hb
    unfold minIdxLoop
    by_cases hi : i < size
    · rw [if_pos hi]
      apply ih
      split <;> omega
    · rw [if_neg hi]; exact hb

theorem pop_take_perm {T : Type} [Inhabited T] (d : List T) (s m : Nat)
    (hm : m < s) (hs : s ≤ d.length) :
    ((d.set m (dget d (s - 1))).take (s - 1) ++ [dget d m]).Perm (d.take s) := by
  have hs1 : s - 1 < d.length := by omega
  have hdg : dget d (s - 1) = d[s - 1] := by
    unfold dget; rw [List.getD_eq_getElem _ _ hs1]
  have htS : d.take s = d.take (s - 1) ++ [d[s - 1]] := by
    have hseq : s = (s - 1) + 1 := by omega
    conv_lhs => rw [hseq]
    rw [List.take_succ, List.getElem?_eq_getElem hs1, Option.toList_some]
  by_cases hms : m = s - 1
  · rw [hms, List.set_take, List.set_eq_of_length_le (by simp)]
    rw [hdg, htS]
  · have hm1 : m < s - 1 := by omega
    have hmd : m < d.length := by omega
    have hmt : m < (d.take (s - 1)).length := by simp; omega
    have hdgm : dget d m = d[m] := by unfold dget; rw [List.getD_eq_getElem _ _ hmd]
    have hgetm : (d.take (s - 1))[m] = d[m] := List.getElem_take d
    have hA : (d.take (s - 1)).set m (dget d (s - 1)) =
        (d.take (s - 1)).take m ++ dget d (s - 1) :: (d.take (s - 1)).drop (m + 1) :=
      List.set_eq_take_cons_drop _ hmt
    have hB2 : d.take (s - 1) =
        (d.take (s - 1)).take m ++ d[m] :: (d.take (s - 1)).drop (m + 1) := by
      rw [← hgetm, List.getElem_cons_drop, List.take_append_drop]
    rw [List.set_take, htS, hA, hdgm, ← hdg]
    refine (middle_last_swap_perm _ _ _ _).trans (List.Perm.of_eq ?_)
    rw [← hB2]

theorem Push_spec {T : Type} [Inhabited T] (pq : PQueue T) (v : T) (hwf : pq.WF) :
    (pq.Push v).WF ∧ (pq.Push v).size = pq.size + 1 ∧ (pq.Push v).less = pq.less ∧
    (pq.Push v).dataType = pq.dataType ∧ (pq.Push v).ToSlice = pq.ToSlice ++ [v] := by
  have hwf' : pq.size ≤ pq.data.length := hwf
  unfold PQueue.Push PQueue.WF PQueue.ToSlice
  dsimp only
  by_cases hfull : pq.data.length ≤ pq.size
  · rw [if_pos hfull]
    have hlen : pq.data.length = pq.size := by omega
    generalize hg : (if pq.data.length * 2 = 0 then 1 else pq.data.length * 2) = ns
    have hns : pq.size < ns := by rw [← hg]; split <;> omega
    have hdlen : (pq.data.take pq.size ++ List.replicate (ns - pq.size) default).length = ns := by
      simp [Nat.min_eq_left hwf']
      omega
    refine ⟨?_, rfl, rfl, rfl, ?_⟩
    · rw [List.length_set, hdlen]; omega
    · rw [take_succ_set _ _ _ (by rw [hdlen]; omega)]
      rw [List.take_append_of_le_length (by simp [Nat.min_eq_left hwf'])]
      simp [List.take_take]
  · rw [if_neg hfull]
    refine ⟨?_, rfl, rfl, rfl, ?_⟩
    · rw [List.length_set]; omega
    · rw [take_succ_set _ _ _ (by omega)]

theorem Pop_spec {T : Type} [Inhabited T] (pq : PQueue T) (h0 : 0 < pq.size) (hwf : pq.WF) :
    (pq.Pop).2.WF ∧ (pq.Pop).2.size = pq.size - 1 ∧ (pq.Pop).2.less = pq.less ∧
    (pq.Pop).2.dataType = pq.dataType ∧
    ∃ v, (pq.Pop).1 = some v ∧ ((pq.Pop).2.ToSlice ++ [v]).Perm pq.ToSlice := by
  have hwf' : pq.size ≤ pq.data.length := hwf
  unfold PQueue.Pop PQueue.WF PQueue.ToSlice
  rw [if_neg (by omega)]
  dsimp only
  refine ⟨?_, rfl, rfl, rfl, dget pq.data (minIdxLoop pq.less pq.data pq.size (pq.size - 1) 0 1),
    rfl, ?_⟩
  · rw [List.length_set]; omega
  · exact pop_take_perm pq.data pq.size _
      (minIdxLoop_lt pq.less pq.data pq.size (pq.size - 1) 0 1 h0) hwf'

theorem mem_take_dget (l : List Int) (n : Nat) (x : Int) (h : x ∈ l.take n) :
    ∃ i, i < n ∧ dget l i = x := by
  obtain ⟨i, hi, hx⟩ := List.getElem_of_mem h
  have hb : i < n := by
    have h2 := hi; simp [List.length_take] at h2; omega
  have hi2 : i < l.length := by
    have h2 := hi; simp [List.length_take] at h2; omega
  refine ⟨i, hb, ?_⟩
  rw [← hx]
  show dget l i = (l.take n).get ⟨i, hi⟩
  rw [List.get_eq_getElem, List.getElem_take]
  unfold dget
  rw [List.getD_eq_getElem _ _ hi2]

theorem nonneg_index_of_mem {pq : PQueue Int} (hwf : pq.WF)
    (h : ∀ x ∈ pq.ToSlice, 0 ≤ x) : ∀ j, j < pq.size → 0 ≤ dget pq.data j := by
  intro j hj
  exact h _ (dget_mem_take pq.data pq.size j hj hwf)

theorem sortAuto_spec (pq : PQueue Int) (hswo : SWO pq.less) (hwf : pq.WF)
    (hpos : pq.dataType = DataType.IntegerType → ∀ j, j < pq.size → 0 ≤ dget pq.data j) :
    pq.sortAuto.WF ∧ pq.sortAuto.size = pq.size ∧ pq.sortAuto.less = pq.less ∧
    pq.sortAuto.dataType = pq.dataType ∧ (pq.sortAuto.ToSlice).Perm pq.ToSlice := by
  have hf := sws_fields pq SortStrategy.AutoStrategy
  have hp := sws_perm pq hswo hwf hpos SortStrategy.AutoStrategy
  unfold PQueue.sortAuto
  refine ⟨?_, hf.1, hf.2.1, hf.2.2, ?_⟩
  · unfold PQueue.WF
    rw [hf.1, hp.1]
    exact hwf
  · unfold PQueue.ToSlice
    rw [hf.1]
    exact hp.2

theorem applyOps_spec (ops : List QOp) :
    ∀ (pq : PQueue Int) (acc : List Int), SWO pq.less → pq.WF →
      (pq.dataType = DataType.IntegerType → ∀ x ∈ pq.ToSlice, 0 ≤ x) →
      (pq.dataType = DataType.IntegerType → ∀ w ∈ pushedVals ops, 0 ≤ w) →
      ((applyOps (pq, acc) ops).1.ToSlice ++ (applyOps (pq, acc) ops).2).Perm
        (pq.ToSlice ++ (pushedVals ops ++ acc)) := by
  induction ops with
  | nil =>
    intro pq acc hswo hwf hpos hpush
    simp only [applyOps, pushedVals, List.nil_append]
    exact List.Perm.refl _
  | cons op rest ih =>
    intro pq acc hswo hwf hpos hpush
    cases op with
    | push v =>
      obtain ⟨hwf2, hsz, hless, hdt, hts⟩ := Push_spec pq v hwf
      have hswo2 : SWO (pq.Push v).less := by rw [hless]; exact hswo
      have hpos2 : (pq.Push v).dataType = DataType.IntegerType →
          ∀ x ∈ (pq.Push v).ToSlice, 0 ≤ x := by
        intro hdt2 x hx
        rw [hts] at hx
        rcases List.mem_append.mp hx with hx1 | hx2
        · exact hpos (by rw [← hdt]; exact hdt2) x hx1
        · have hxv : x = v := by simpa using hx2
          rw [hxv]
          exact hpush (by rw [← hdt]; exact hdt2) v (by simp [pushedVals])
      have hpush2 : (pq.Push v).dataType = DataType.IntegerType →
          ∀ w ∈ pushedVals rest, 0 ≤ w := by
        intro hdt2 w hw
        exact hpush (by rw [← hdt]; exact hdt2) w (by simp [pushedVals, hw])
      have hih := ih (pq.Push v) acc hswo2 hwf2 hpos2 hpush2
      simp only [applyOps, applyOp]
      refine hih.trans (List.Perm.of_eq ?_)
      rw [hts]
      simp [pushedVals, List.append_assoc]
    | pop =>
      by_cases h0 : pq.size = 0
      · have hpop : pq.Pop = (none, pq) := by
          unfold PQueue.Pop; rw [if_pos h0]
        have hpush2 : pq.dataType = DataType.IntegerType →
            ∀ w ∈ pushedVals rest, 0 ≤ w := by
          intro hdt2 w hw
          exact hpush hdt2 w (by simp [pushedVals, hw])
        have hih := ih pq (acc ++ []) hswo hwf hpos hpush2
        simp only [applyOps, applyOp, hpop, Option.toList]
        refine hih.trans (List.Perm.of_eq ?_)
        simp [pushedVals]
      · have h0' : 0 < pq.size := by omega
        obtain ⟨hwf2, hsz, hless, hdt, v, hv1, hperm⟩ := Pop_spec pq h0' hwf
        have hswo2 : SWO (pq.Pop).2.less := by rw [hless]; exact hswo
        have hpos2 : (pq.Pop).2.dataType = DataType.IntegerType →
            ∀ x ∈ (pq.Pop).2.ToSlice, 0 ≤ x := by
          intro hdt2 x hx
          exact hpos (by rw [← hdt]; exact hdt2) x
            (hperm.mem_iff.mp (List.mem_append_left _ hx))
        have hpush2 : (pq.Pop).2.dataType = DataType.IntegerType →
            ∀ w ∈ pushedVals rest, 0 ≤ w := by
          intro hdt2 w hw
          exact hpush (by rw [← hdt]; exact hdt2) w (by simp [pushedVals, hw])
        have hih := ih (pq.Pop).2 (acc ++ [v]) hswo2 hwf2 hpos2 hpush2
        simp only [applyOps, applyOp, hv1, Option.toList_some]
        refine hih.trans ?_
        have hstep1 : (pushedVals rest ++ (acc ++ [v])).Perm
            (v :: (pushedVals rest ++ acc)) := by
          have he : pushedVals rest ++ (acc ++ [v]) = (pushedVals rest ++ acc) ++ [v] := by
            simp [List.append_assoc]
          rw [he]
          exact List.perm_append_singleton v (pushedVals rest ++ acc)
        refine (List.Perm.append_left (pq.Pop).2.ToSlice hstep1).trans ?_
        have hstep2 : (pq.Pop).2.ToSlice ++ (v :: (pushedVals rest ++ acc)) =
            ((pq.Pop).2.ToSlice ++ [v]) ++ (pushedVals rest ++ acc) := by
          simp [List.append_assoc]
        rw [hstep2]
        refine (List.Perm.append hperm (List.Perm.refl (pushedVals rest ++ acc))).trans
          (List.Perm.of_eq ?_)
        simp [pushedVals]
    | sort =>
      have hposIdx : pq.dataType = DataType.IntegerType →
          ∀ j, j < pq.size → 0 ≤ dget pq.data j := by
        intro hdt2
        exact nonneg_index_of_mem hwf (hpos hdt2)
      obtain ⟨hwf2, hsz, hless, hdt, hperm⟩ := sortAuto_spec pq hswo hwf hposIdx
      have hswo2 : SWO pq.sortAuto.less := by rw [hless]; exact hswo
      have hpos2 : pq.sortAuto.dataType = DataType.IntegerType →
          ∀ x ∈ pq.sortAuto.ToSlice, 0 ≤ x := by
        intro hdt2 x hx
        exact hpos (by rw [← hdt]; exact hdt2) x (hperm.mem_iff.mp hx)
      have hpush2 : pq.sortAuto.dataType = DataType.IntegerType →
          ∀ w ∈ pushedVals rest, 0 ≤ w := by
        intro hdt2 w hw
        exact hpush (by rw [← hdt]; exact hdt2) w (by simp [pushedVals, hw])
      have hih := ih pq.sortAuto acc hswo2 hwf2 hpos2 hpush2
      simp only [applyOps, applyOp]
      refine hih.trans ?_
      refine (List.Perm.append hperm (List.Perm.refl (pushedVals rest ++ acc))).trans
        (List.Perm.of_eq ?_)
      simp [pushedVals]

/-- C7: after any finite sequence of Push, Pop and Sort operations from a
    well-formed strict-weak-order queue, ToSlice plus the list of values the
    Pops returned is, as a multiset, the initial live prefix plus every value
    pushed — elements are conserved.  The aliasing half of the claim (the
    returned slice never shares storage with the queue) is a Go memory
    property with no counterpart in this value-level model, where ToSlice is
    by construction a copy.  For integer-tagged queues the values are assumed
    nonnegative: on a negative value the Go radix pass computes a negative
    digit and panics on the count-array index, so no state is returned at
    all on the excluded inputs. -/
theorem spec_ops_multiset (pq : PQueue Int) (ops : List QOp)
    (hswo : SWO pq.less) (hwf : pq.WF)
    (hpos : pq.dataType = DataType.IntegerType →
      (∀ x ∈ pq.ToSlice, 0 ≤ x) ∧ (∀ w ∈ pushedVals ops, 0 ≤ w)) :
    ((applyOps (pq, []) ops).1.ToSlice ++ (applyOps (pq, []) ops).2).Perm
      (pq.ToSlice ++ pushedVals ops) := by
  have h := applyOps_spec ops pq [] hswo hwf
    (fun hdt => (hpos hdt).1) (fun hdt => (hpos hdt).2)
  refine h.trans (List.Perm.of_eq ?_)
  simp

/-- Witness: starting from NewInts [3, 1, 2], pushing 5, popping, sorting and
    popping again conserves the element multiset. -/
theorem spec_ops_multiset_witness :
    ((applyOps (NewInts [3, 1, 2], []) [QOp.push 5, QOp.pop, QOp.sort, QOp.pop]).1.ToSlice ++
        (applyOps (NewInts [3, 1, 2], []) [QOp.push 5, QOp.pop, QOp.sort, QOp.pop]).2).Perm
      ((NewInts [3, 1, 2]).ToSlice ++ pushedVals [QOp.push 5, QOp.pop, QOp.sort, QOp.pop]) :=
  spec_ops_multiset (NewInts [3, 1, 2]) [QOp.push 5, QOp.pop, QOp.sort, QOp.pop]
    intLess_SWO (by decide) (by decide)
